import Mathlib

/-!
# Skip list (`skiplist` package): shallow embedding and verification

The Go package stores a multi-level linked structure of `Node`s that are
reached through pointers and mutated in place.  The embedding keeps that
shape: a heap is a list of nodes, a pointer is `Option Nat` (`none` is Go's
`nil`, `some a` is the address `a`, an index into the heap), allocation
appends to the heap, and a field assignment rewrites one heap cell.

The element type `T cmp.Ordered` is instantiated at `Int` (the type the
benchmarks of the package use); only comparisons of values occur.

The random source (`coinFlip`) is a list of coin outcomes that is consumed
from the front.
-/

namespace skiplist

/-! ## Data model -/

/-- Ways in which a run of the embedded code stops without a result.
`nilDeref` is Go's run-time panic on a nil pointer dereference.  The other
three are artefacts of the embedding: an iteration bound that ran out, a
list of coin outcomes that ran out, an address outside the heap. -/
inductive Err where
  | nilDeref
  | outOfFuel
  | outOfFlips
  | dangling
  deriving DecidableEq, Repr

/-- The Go type `type Node[T cmp.Ordered] struct { isHead bool; Value T; Right *Node[T]; Down *Node[T] }` -/
structure Node where
  isHead : Bool
  Value : Int
  Right : Option Nat
  Down : Option Nat
  deriving DecidableEq, Repr

/-- The store of all allocated nodes; the address of a node is its index. -/
abbrev Heap := List Node

/-- The Go type `type SkipList[T cmp.Ordered] struct { head *Node[T]; Rand *rand.Rand }`
together with the heap the pointers refer to.  The random source is passed
to `Insert` as a list of coin outcomes. -/
structure SkipList where
  heap : Heap
  head : Option Nat
  deriving DecidableEq, Repr

/-- The zero value `SkipList[T]{}`: `head` is nil and nothing is allocated. -/
def empty : SkipList := { heap := [], head := none }

/-- The Go type `type Iterator[T cmp.Ordered] struct { skipList *SkipList[T]; current *Node[T] }`;
the `skipList` field is never read and is left out. -/
structure Iterator where
  current : Option Nat
  deriving DecidableEq, Repr

/-- Read the node stored at a (non-nil) address. -/
def deref (h : Heap) (a : Nat) : Except Err Node :=
  match h[a]? with
  | some n => pure n
  | none => throw Err.dangling

/-! ## walk -/

/-- The loop of `walk`:
```go
current := start
for current.Right != nil {
    if current.Right.Value >= searchedVal { break }
    current = current.Right
}
```
Each unit of fuel pays for one evaluation of the loop condition. -/
def advance (h : Heap) (searchedVal : Int) : Nat → Nat → Except Err Nat
  | 0, _ => throw Err.outOfFuel
  | fuel + 1, current => do
      let node ← deref h current
      match node.Right with
      | none => pure current
      | some r => do
          let right ← deref h r
          if right.Value ≥ searchedVal then pure current
          else advance h searchedVal fuel r

/-- The Go method `func (l *SkipList[T]) walk(start *Node[T], searchedVal T, callback func(*Node[T]))`.
The callback is a state transformer on the heap and the variables it
captures.  Each unit of fuel pays for one level of the recursion; the inner
loop may look at as many nodes as the heap holds. -/
def walk {σ : Type} (searchedVal : Int)
    (callback : Nat → Heap × σ → Except Err (Heap × σ)) :
    Nat → Option Nat → Heap × σ → Except Err (Heap × σ)
  | _, none, s => pure s
  | 0, some _, _ => throw Err.outOfFuel
  | fuel + 1, some start, s => do
      let current ← advance s.1 searchedVal s.1.length start
      let node ← deref s.1 current
      match node.Down with
      | none => callback current s
      | some d => do
          let s' ← walk searchedVal callback fuel (some d) s
          callback current s'

/-! ## Get -/

/-- The closure passed to `walk` by `Get`; it captures `resultNode` and `found`. -/
def getCallback (node : Nat) (s : Heap × (Option Nat × Bool)) :
    Except Err (Heap × (Option Nat × Bool)) :=
  if s.2.2 then pure s else pure (s.1, (some node, true))

/-- The Go method `func (l *SkipList[T]) Get(searchedVal T) (value T, found bool)`. -/
def Get (l : SkipList) (searchedVal : Int) : Except Err (Int × Bool) := do
  let s ← walk searchedVal getCallback l.heap.length l.head (l.heap, (none, false))
  match s.2.1 with
  | none => throw Err.nilDeref
  | some a => do
      let node ← deref s.1 a
      match node.Right with
      | none => pure (0, false)
      | some r => do
          let resultNode ← deref s.1 r
          if resultNode.Value ≠ searchedVal then pure (0, false)
          else pure (resultNode.Value, true)

/-! ## Insert -/

/-- The Go method `func (l *SkipList[T]) coinFlip() bool`: the next outcome of the random source. -/
def coinFlip (flips : List Bool) : Except Err (Bool × List Bool) :=
  match flips with
  | [] => throw Err.outOfFlips
  | c :: rest => pure (c, rest)

/-- The variables captured by the closure of `Insert`, and the random source. -/
structure InsertVars where
  previousNode : Option Nat
  shouldInsert : Bool
  flips : List Bool
  deriving DecidableEq, Repr

/-- The closure passed to `walk` by `Insert`. -/
def insertCallback (val : Int) (node : Nat) (s : Heap × InsertVars) :
    Except Err (Heap × InsertVars) :=
  if s.2.shouldInsert then do
    let n ← deref s.1 node
    let newNode : Node :=
      { isHead := false, Value := val, Right := n.Right, Down := s.2.previousNode }
    let addr := s.1.length
    let h := (s.1 ++ [newNode]).set node { n with Right := some addr }
    let (c, rest) ← coinFlip s.2.flips
    pure (h, { previousNode := some addr, shouldInsert := c, flips := rest })
  else pure s

/-- The loop `for shouldInsert { ... }` at the end of `Insert`, which adds
levels on top.  The first argument is `shouldInsert`; each iteration takes one
coin outcome. -/
def insertLoop (val : Int) :
    Bool → List Bool → Heap → Option Nat → Option Nat →
      Except Err (Heap × Option Nat × List Bool)
  | false, flips, h, head, _ => pure (h, head, flips)
  | true, [], _, _, _ => throw Err.outOfFlips
  | true, c :: rest, h, head, previousNode =>
      let newNode : Node :=
        { isHead := false, Value := val, Right := none, Down := previousNode }
      let newHead : Node :=
        { isHead := true, Value := 0, Right := some h.length, Down := head }
      insertLoop val c rest (h ++ [newNode, newHead]) (some (h.length + 1)) (some h.length)

/-- The Go method `func (l *SkipList[T]) Insert(val T)`; returns the coin outcomes left over. -/
def Insert (l : SkipList) (val : Int) (flips : List Bool) :
    Except Err (SkipList × List Bool) := do
  let s ← walk val (insertCallback val) l.heap.length l.head
    (l.heap, { previousNode := none, shouldInsert := true, flips := flips })
  let r ← insertLoop val s.2.shouldInsert s.2.flips s.1 l.head s.2.previousNode
  pure ({ heap := r.1, head := r.2.1 }, r.2.2)

/-! ## Remove -/

/-- The closure passed to `walk` by `Remove`; it captures nothing it writes. -/
def removeCallback (val : Int) (current : Nat) (s : Heap × Unit) :
    Except Err (Heap × Unit) := do
  let n ← deref s.1 current
  match n.Right with
  | none => pure s
  | some r => do
      let right ← deref s.1 r
      if right.Value ≠ val then pure s
      else pure (s.1.set current { n with Right := right.Right }, ())

/-- The Go method `func (l *SkipList[T]) Remove(val T) (removed bool)`.  The named result
`removed` is never assigned, so its zero value is what is returned. -/
def Remove (l : SkipList) (val : Int) : Except Err (SkipList × Bool) := do
  let removed := false
  let s ← walk val (removeCallback val) l.heap.length l.head (l.heap, ())
  pure ({ l with heap := s.1 }, removed)

/-! ## Iterators -/

/-- The closure passed to `walk` by `IterateFrom`; it captures `startNode`. -/
def iterateFromCallback (node : Nat) (s : Heap × Option Nat) :
    Except Err (Heap × Option Nat) :=
  match s.2 with
  | none => pure (s.1, some node)
  | some _ => pure s

/-- The Go method `func (l *SkipList[T]) IterateFrom(value T) *Iterator[T]`. -/
def IterateFrom (l : SkipList) (value : Int) : Except Err Iterator := do
  let s ← walk value iterateFromCallback l.heap.length l.head (l.heap, none)
  match s.2 with
  | none => throw Err.nilDeref
  | some a => do
      let startNode ← deref s.1 a
      pure { current := startNode.Right }

/-- The loop `for head.Down != nil { head = head.Down }` of `Iterate`. -/
def descend (h : Heap) : Nat → Option Nat → Except Err Nat
  | _, none => throw Err.nilDeref
  | 0, some _ => throw Err.outOfFuel
  | fuel + 1, some a => do
      let head ← deref h a
      match head.Down with
      | none => pure a
      | some d => descend h fuel (some d)

/-- The Go method `func (l *SkipList[T]) Iterate() *Iterator[T]`. -/
def Iterate (l : SkipList) : Except Err Iterator := do
  let a ← descend l.heap l.heap.length l.head
  let head ← deref l.heap a
  pure { current := head.Right }

/-- The Go method `func (i *Iterator[T]) Next() (val T, done bool)`; the third component is
the iterator after the call. -/
def Next (h : Heap) (i : Iterator) : Except Err (Int × Bool × Iterator) :=
  match i.current with
  | none => pure (0, true, i)
  | some a => do
      let node ← deref h a
      pure (node.Value, false, { current := node.Right })

/-- Call `Next` until it reports `done`, collecting the values. -/
def drain (h : Heap) : Nat → Iterator → Except Err (List Int)
  | 0, _ => throw Err.outOfFuel
  | fuel + 1, i => do
      let r ← Next h i
      if r.2.1 then pure []
      else do
        let rest ← drain h fuel r.2.2
        pure (r.1 :: rest)

/-- The values `Iterate()` yields: `it := l.Iterate()` followed by `Next` until done. -/
def iterateAll (l : SkipList) : Except Err (List Int) := do
  let it ← Iterate l
  drain l.heap (l.heap.length + 1) it

/-- The values `IterateFrom(value)` yields. -/
def iterateFromAll (l : SkipList) (value : Int) : Except Err (List Int) := do
  let it ← IterateFrom l value
  drain l.heap (l.heap.length + 1) it

/-! ## Sequences of operations -/

/-- A mutating call on the structure. -/
inductive Op where
  | insert (v : Int)
  | remove (v : Int)
  deriving DecidableEq, Repr

/-- Run a sequence of `Insert`/`Remove` calls, threading the random source. -/
def run : List Op → SkipList → List Bool → Except Err (SkipList × List Bool)
  | [], l, flips => pure (l, flips)
  | Op.insert v :: ops, l, flips => do
      let r ← Insert l v flips
      run ops r.1 r.2
  | Op.remove v :: ops, l, flips => do
      let r ← Remove l v
      run ops r.1 flips

end skiplist

/-! ## Ghost description of a well-formed structure

A level is described by the list of its cells from the head sentinel to the
last node.  A cell records the address of a node and every field of it except
`Right`, which is determined by the order of the list. -/

namespace skiplist

/-- The description of one node: its address and its fields other than `Right`. -/
structure Cell where
  addr : Nat
  isHead : Bool
  val : Int
  down : Option Nat
  deriving DecidableEq, Repr

/-- One level: the head sentinel and the nodes that follow it. -/
structure Level where
  hd : Cell
  nodes : List Cell
  deriving DecidableEq, Repr

/-- All cells of a level, the head sentinel first. -/
def Level.all (L : Level) : List Cell := L.hd :: L.nodes

/-- The pointer to the first cell of `rest`, or `e` when `rest` is empty. -/
def nextOf (rest : List Cell) (e : Option Nat) : Option Nat :=
  match rest with
  | [] => e
  | c :: _ => some c.addr

/-- The node a cell describes, given its `Right` pointer. -/
def Cell.node (c : Cell) (right : Option Nat) : Node :=
  { isHead := c.isHead, Value := c.val, Right := right, Down := c.down }

/-- The heap holds the cells of `cs`, linked through `Right` in this order,
the last one pointing to `e`. -/
def Rep (h : Heap) : List Cell → Option Nat → Prop
  | [], _ => True
  | c :: rest, e => h[c.addr]? = some (c.node (nextOf rest e)) ∧ Rep h rest e

/-- The test of the loop of `walk`: the value is strictly less than the target. -/
def below (v : Int) (c : Cell) : Bool := decide (c.val < v)

/-- The boundary cell of a level for the target `v`: the last cell of the
level whose value is less than `v`, the head sentinel when there is none. -/
def bd (v : Int) (L : Level) : Cell := (L.nodes.takeWhile (below v)).getLastD L.hd

/-- The cells that follow the boundary cell. -/
def after (v : Int) (L : Level) : List Cell := L.nodes.dropWhile (below v)

/-- The nodes `walk` hands to its callback, in the order of the calls. -/
def walkPath (h : Heap) (searchedVal : Int) : Nat → Option Nat → Except Err (List Nat)
  | _, none => pure []
  | 0, some _ => throw Err.outOfFuel
  | fuel + 1, some start => do
      let current ← advance h searchedVal h.length start
      let node ← deref h current
      match node.Down with
      | none => pure [current]
      | some d => do
          let lower ← walkPath h searchedVal fuel (some d)
          pure (lower ++ [current])

/-- The relation between a level `L` and the level `U` directly above it:
the head of `U` points down to the head of `L`, and the nodes of `U` point
down, in order and without repetition, to nodes of `L` with the same value. -/
def Twin (L U : Level) : Prop :=
  U.hd.down = some L.hd.addr ∧
  (U.nodes.map (fun c => (c.down, c.val))).Sublist
    (L.nodes.map (fun c => (some c.addr, c.val)))

/-- A level on its own: the sentinel is flagged, the nodes are not, and the
values of the nodes are in non-decreasing order. -/
structure LevelWF (L : Level) : Prop where
  hdHead : L.hd.isHead = true
  nodesReal : ∀ c ∈ L.nodes, c.isHead = false
  sorted : (L.nodes.map Cell.val).Pairwise (fun a b => a ≤ b)

/-- The addresses of all cells of all levels. -/
def addrs (Ls : List Level) : List Nat :=
  (Ls.map (fun L => L.all.map Cell.addr)).flatten

/-- The heap `h` holds the levels `Ls` (level 0 first): every level is a
linked chain, no node occurs twice, level 0 has no `Down` pointers, and each
level sits on the one below it as `Twin` says. -/
structure Stack (h : Heap) (Ls : List Level) : Prop where
  rep : ∀ L ∈ Ls, Rep h L.all none
  wf : ∀ L ∈ Ls, LevelWF L
  nodup : (addrs Ls).Nodup
  bottom : ∀ L, Ls.head? = some L → ∀ c ∈ L.all, c.down = none
  twin : Ls.Chain' Twin

/-- The structure `l` is well formed and `Ls` are its levels, level 0 first;
`l.head` is the sentinel of the last (topmost) level, nil when there is none. -/
structure Inv (l : SkipList) (Ls : List Level) : Prop where
  stack : Stack l.heap Ls
  head_eq : l.head = Ls.getLast?.map (fun L => L.hd.addr)

/-- The values stored at level 0, in chain order. -/
def level0 (Ls : List Level) : List Int :=
  match Ls with
  | [] => []
  | L :: _ => L.nodes.map Cell.val

/-- The effect of `Remove(v)` on one level: the first node with value `v`,
if there is one, leaves the chain. -/
def eraseLevel (v : Int) (L : Level) : Level :=
  { L with nodes := L.nodes.eraseP (fun c => v == c.val) }

/-- The cell of a node that `Insert` creates for the value `v`. -/
def newCell (v : Int) (addr : Nat) (prev : Option Nat) : Cell :=
  { addr := addr, isHead := false, val := v, down := prev }

/-- The level `L` with the cell `c` placed right after the boundary cell for `v`. -/
def insAt (v : Int) (c : Cell) (L : Level) : Level :=
  { L with nodes := L.nodes.takeWhile (below v) ++ c :: L.nodes.dropWhile (below v) }

/-- The effect on the levels (level 0 first) of the calls that `walk` makes to
the closure of `Insert`; `n` is the next free address.  The result holds the
new levels, the next free address and the captured variables. -/
def insWalk (v : Int) :
    List Level → Nat → InsertVars → Except Err (List Level × Nat × InsertVars)
  | [], n, vars => pure ([], n, vars)
  | L :: up, n, vars =>
      if vars.shouldInsert then do
        let (c, rest) ← coinFlip vars.flips
        let r ← insWalk v up (n + 1) { previousNode := some n, shouldInsert := c, flips := rest }
        pure (insAt v (newCell v n vars.previousNode) L :: r.1, r.2)
      else pure (L :: up, n, vars)

/-- The level that one iteration of the final loop of `Insert` creates. -/
def topLevel (v : Int) (n : Nat) (head prev : Option Nat) : Level :=
  { hd := { addr := n + 1, isHead := true, val := 0, down := head },
    nodes := [newCell v n prev] }

/-- The levels that the final loop of `Insert` creates, lowest first; the
arguments are those of `insertLoop`, with the next free address in place of
the heap.  The result holds the levels, the next free address, the new head
and the coin outcomes left over. -/
def insGrow (v : Int) :
    Bool → List Bool → Nat → Option Nat → Option Nat →
      Except Err (List Level × Nat × Option Nat × List Bool)
  | false, flips, n, head, _ => pure ([], n, head, flips)
  | true, [], _, _, _ => throw Err.outOfFlips
  | true, c :: rest, n, head, prev => do
      let r ← insGrow v c rest (n + 2) (some (n + 1)) (some n)
      pure (topLevel v n head prev :: r.1, r.2)

/-- The levels after `Insert(v)`, and the coin outcomes left over. -/
def insGhost (v : Int) (Ls : List Level) (n : Nat) (head : Option Nat) (flips : List Bool) :
    Except Err (List Level × List Bool) := do
  let w ← insWalk v Ls n { previousNode := none, shouldInsert := true, flips := flips }
  let g ← insGrow v w.2.2.shouldInsert w.2.2.flips w.2.1 head w.2.2.previousNode
  pure (w.1 ++ g.1, g.2.2.2)

/-- The value `v` placed in a sorted list before the first element that is
not less than `v`. -/
def insertSorted (v : Int) (xs : List Int) : List Int :=
  xs.takeWhile (fun x => decide (x < v)) ++ v :: xs.dropWhile (fun x => decide (x < v))

/-- The coin outcomes that follow the first failed one. -/
def afterFirstFalse (flips : List Bool) : List Bool :=
  (flips.dropWhile (fun b => b)).tail

/-- The coin outcomes a call of `Insert` leaves to later calls: while
`shouldInsert` holds it will still take outcomes up to the first failure. -/
def leftover (vars : InsertVars) : List Bool :=
  if vars.shouldInsert then afterFirstFalse vars.flips else vars.flips

/-! ## The reference model of the claims -/

/-- The number of `Insert` calls in a sequence of operations. -/
def numInserts : List Op → Nat
  | [] => 0
  | Op.insert _ :: ops => numInserts ops + 1
  | Op.remove _ :: ops => numInserts ops

/-- The values at level 0 after a sequence of operations, started from the
values `xs`: `Insert(v)` places `v` at its sorted position, `Remove(v)` takes
the first `v` away. -/
def contents : List Op → List Int → List Int
  | [], xs => xs
  | Op.insert v :: ops, xs => contents ops (insertSorted v xs)
  | Op.remove v :: ops, xs => contents ops (xs.erase v)

/-- The multiset of values inserted and not yet removed, started from the
multiset `s`: each `Insert(v)` adds one occurrence of `v`, each `Remove(v)`
takes one occurrence of `v` away when there is one. -/
def bagFrom : List Op → Multiset Int → Multiset Int
  | [], s => s
  | Op.insert v :: ops, s => bagFrom ops (v ::ₘ s)
  | Op.remove v :: ops, s => bagFrom ops (s.erase v)

/-- The multiset of values inserted and not yet removed by a sequence of
operations on the empty structure. -/
def bag (ops : List Op) : Multiset Int := bagFrom ops 0

/-- The suffix of a sequence that starts at its first element greater than or
equal to `v`; empty when there is no such element. -/
def suffixFrom (v : Int) : List Int → List Int
  | [] => []
  | x :: xs => if x ≥ v then x :: xs else suffixFrom v xs

/-- The results `(val, done)` of `k` successive calls of `Next`, and the
iterator after them. -/
def nextTimes (h : Heap) : Nat → Iterator → Except Err (List (Int × Bool) × Iterator)
  | 0, i => pure ([], i)
  | k + 1, i => do
      let r ← Next h i
      let rest ← nextTimes h k r.2.2
      pure ((r.1, r.2.1) :: rest.1, rest.2)

/-! ## Reading the levels off the heap

The two nested loops of `String()` visit every level from the top sentinel
down (`head = head.Down`) and, within a level, every node from the sentinel to
the end of the chain (`node = node.Right`).  The functions below make the same
visit and return the nodes instead of their rendering. -/

/-- The description of the node `n` stored at the address `a`. -/
def cellAt (a : Nat) (n : Node) : Cell :=
  { addr := a, isHead := n.isHead, val := n.Value, down := n.Down }

/-- The inner loop of `String()`, `for node != nil { ...; node = node.Right }`:
the nodes of a chain in order. -/
def chainCells (h : Heap) : Nat → Option Nat → Except Err (List Cell)
  | _, none => pure []
  | 0, some _ => throw Err.outOfFuel
  | fuel + 1, some a => do
      let node ← deref h a
      let rest ← chainCells h fuel node.Right
      pure (cellAt a node :: rest)

/-- The outer loop of `String()`, `for head != nil { ...; head = head.Down }`:
the levels from the one of `head` down to level 0, each with its sentinel and
the nodes that follow it. -/
def levelsDown (h : Heap) : Nat → Option Nat → Except Err (List Level)
  | _, none => pure []
  | 0, some _ => throw Err.outOfFuel
  | fuel + 1, some a => do
      let head ← deref h a
      let nodes ← chainCells h h.length head.Right
      let lower ← levelsDown h fuel head.Down
      pure ({ hd := cellAt a head, nodes := nodes } :: lower)

/-- The levels of a structure as linked in its heap, level 0 first. -/
def levelsOf (l : SkipList) : Except Err (List Level) := do
  let top ← levelsDown l.heap l.heap.length l.head
  pure top.reverse

/-! ## Vocabulary of the claims about the levels -/

/-- A tower has a hole between the levels `k` and `k + 1`: a node with value
`v` is linked at level `k + 1` while the node its `Down` points to is not
linked at level `k`. -/
def Hole (Ls : List Level) (k : Nat) (v : Int) : Prop :=
  ∃ U L c, Ls[k + 1]? = some U ∧ Ls[k]? = some L ∧ c ∈ U.nodes ∧ c.val = v ∧
    ∀ d ∈ L.nodes, c.down ≠ some d.addr

/-- The rightmost cell of a level whose value is strictly less than `v`, the
head sentinel when no node of the level is less than `v`. -/
def rightmostBelow (v : Int) (L : Level) : Cell :=
  (L.nodes.filter (fun c => decide (c.val < v))).getLastD L.hd

/-- A callback for `walk` that records the nodes it is called with, in the
order of the calls. -/
def recordCallback (node : Nat) (s : Heap × List Nat) : Except Err (Heap × List Nat) :=
  pure (s.1, s.2 ++ [node])

/-- The number of real nodes linked in all levels together. -/
def nodeCount (Ls : List Level) : Nat := (Ls.map (fun L => L.nodes.length)).sum

/-- The address of the node that `Insert` places at level `j`, on a structure
with `h` levels whose heap holds `n` nodes: one allocation per existing level,
two (the node, then the sentinel) per level added on top. -/
def newAddr (n h j : Nat) : Nat := if j < h then n + j else n + h + 2 * (j - h)

/-- The node that `Insert(v)` places at level `j`: it holds `v` and its `Down`
is the node placed one level below, nil at level 0. -/
def newNode (v : Int) (n h j : Nat) : Cell :=
  newCell v (newAddr n h j) (if j = 0 then none else some (newAddr n h (j - 1)))

/-- The sentinel of the level `j` that `Insert` adds on top of a structure
with `h ≤ j` levels: its `Down` is the sentinel that was the top before. -/
def newSentinel (n h j : Nat) (head : Option Nat) : Cell :=
  { addr := newAddr n h j + 1, isHead := true, val := 0,
    down := if j = h then head else some (newAddr n h j - 1) }

/-- The levels with a node for `v` placed in each of the lowest `m` of them;
`n` is the address of the first node placed and `prev` the `Down` of it. -/
def placeLevels (v : Int) : Nat → Nat → Option Nat → List Level → List Level
  | 0, _, _, Ls => Ls
  | _ + 1, _, _, [] => []
  | m + 1, n, prev, L :: up =>
      insAt v (newCell v n prev) L :: placeLevels v m (n + 1) (some n) up

/-- The `m` levels added on top, lowest first, each a sentinel followed by the
node for `v`; `n` is the next free address, `head` the top sentinel so far and
`prev` the node placed last. -/
def newLevels (v : Int) : Nat → Nat → Option Nat → Option Nat → List Level
  | 0, _, _, _ => []
  | m + 1, n, head, prev =>
      topLevel v n head prev :: newLevels v m (n + 2) (some (n + 1)) (some n)

/-- The node placed last by the walk over the levels `Ls`. -/
def lastPlaced (n : Nat) (prev : Option Nat) (Ls : List Level) : Option Nat :=
  match Ls with
  | [] => prev
  | _ :: up => some (n + up.length)

/-! ## Calls and their observable results -/

/-- A call on the structure: a mutation or a query. -/
inductive Call where
  | insert (v : Int)
  | remove (v : Int)
  | get (v : Int)
  | iterate
  | iterateFrom (v : Int)
  deriving DecidableEq, Repr

/-- The result of a query: what `Get` returns, or the values an iterator yields. -/
inductive Obs where
  | got (r : Int × Bool)
  | yielded (xs : List Int)
  deriving DecidableEq, Repr

/-- The number of `Insert` calls in a sequence of calls. -/
def numCallInserts : List Call → Nat
  | [] => 0
  | Call.insert _ :: cs => numCallInserts cs + 1
  | _ :: cs => numCallInserts cs

/-- Run a sequence of calls, threading the random source, and collect the
results of the queries in order. -/
def observe : List Call → SkipList → List Bool → Except Err (List Obs)
  | [], _, _ => pure []
  | Call.insert v :: cs, l, flips => do
      let r ← Insert l v flips
      observe cs r.1 r.2
  | Call.remove v :: cs, l, flips => do
      let r ← Remove l v
      observe cs r.1 flips
  | Call.get v :: cs, l, flips => do
      let r ← Get l v
      let rest ← observe cs l flips
      pure (Obs.got r :: rest)
  | Call.iterate :: cs, l, flips => do
      let xs ← iterateAll l
      let rest ← observe cs l flips
      pure (Obs.yielded xs :: rest)
  | Call.iterateFrom v :: cs, l, flips => do
      let xs ← iterateFromAll l v
      let rest ← observe cs l flips
      pure (Obs.yielded xs :: rest)

end skiplist

namespace skiplist

/-! ## Heap representation lemmas -/

@[simp]
theorem Cell.node_isHead (c : Cell) (r : Option Nat) : (c.node r).isHead = c.isHead := rfl

@[simp]
theorem Cell.node_Value (c : Cell) (r : Option Nat) : (c.node r).Value = c.val := rfl

@[simp]
theorem Cell.node_Right (c : Cell) (r : Option Nat) : (c.node r).Right = r := rfl

@[simp]
theorem Cell.node_Down (c : Cell) (r : Option Nat) : (c.node r).Down = c.down := rfl

theorem nextOf_append (xs ys : List Cell) (e : Option Nat) :
    nextOf (xs ++ ys) e = nextOf xs (nextOf ys e) := by
  cases xs <;> simp [nextOf]

theorem Rep_append (h : Heap) (xs ys : List Cell) (e : Option Nat) :
    Rep h (xs ++ ys) e ↔ Rep h xs (nextOf ys e) ∧ Rep h ys e := by
  induction xs with
  | nil => simp [Rep]
  | cons c rest ih =>
    have hn : nextOf (rest.append ys) e = nextOf rest (nextOf ys e) := nextOf_append rest ys e
    constructor
    · intro hr
      have h1 := hr.1
      have h2 := ih.1 hr.2
      rw [hn] at h1
      exact ⟨⟨h1, h2.1⟩, h2.2⟩
    · intro hr
      have h1 := hr.1.1
      rw [← hn] at h1
      exact ⟨h1, ih.2 ⟨hr.1.2, hr.2⟩⟩

theorem Rep_frame {h h' : Heap} {cs : List Cell} {e : Option Nat}
    (hr : Rep h cs e) (hf : ∀ c ∈ cs, h'[c.addr]? = h[c.addr]?) : Rep h' cs e := by
  induction cs with
  | nil => trivial
  | cons c rest ih =>
    refine ⟨?_, ih hr.2 (fun c hc => hf c (List.mem_cons_of_mem _ hc))⟩
    rw [hf c (List.mem_cons_self _ _)]; exact hr.1

theorem Rep_lookup {h : Heap} {cs : List Cell} {e : Option Nat} (hr : Rep h cs e)
    {c : Cell} (hc : c ∈ cs) : ∃ r, h[c.addr]? = some (c.node r) := by
  induction cs with
  | nil => cases hc
  | cons x rest ih =>
    rcases List.mem_cons.1 hc with rfl | hc
    · exact ⟨_, hr.1⟩
    · exact ih hr.2 hc

theorem Rep_valid {h : Heap} {cs : List Cell} {e : Option Nat} (hr : Rep h cs e)
    {c : Cell} (hc : c ∈ cs) : c.addr < h.length := by
  obtain ⟨r, hr⟩ := Rep_lookup hr hc
  by_contra hlt
  rw [List.getElem?_eq_none (by omega)] at hr
  cases hr

theorem deref_of_lookup {h : Heap} {a : Nat} {n : Node} (hl : h[a]? = some n) :
    deref h a = Except.ok n := by
  simp [deref, hl, pure, Except.pure]

/-- The loop of `walk`, started at a cell of a linked chain, stops at the last
cell of the run of cells whose value is below the target. -/
theorem advance_spec (h : Heap) (v : Int) :
    ∀ (rest : List Cell) (c : Cell) (fuel : Nat), Rep h (c :: rest) none →
      rest.length < fuel →
      advance h v fuel c.addr = Except.ok ((rest.takeWhile (below v)).getLastD c).addr := by
  intro rest
  induction rest with
  | nil =>
    intro c fuel hr hf
    obtain ⟨fuel, rfl⟩ : ∃ k, fuel = k + 1 := ⟨fuel - 1, by omega⟩
    simp [advance, deref_of_lookup hr.1, nextOf, pure, Except.pure, bind, Except.bind]
  | cons d rest ih =>
    intro c fuel hr hf
    obtain ⟨fuel, rfl⟩ : ∃ k, fuel = k + 1 := ⟨fuel - 1, by simp at hf; omega⟩
    have hd := hr.2.1
    simp only [advance, deref_of_lookup hr.1, nextOf, deref_of_lookup hd, bind, Except.bind,
      Cell.node_Right, Cell.node_Value]
    by_cases hv : d.val < v
    · have : ¬ (d.val ≥ v) := by omega
      simp only [this, if_false]
      rw [ih d fuel hr.2 (by simp at hf; omega)]
      rw [List.takeWhile_cons_of_pos (by simp [below, hv]), List.getLastD_cons]
    · have : d.val ≥ v := by omega
      simp [this, List.takeWhile, below, hv, pure, Except.pure]

/-- The callbacks of `walk` run after every read that `walk` itself makes:
`walk` is the fold of the callback over the nodes of `walkPath`. -/
theorem walk_eq_fold {σ : Type} (v : Int)
    (cb : Nat → Heap × σ → Except Err (Heap × σ)) (h : Heap) :
    ∀ (fuel : Nat) (start : Option Nat) (x : σ),
      walk v cb fuel start (h, x) =
        (walkPath h v fuel start >>= fun bs =>
          bs.foldlM (fun s b => cb b s) (h, x)) := by
  intro fuel
  induction fuel with
  | zero =>
    intro start x
    cases start <;> simp [walk, walkPath, pure, Except.pure, bind, Except.bind, throw, throwThe, MonadExceptOf.throw]
  | succ fuel ih =>
    intro start x
    cases start with
    | none => simp [walk, walkPath, pure, Except.pure, bind, Except.bind]
    | some a =>
      simp only [walk, walkPath]
      cases hadv : advance h v h.length a with
      | error e => simp [bind, Except.bind]
      | ok cur =>
        simp only [bind, Except.bind]
        cases hder : deref h cur with
        | error e => simp
        | ok node =>
          simp only []
          cases hdown : node.Down with
          | none =>
            simp only [pure, Except.pure, List.foldlM, bind, Except.bind]
            cases cb cur (h, x) <;> rfl
          | some d =>
            simp only []
            have := ih (some d) x
            simp only [bind, Except.bind] at this
            rw [this]
            cases hw : walkPath h v fuel (some d) with
            | error e => simp
            | ok bs =>
              simp only [pure, Except.pure]
              rw [List.foldlM_append]
              simp only [bind, Except.bind]
              cases List.foldlM (fun s b => cb b s) (h, x) bs with
              | error e => rfl
              | ok s' => simp [List.foldlM, bind, Except.bind, pure, Except.pure]; cases cb cur s' <;> rfl

end skiplist

namespace skiplist

/-! ## The path of `walk` through a well-formed structure -/

theorem getLastD_append_cons {α : Type} (s : List α) (c a : α) (t : List α) :
    (s ++ c :: t).getLastD a = t.getLastD c := by
  induction s generalizing a with
  | nil => rw [List.nil_append, List.getLastD_cons]
  | cons x s ih => rw [List.cons_append, List.getLastD_cons, ih]

theorem getLastD_mem {α : Type} (l : List α) (a : α) :
    l.getLastD a = a ∨ l.getLastD a ∈ l := by
  induction l generalizing a with
  | nil => left; rfl
  | cons x l ih =>
    rw [List.getLastD_cons]
    rcases ih x with h | h
    · right; rw [h]; exact List.mem_cons_self _ _
    · right; exact List.mem_cons_of_mem _ h

theorem bd_cases (v : Int) (L : Level) :
    bd v L = L.hd ∨ (bd v L ∈ L.nodes ∧ (bd v L).val < v) := by
  rcases getLastD_mem (L.nodes.takeWhile (below v)) L.hd with h | h
  · left; exact h
  · right
    refine ⟨(List.takeWhile_sublist _).subset h, ?_⟩
    have := List.mem_takeWhile_imp h
    simp only [below, decide_eq_true_eq] at this
    exact this

theorem bd_mem (v : Int) (L : Level) : bd v L ∈ L.all := by
  rcases bd_cases v L with h | h
  · rw [h]; exact List.mem_cons_self _ _
  · exact List.mem_cons_of_mem _ h.1

theorem length_le_of_nodup_lt (n : Nat) (l : List Nat) (hn : l.Nodup)
    (hb : ∀ a ∈ l, a < n) : l.length ≤ n := by
  have hp : (l.pmap (fun a h => (⟨a, h⟩ : Fin n)) hb).Nodup :=
    List.Nodup.pmap (by intro a ha b hb h; simpa using h) hn
  have := List.Nodup.length_le_card hp
  simpa using this

theorem Rep_length_le {h : Heap} {cs : List Cell} {e : Option Nat} (hr : Rep h cs e)
    (hn : (cs.map Cell.addr).Nodup) : cs.length ≤ h.length := by
  have := length_le_of_nodup_lt h.length (cs.map Cell.addr) hn (by
    intro a ha
    obtain ⟨c, hc, rfl⟩ := List.mem_map.1 ha
    exact Rep_valid hr hc)
  simpa using this

theorem sorted_before_below (v : Int) {s t : List Cell} {c : Cell}
    (hs : ((s ++ c :: t).map Cell.val).Pairwise (fun a b => a ≤ b)) (hc : c.val < v) :
    ∀ x ∈ s, below v x = true := by
  intro x hx
  rw [List.map_append, List.pairwise_append] at hs
  have := hs.2.2 x.val (List.mem_map_of_mem _ hx) c.val (by simp)
  simp only [below, decide_eq_true_eq]
  omega

/-- Started at the head of a level, or at a node of it below the target, the
loop of `walk` stops at the boundary cell of the level. -/
theorem advance_in_level {h : Heap} {L : Level} (v : Int) (hr : Rep h L.all none)
    (hs : (L.nodes.map Cell.val).Pairwise (fun a b => a ≤ b))
    (hn : (L.all.map Cell.addr).Nodup) {c : Cell}
    (hc : c = L.hd ∨ (c ∈ L.nodes ∧ c.val < v)) :
    advance h v h.length c.addr = Except.ok (bd v L).addr := by
  have hlen := Rep_length_le hr hn
  rcases hc with rfl | ⟨hc, hv⟩
  · exact advance_spec h v L.nodes L.hd h.length hr (by simpa [Level.all] using hlen)
  · obtain ⟨s, t, hst⟩ := List.append_of_mem hc
    have hr' : Rep h ((L.hd :: s) ++ c :: t) none := by
      simpa [Level.all, hst] using hr
    have h1 := ((Rep_append h _ _ _).1 hr').2
    rw [advance_spec h v t c h.length h1 (by
      simp [Level.all, hst] at hlen; omega)]
    have hb := sorted_before_below v (hst ▸ hs) hv
    simp only [bd, hst]
    rw [List.takeWhile_append_of_pos hb,
      List.takeWhile_cons_of_pos (by simp [below, hv]), getLastD_append_cons]

theorem addrs_append (A B : List Level) : addrs (A ++ B) = addrs A ++ addrs B := by
  simp [addrs]

theorem addrs_cons (L : Level) (A : List Level) :
    addrs (L :: A) = L.all.map Cell.addr ++ addrs A := by
  simp [addrs]

theorem mem_addrs {Ls : List Level} {L : Level} (hL : L ∈ Ls) {c : Cell} (hc : c ∈ L.all) :
    c.addr ∈ addrs Ls := by
  simp only [addrs, List.mem_flatten, List.mem_map]
  exact ⟨_, ⟨L, hL, rfl⟩, List.mem_map_of_mem _ hc⟩

theorem level_nodup {Ls : List Level} (hn : (addrs Ls).Nodup) {L : Level} (hL : L ∈ Ls) :
    (L.all.map Cell.addr).Nodup := by
  have := (List.nodup_flatten.1 hn).1 (L.all.map Cell.addr)
  exact this (List.mem_map.2 ⟨L, hL, rfl⟩)

theorem length_le_addrs (Ls : List Level) : Ls.length ≤ (addrs Ls).length := by
  induction Ls with
  | nil => simp
  | cons L Ls ih => simp [addrs_cons, Level.all]; omega

theorem Stack.levels_le {h : Heap} {Ls : List Level} (hs : Stack h Ls) :
    Ls.length ≤ h.length := by
  refine le_trans (length_le_addrs Ls) (length_le_of_nodup_lt _ _ hs.nodup ?_)
  intro a ha
  simp only [addrs, List.mem_flatten, List.mem_map] at ha
  obtain ⟨_, ⟨L, hL, rfl⟩, ha⟩ := ha
  obtain ⟨c, hc, rfl⟩ := List.mem_map.1 ha
  exact Rep_valid (hs.rep L hL) hc

theorem Stack.lower {h : Heap} {Ls : List Level} {U : Level} (hs : Stack h (Ls ++ [U])) :
    Stack h Ls := by
  refine ⟨fun L hL => hs.rep L (List.mem_append_left _ hL),
    fun L hL => hs.wf L (List.mem_append_left _ hL), ?_, ?_, ?_⟩
  · have := hs.nodup
    rw [addrs_append] at this
    exact (List.nodup_append.1 this).1
  · intro L hL
    apply hs.bottom
    cases Ls with
    | nil => cases hL
    | cons x xs => simpa using hL
  · exact (List.chain'_append.1 hs.twin).1

theorem twin_down {L U : Level} (ht : Twin L U) {c : Cell} (hc : c ∈ U.nodes) :
    ∃ d ∈ L.nodes, c.down = some d.addr ∧ d.val = c.val := by
  have := ht.2.subset (List.mem_map_of_mem (fun c => (c.down, c.val)) hc)
  obtain ⟨d, hd, he⟩ := List.mem_map.1 this
  simp only [Prod.mk.injEq] at he
  exact ⟨d, hd, he.1.symm, he.2⟩

/-- In a well-formed structure `walk`, started in the topmost level at the
head or at a node below the target, hands to its callback the boundary cell
of every level, level 0 first. -/
theorem walkPath_spec (h : Heap) (v : Int) :
    ∀ (Ls : List Level) (U : Level) (c : Cell) (fuel : Nat), Stack h (Ls ++ [U]) →
      (c = U.hd ∨ (c ∈ U.nodes ∧ c.val < v)) → Ls.length < fuel →
      walkPath h v fuel (some c.addr) =
        Except.ok ((Ls ++ [U]).map (fun L => (bd v L).addr)) := by
  intro Ls
  induction Ls using List.reverseRecOn with
  | nil =>
    intro U c fuel hs hc hf
    obtain ⟨fuel, rfl⟩ : ∃ k, fuel = k + 1 := ⟨fuel - 1, by simp at hf; omega⟩
    have hU : U ∈ ([] : List Level) ++ [U] := by simp
    have hadv := advance_in_level v (hs.rep U hU) (hs.wf U hU).sorted
      (level_nodup hs.nodup hU) hc
    obtain ⟨r, hr⟩ := Rep_lookup (hs.rep U hU) (bd_mem v U)
    have hb := hs.bottom U (by simp) _ (bd_mem v U)
    simp [walkPath, hadv, deref_of_lookup hr, hb, bind, Except.bind, pure, Except.pure]
  | append_singleton Ls L ih =>
    intro U c fuel hs hc hf
    obtain ⟨fuel, rfl⟩ : ∃ k, fuel = k + 1 := ⟨fuel - 1, by omega⟩
    have hU : U ∈ (Ls ++ [L]) ++ [U] := by simp
    have hadv := advance_in_level v (hs.rep U hU) (hs.wf U hU).sorted
      (level_nodup hs.nodup hU) hc
    obtain ⟨r, hr⟩ := Rep_lookup (hs.rep U hU) (bd_mem v U)
    have ht : Twin L U := by
      have := (List.chain'_append.1 hs.twin).2.2 L (by simp) U (by simp)
      exact this
    have hdown : ∃ d, (bd v U).down = some d.addr ∧ (d = L.hd ∨ (d ∈ L.nodes ∧ d.val < v)) := by
      rcases bd_cases v U with hb | ⟨hb, hv⟩
      · exact ⟨L.hd, by rw [hb]; exact ht.1, Or.inl rfl⟩
      · obtain ⟨d, hd, he, hval⟩ := twin_down ht hb
        exact ⟨d, he, Or.inr ⟨hd, by omega⟩⟩
    obtain ⟨d, hd, hdc⟩ := hdown
    have hrec := ih L d fuel hs.lower hdc (by simp at hf; omega)
    simp [walkPath, hadv, deref_of_lookup hr, hd, hrec, bind, Except.bind, pure, Except.pure]

end skiplist

namespace skiplist

/-! ## The read-only operations on a well-formed structure -/

theorem walkPath_inv {l : SkipList} {Ls : List Level} (hi : Inv l Ls) (v : Int) :
    walkPath l.heap v l.heap.length l.head =
      Except.ok (Ls.map (fun L => (bd v L).addr)) := by
  rcases List.eq_nil_or_concat Ls with rfl | ⟨Ls, U, rfl⟩
  · have := hi.head_eq
    simp only [List.getLast?_nil, Option.map_none'] at this
    rw [this]
    cases l.heap.length <;> rfl
  · rw [List.concat_eq_append] at hi ⊢
    have hh := hi.head_eq
    simp only [List.getLast?_concat, Option.map_some'] at hh
    rw [hh]
    have hlen := hi.stack.levels_le
    exact walkPath_spec l.heap v Ls U U.hd l.heap.length hi.stack (Or.inl rfl)
      (by simp at hlen; omega)

theorem Rep_last_right {h : Heap} {e : Option Nat} :
    ∀ (s : List Cell) (c : Cell) (t : List Cell), Rep h (c :: (s ++ t)) e →
      h[(s.getLastD c).addr]? = some ((s.getLastD c).node (nextOf t e)) := by
  intro s
  induction s with
  | nil => intro c t hr; exact hr.1
  | cons d s ih =>
    intro c t hr
    rw [List.getLastD_cons]
    exact ih d t hr.2

theorem Rep_bd {h : Heap} {L : Level} (v : Int) (hr : Rep h L.all none) :
    h[(bd v L).addr]? = some ((bd v L).node (nextOf (after v L) none)) := by
  have : L.all = L.hd :: (L.nodes.takeWhile (below v) ++ L.nodes.dropWhile (below v)) := by
    rw [List.takeWhile_append_dropWhile]; rfl
  rw [this] at hr
  exact Rep_last_right _ _ _ hr

theorem Rep_after {h : Heap} {L : Level} (v : Int) (hr : Rep h L.all none) :
    Rep h (after v L) none := by
  have : L.all = (L.hd :: L.nodes.takeWhile (below v)) ++ L.nodes.dropWhile (below v) := by
    rw [List.cons_append, List.takeWhile_append_dropWhile]; rfl
  rw [this] at hr
  exact ((Rep_append _ _ _ _).1 hr).2

theorem fold_getCallback_found (h : Heap) (x : Option Nat) (bs : List Nat) :
    bs.foldlM (fun s b => getCallback b s) (h, (x, true)) = Except.ok (h, (x, true)) := by
  induction bs with
  | nil => rfl
  | cons b bs ih =>
    rw [List.foldlM_cons]
    simp only [getCallback, if_true, bind, Except.bind, pure, Except.pure]
    exact ih

theorem fold_getCallback (h : Heap) (bs : List Nat) :
    bs.foldlM (fun s b => getCallback b s) (h, (none, false)) =
      Except.ok (h, (bs.head?, !bs.isEmpty)) := by
  cases bs with
  | nil => rfl
  | cons b bs =>
    rw [List.foldlM_cons]
    simp only [getCallback, bind, Except.bind, pure, Except.pure]
    exact fold_getCallback_found h (some b) bs

/-- What `Get` returns on a well-formed structure with at least one level. -/
theorem Get_inv {l : SkipList} {L : Level} {Ls : List Level} (hi : Inv l (L :: Ls))
    (v : Int) :
    Get l v = Except.ok
      (match after v L with
       | [] => (0, false)
       | r :: _ => if r.val ≠ v then (0, false) else (r.val, true)) := by
  have hL : Rep l.heap L.all none := hi.stack.rep L (List.mem_cons_self _ _)
  have hb := Rep_bd v hL
  have ha := Rep_after v hL
  simp only [Get, walk_eq_fold, walkPath_inv hi v, bind, Except.bind, fold_getCallback,
    List.map_cons, List.head?_cons, deref_of_lookup hb, Cell.node_Right]
  cases hafter : after v L with
  | nil => simp [nextOf, pure, Except.pure]
  | cons r rest =>
    rw [hafter] at ha
    simp only [Cell.node_Right, nextOf, deref_of_lookup ha.1]
    by_cases hv : r.val = v <;> simp [hv, pure, Except.pure]

theorem descend_spec (h : Heap) :
    ∀ (Ls : List Level) (U : Level) (fuel : Nat), Stack h (Ls ++ [U]) → Ls.length < fuel →
      ∃ L, (Ls ++ [U]).head? = some L ∧ descend h fuel (some U.hd.addr) = Except.ok L.hd.addr := by
  intro Ls
  induction Ls using List.reverseRecOn with
  | nil =>
    intro U fuel hs hf
    obtain ⟨fuel, rfl⟩ : ∃ k, fuel = k + 1 := ⟨fuel - 1, by simp at hf; omega⟩
    refine ⟨U, rfl, ?_⟩
    have hU : U ∈ ([] : List Level) ++ [U] := by simp
    have hr := (hs.rep U hU).1
    have hb := hs.bottom U (by simp) U.hd (List.mem_cons_self _ _)
    simp [descend, deref_of_lookup hr, hb, bind, Except.bind, pure, Except.pure]
  | append_singleton Ls L ih =>
    intro U fuel hs hf
    obtain ⟨fuel, rfl⟩ : ∃ k, fuel = k + 1 := ⟨fuel - 1, by omega⟩
    have hU : U ∈ (Ls ++ [L]) ++ [U] := by simp
    have hr := (hs.rep U hU).1
    have ht : Twin L U := (List.chain'_append.1 hs.twin).2.2 L (by simp) U (by simp)
    obtain ⟨B, hB, hd⟩ := ih L fuel hs.lower (by simp at hf; omega)
    refine ⟨B, ?_, ?_⟩
    · rw [List.head?_append_of_ne_nil _ (by simp)]; exact hB
    · simp [descend, deref_of_lookup hr, ht.1, hd, bind, Except.bind]

/-- On a well-formed structure with at least one level `Iterate` returns an
iterator positioned at the first node of level 0. -/
theorem Iterate_inv {l : SkipList} {L : Level} {Ls : List Level} (hi : Inv l (L :: Ls)) :
    Iterate l = Except.ok { current := nextOf L.nodes none } := by
  obtain ⟨Us, U, hU⟩ : ∃ Us U, L :: Ls = Us ++ [U] := by
    rcases List.eq_nil_or_concat (L :: Ls) with h | ⟨Us, U, h⟩
    · cases h
    · exact ⟨Us, U, by rw [h, List.concat_eq_append]⟩
  have hs := hi.stack
  have hh := hi.head_eq
  rw [hU] at hs hh
  simp only [List.getLast?_concat, Option.map_some'] at hh
  have hlen := hs.levels_le
  obtain ⟨B, hB, hd⟩ := descend_spec l.heap Us U l.heap.length hs (by simp at hlen; omega)
  rw [← hU] at hB
  simp only [List.head?_cons, Option.some.injEq] at hB
  subst hB
  have hr := (hi.stack.rep L (List.mem_cons_self _ _)).1
  simp [Iterate, hh, hd, deref_of_lookup hr, bind, Except.bind, pure, Except.pure]

/-- Calling `Next` until done on an iterator positioned at a linked chain
yields the values of the chain in order. -/
theorem drain_spec (h : Heap) :
    ∀ (cs : List Cell) (fuel : Nat), Rep h cs none → cs.length < fuel →
      drain h fuel { current := nextOf cs none } = Except.ok (cs.map Cell.val) := by
  intro cs
  induction cs with
  | nil =>
    intro fuel _ hf
    obtain ⟨fuel, rfl⟩ : ∃ k, fuel = k + 1 := ⟨fuel - 1, by simp at hf; omega⟩
    simp [drain, Next, nextOf, bind, Except.bind, pure, Except.pure]
  | cons c cs ih =>
    intro fuel hr hf
    obtain ⟨fuel, rfl⟩ : ∃ k, fuel = k + 1 := ⟨fuel - 1, by simp at hf; omega⟩
    show drain h (fuel + 1) { current := some c.addr } = _
    simp only [drain, Next, deref_of_lookup hr.1, bind, Except.bind, pure, Except.pure]
    have hrec := ih fuel hr.2 (by simp at hf; omega)
    simp only [hr.1] at hrec ⊢
    simp [hrec]

theorem Rep_tail {h : Heap} {c : Cell} {cs : List Cell} {e : Option Nat}
    (hr : Rep h (c :: cs) e) : Rep h cs e := hr.2

theorem iterateAll_inv {l : SkipList} {L : Level} {Ls : List Level} (hi : Inv l (L :: Ls)) :
    iterateAll l = Except.ok (level0 (L :: Ls)) := by
  have hL : Rep l.heap L.all none := hi.stack.rep L (List.mem_cons_self _ _)
  have hn := Rep_length_le hL (level_nodup hi.stack.nodup (List.mem_cons_self _ _))
  simp only [iterateAll, Iterate_inv hi, bind, Except.bind, level0]
  exact drain_spec l.heap L.nodes _ hL.2 (by simp [Level.all] at hn; omega)

theorem fold_iterateFromCallback_some (h : Heap) (x : Nat) (bs : List Nat) :
    bs.foldlM (fun s b => iterateFromCallback b s) (h, some x) = Except.ok (h, some x) := by
  induction bs with
  | nil => rfl
  | cons b bs ih =>
    rw [List.foldlM_cons]
    simp only [iterateFromCallback, bind, Except.bind, pure, Except.pure]
    exact ih

theorem fold_iterateFromCallback (h : Heap) (bs : List Nat) :
    bs.foldlM (fun s b => iterateFromCallback b s) (h, none) = Except.ok (h, bs.head?) := by
  cases bs with
  | nil => rfl
  | cons b bs =>
    rw [List.foldlM_cons]
    simp only [iterateFromCallback, bind, Except.bind, pure, Except.pure]
    exact fold_iterateFromCallback_some h b bs

/-- On a well-formed structure with at least one level `IterateFrom` returns an
iterator positioned right after the boundary cell of level 0. -/
theorem IterateFrom_inv {l : SkipList} {L : Level} {Ls : List Level} (hi : Inv l (L :: Ls))
    (v : Int) : IterateFrom l v = Except.ok { current := nextOf (after v L) none } := by
  have hL : Rep l.heap L.all none := hi.stack.rep L (List.mem_cons_self _ _)
  have hb := Rep_bd v hL
  simp only [IterateFrom, walk_eq_fold, walkPath_inv hi v, bind, Except.bind,
    fold_iterateFromCallback]
  simp [deref_of_lookup hb, pure, Except.pure]

theorem after_map_val (v : Int) (L : Level) :
    (after v L).map Cell.val = (L.nodes.map Cell.val).dropWhile (fun x => decide (x < v)) := by
  rw [List.dropWhile_map]; rfl

theorem iterateFromAll_inv {l : SkipList} {L : Level} {Ls : List Level}
    (hi : Inv l (L :: Ls)) (v : Int) :
    iterateFromAll l v =
      Except.ok ((level0 (L :: Ls)).dropWhile (fun x => decide (x < v))) := by
  have hL : Rep l.heap L.all none := hi.stack.rep L (List.mem_cons_self _ _)
  have hn := Rep_length_le hL (level_nodup hi.stack.nodup (List.mem_cons_self _ _))
  have hlen : (after v L).length ≤ L.nodes.length := (List.dropWhile_sublist _).length_le
  simp only [iterateFromAll, IterateFrom_inv hi, bind, Except.bind, level0]
  rw [← after_map_val]
  exact drain_spec l.heap (after v L) _ (Rep_after v hL)
    (by simp [Level.all] at hn; omega)

end skiplist

namespace skiplist

/-! ## Remove on a well-formed structure -/

theorem lookup_set_self {h : Heap} {a : Nat} {n n' : Node} (hl : h[a]? = some n) :
    (h.set a n')[a]? = some n' := by
  have : a < h.length := by
    by_contra hlt
    rw [List.getElem?_eq_none (by omega)] at hl
    cases hl
  rw [List.getElem?_set_self this]

theorem Rep_set_last {h : Heap} {e e' : Option Nat} :
    ∀ (s : List Cell) (c : Cell), Rep h (c :: s) e → ((c :: s).map Cell.addr).Nodup →
      Rep (h.set (s.getLastD c).addr ((s.getLastD c).node e')) (c :: s) e' := by
  intro s
  induction s with
  | nil =>
    intro c hr _
    exact ⟨lookup_set_self hr.1, trivial⟩
  | cons d s ih =>
    intro c hr hn
    rw [List.getLastD_cons]
    have hn' : ((d :: s).map Cell.addr).Nodup := (List.nodup_cons.1 hn).2
    have hne : (s.getLastD d).addr ≠ c.addr := by
      intro heq
      apply (List.nodup_cons.1 hn).1
      rw [← heq]
      apply List.mem_map_of_mem
      rcases getLastD_mem s d with h1 | h1
      · rw [h1]; exact List.mem_cons_self _ _
      · exact List.mem_cons_of_mem _ h1
    refine ⟨?_, ih d hr.2 hn'⟩
    rw [List.getElem?_set_ne hne]
    exact hr.1

theorem dropWhile_head_not {α : Type} (p : α → Bool) :
    ∀ (l : List α) (r : α) (rest : List α), l.dropWhile p = r :: rest → p r = false := by
  intro l
  induction l with
  | nil => intro r rest h; cases h
  | cons x l ih =>
    intro r rest h
    by_cases hx : p x = true
    · rw [List.dropWhile_cons_of_pos hx] at h; exact ih r rest h
    · rw [List.dropWhile_cons_of_neg hx] at h
      cases h
      simpa using hx

theorem after_head_ge {v : Int} {L : Level} {r : Cell} {rest : List Cell}
    (h : after v L = r :: rest) : v ≤ r.val := by
  have := dropWhile_head_not (below v) L.nodes r rest h
  simp only [below, decide_eq_false_iff_not] at this
  omega

theorem after_sorted (v : Int) {L : Level}
    (hs : (L.nodes.map Cell.val).Pairwise (fun a b => a ≤ b)) :
    ((after v L).map Cell.val).Pairwise (fun a b => a ≤ b) :=
  hs.sublist ((List.dropWhile_sublist _).map _)

theorem before_lt {v : Int} {L : Level} {c : Cell}
    (hc : c ∈ L.nodes.takeWhile (below v)) : c.val < v := by
  have := List.mem_takeWhile_imp hc
  simpa [below] using this

/-- In a sorted level, removing the first node with value `v` is what the
callback of `Remove` does: it unlinks the node after the boundary cell when
that node holds `v`. -/
theorem eraseP_sorted (v : Int) (L : Level)
    (hs : (L.nodes.map Cell.val).Pairwise (fun a b => a ≤ b)) :
    L.nodes.eraseP (fun c => v == c.val) =
      L.nodes.takeWhile (below v) ++
        (match after v L with
         | [] => []
         | r :: rest => if r.val = v then rest else r :: rest) := by
  have hsplit : L.nodes = L.nodes.takeWhile (below v) ++ after v L :=
    (List.takeWhile_append_dropWhile _ _).symm
  conv_lhs => rw [hsplit]
  rw [List.eraseP_append_right]
  · congr 1
    cases ha : after v L with
    | nil => rfl
    | cons r rest =>
      have hge := after_head_ge ha
      have hsa := after_sorted v hs
      rw [ha] at hsa
      by_cases hv : r.val = v
      · simp [List.eraseP_cons, hv]
      · simp only [hv, if_false]
        apply List.eraseP_of_forall_not
        intro x hx
        have hle : r.val ≤ x.val := by
          rcases List.mem_cons.1 hx with rfl | hx
          · exact le_refl _
          · exact (List.pairwise_cons.1 hsa).1 x.val (List.mem_map_of_mem _ hx)
        simp only [beq_iff_eq]
        omega
  · intro b hb
    have := before_lt hb
    simp only [beq_iff_eq]
    omega

theorem level_split (v : Int) (L : Level) :
    L.all = (L.hd :: L.nodes.takeWhile (below v)) ++ after v L := by
  rw [List.cons_append]
  show L.hd :: L.nodes = _
  rw [after, List.takeWhile_append_dropWhile]

theorem bd_not_mem_after (v : Int) {L : Level} (hn : (L.all.map Cell.addr).Nodup) :
    ∀ c ∈ after v L, c.addr ≠ (bd v L).addr := by
  intro c hc heq
  rw [level_split v L, List.map_append, List.nodup_append] at hn
  have hmem : (bd v L).addr ∈ (L.hd :: L.nodes.takeWhile (below v)).map Cell.addr := by
    apply List.mem_map_of_mem
    rcases getLastD_mem (L.nodes.takeWhile (below v)) L.hd with h1 | h1
    · show (L.nodes.takeWhile (below v)).getLastD L.hd ∈ _
      rw [h1]; exact List.mem_cons_self _ _
    · exact List.mem_cons_of_mem _ h1
  rw [← heq] at hmem
  exact hn.2.2 hmem (List.mem_map_of_mem _ hc)

/-- One call of the callback of `Remove`, on the boundary cell of a level. -/
theorem removeCallback_step {h : Heap} {L : Level} (v : Int) (hr : Rep h L.all none)
    (hs : (L.nodes.map Cell.val).Pairwise (fun a b => a ≤ b))
    (hn : (L.all.map Cell.addr).Nodup) :
    ∃ h', removeCallback v (bd v L).addr (h, ()) = Except.ok (h', ()) ∧
      Rep h' (eraseLevel v L).all none ∧
      (∀ a, a ≠ (bd v L).addr → h'[a]? = h[a]?) ∧ h'.length = h.length := by
  have hb := Rep_bd v hr
  have ha := Rep_after v hr
  have hsplit := level_split v L
  have hall : (eraseLevel v L).all = (L.hd :: L.nodes.takeWhile (below v)) ++
      (match after v L with
         | [] => []
         | r :: rest => if r.val = v then rest else r :: rest) := by
    show L.hd :: L.nodes.eraseP (fun c => v == c.val) = _
    rw [eraseP_sorted v L hs, List.cons_append]
  cases hafter : after v L with
  | nil =>
    refine ⟨h, ?_, ?_, fun _ _ => rfl, rfl⟩
    · simp [removeCallback, deref_of_lookup hb, hafter, nextOf, bind, Except.bind, pure,
        Except.pure]
    · rw [hall, hafter]
      rw [hsplit, hafter] at hr
      exact hr
  | cons r rest =>
    rw [hafter] at ha
    by_cases hv : r.val = v
    · refine ⟨h.set (bd v L).addr ((bd v L).node (nextOf rest none)), ?_, ?_, ?_, by simp⟩
      · simp [removeCallback, deref_of_lookup hb, hafter, nextOf, deref_of_lookup ha.1, hv,
          bind, Except.bind, pure, Except.pure, Cell.node]
      · rw [hall, hafter]
        simp only [hv, if_true]
        rw [Rep_append]
        constructor
        · have h1 : Rep h (L.hd :: L.nodes.takeWhile (below v)) (nextOf (after v L) none) := by
            rw [hsplit] at hr
            exact ((Rep_append _ _ _ _).1 hr).1
          have hn1 : ((L.hd :: L.nodes.takeWhile (below v)).map Cell.addr).Nodup := by
            rw [hsplit, List.map_append] at hn
            exact (List.nodup_append.1 hn).1
          exact Rep_set_last _ _ h1 hn1
        · apply Rep_frame ha.2
          intro c hc
          apply List.getElem?_set_ne
          have := bd_not_mem_after v hn c (by rw [hafter]; exact List.mem_cons_of_mem _ hc)
          exact fun h => this h.symm
      · intro a hne
        exact List.getElem?_set_ne (fun h => hne h.symm)
    · refine ⟨h, ?_, ?_, fun _ _ => rfl, rfl⟩
      · simp [removeCallback, deref_of_lookup hb, hafter, nextOf, deref_of_lookup ha.1, hv,
          bind, Except.bind, pure, Except.pure]
      · rw [hall, hafter]
        simp only [hv, if_false]
        rw [hsplit, hafter] at hr
        exact hr

end skiplist

namespace skiplist

theorem eraseLevel_all_subset (v : Int) (L : Level) : (eraseLevel v L).all ⊆ L.all := by
  intro c hc
  rcases List.mem_cons.1 hc with rfl | hc
  · exact List.mem_cons_self _ _
  · exact List.mem_cons_of_mem _ (List.mem_of_mem_eraseP hc)

theorem eraseLevel_all_sublist (v : Int) (L : Level) : (eraseLevel v L).all.Sublist L.all :=
  (List.eraseP_sublist _).cons₂ _

theorem disjoint_of_addrs_cons {L : Level} {up : List Level} (hn : (addrs (L :: up)).Nodup)
    {c : Cell} (hc : c ∈ L.all) : c.addr ∉ addrs up := by
  rw [addrs_cons, List.nodup_append] at hn
  exact fun h => hn.2.2 (List.mem_map_of_mem _ hc) h

/-- The callbacks of `Remove`, run over the boundary cells of a list of
levels, remove from each level its first node with value `v` and touch
nothing else. -/
theorem remove_fold (v : Int) :
    ∀ (up : List Level) (h : Heap), (∀ L ∈ up, Rep h L.all none) →
      (∀ L ∈ up, LevelWF L) → (addrs up).Nodup →
      ∃ h', (up.map (fun L => (bd v L).addr)).foldlM (fun s b => removeCallback v b s) (h, ())
          = Except.ok (h', ()) ∧
        (∀ L ∈ up, Rep h' (eraseLevel v L).all none) ∧
        (∀ a, a ∉ addrs up → h'[a]? = h[a]?) ∧ h'.length = h.length := by
  intro up
  induction up with
  | nil =>
    intro h _ _ _
    exact ⟨h, rfl, fun _ hL => absurd hL (List.not_mem_nil _), fun _ _ => rfl, rfl⟩
  | cons L up ih =>
    intro h hrep hwf hn
    have hnL := level_nodup hn (List.mem_cons_self _ _)
    obtain ⟨h1, hstep, hrep1, hframe1, hlen1⟩ :=
      removeCallback_step v (hrep L (List.mem_cons_self _ _))
        (hwf L (List.mem_cons_self _ _)).sorted hnL
    have hbd : (bd v L).addr ∉ addrs up := disjoint_of_addrs_cons hn (bd_mem v L)
    have hrepUp : ∀ U ∈ up, Rep h1 U.all none := by
      intro U hU
      apply Rep_frame (hrep U (List.mem_cons_of_mem _ hU))
      intro c hc
      apply hframe1
      intro heq
      exact hbd (heq ▸ mem_addrs hU hc)
    have hnUp : (addrs up).Nodup := by
      rw [addrs_cons] at hn
      exact (List.nodup_append.1 hn).2.1
    obtain ⟨h', hfold, hrep', hframe', hlen'⟩ :=
      ih h1 hrepUp (fun U hU => hwf U (List.mem_cons_of_mem _ hU)) hnUp
    refine ⟨h', ?_, ?_, ?_, by rw [hlen', hlen1]⟩
    · rw [List.map_cons, List.foldlM_cons, hstep]
      exact hfold
    · intro U hU
      rcases List.mem_cons.1 hU with rfl | hU
      · apply Rep_frame hrep1
        intro c hc
        exact hframe' _ (disjoint_of_addrs_cons hn (eraseLevel_all_subset v U hc))
      · exact hrep' U hU
    · intro a ha
      rw [addrs_cons, List.mem_append, not_or] at ha
      rw [hframe' a ha.2]
      apply hframe1
      intro heq
      exact ha.1 (heq ▸ List.mem_map_of_mem _ (bd_mem v L))

theorem Twin_erase (v : Int) {L U : Level} (ht : Twin L U) :
    Twin (eraseLevel v L) (eraseLevel v U) := by
  refine ⟨ht.1, ?_⟩
  have h1 : (eraseLevel v U).nodes.map (fun c => (c.down, c.val)) =
      (U.nodes.map (fun c => (c.down, c.val))).eraseP (fun p => v == p.2) := by
    rw [List.eraseP_map]; rfl
  have h2 : (eraseLevel v L).nodes.map (fun c => (some c.addr, c.val)) =
      (L.nodes.map (fun c => (some c.addr, c.val))).eraseP (fun p => v == p.2) := by
    rw [List.eraseP_map]; rfl
  rw [h1, h2]
  exact ht.2.eraseP

theorem LevelWF_erase (v : Int) {L : Level} (hw : LevelWF L) : LevelWF (eraseLevel v L) :=
  ⟨hw.hdHead, fun c hc => hw.nodesReal c (List.mem_of_mem_eraseP hc),
    hw.sorted.sublist ((List.eraseP_sublist _).map _)⟩

theorem addrs_erase_sublist (v : Int) (Ls : List Level) :
    (addrs (Ls.map (eraseLevel v))).Sublist (addrs Ls) := by
  induction Ls with
  | nil => exact List.Sublist.refl _
  | cons L Ls ih =>
    rw [List.map_cons, addrs_cons, addrs_cons]
    exact ((eraseLevel_all_sublist v L).map _).append ih

/-- The operation `Remove` keeps a well-formed structure well formed; its levels are the
old ones, each without its first node with value `v`. -/
theorem Stack_remove (v : Int) {h : Heap} {Ls : List Level} (hs : Stack h Ls) :
    ∃ h', (Ls.map (fun L => (bd v L).addr)).foldlM (fun s b => removeCallback v b s) (h, ())
        = Except.ok (h', ()) ∧ Stack h' (Ls.map (eraseLevel v)) := by
  obtain ⟨h', hfold, hrep, _, _⟩ := remove_fold v Ls h hs.rep hs.wf hs.nodup
  refine ⟨h', hfold, ?_, ?_, ?_, ?_, ?_⟩
  · intro L' hL'
    obtain ⟨L, hL, rfl⟩ := List.mem_map.1 hL'
    exact hrep L hL
  · intro L' hL'
    obtain ⟨L, hL, rfl⟩ := List.mem_map.1 hL'
    exact LevelWF_erase v (hs.wf L hL)
  · exact hs.nodup.sublist (addrs_erase_sublist v Ls)
  · intro L' hL' c hc
    cases Ls with
    | nil => cases hL'
    | cons L Ls =>
      simp only [List.map_cons, List.head?_cons, Option.some.injEq] at hL'
      subst hL'
      exact hs.bottom L rfl c (eraseLevel_all_subset v L hc)
  · rw [List.chain'_map]
    exact hs.twin.imp (fun _ _ ht => Twin_erase v ht)

theorem Remove_inv (v : Int) {l : SkipList} {Ls : List Level} (hi : Inv l Ls) :
    ∃ h', Remove l v = Except.ok ({ heap := h', head := l.head }, false) ∧
      Inv { heap := h', head := l.head } (Ls.map (eraseLevel v)) := by
  obtain ⟨h', hfold, hstack⟩ := Stack_remove v hi.stack
  refine ⟨h', ?_, hstack, ?_⟩
  · simp only [Remove, walk_eq_fold, walkPath_inv hi v, bind, Except.bind, hfold]
    rfl
  · show l.head = _
    rw [hi.head_eq, List.getLast?_map]
    cases Ls.getLast? <;> rfl

theorem level0_erase (v : Int) (Ls : List Level) :
    level0 (Ls.map (eraseLevel v)) = (level0 Ls).erase v := by
  cases Ls with
  | nil => rfl
  | cons L Ls =>
    show (L.nodes.eraseP (fun c => v == c.val)).map Cell.val = (L.nodes.map Cell.val).erase v
    rw [List.erase_eq_eraseP, List.eraseP_map]
    rfl

end skiplist

namespace skiplist

/-! ## Insert on a well-formed structure: the heap -/

theorem lookup_lt {h : Heap} {a : Nat} {n : Node} (hl : h[a]? = some n) : a < h.length := by
  by_contra hlt
  rw [List.getElem?_eq_none (by omega)] at hl
  cases hl

theorem Rep_grow {h : Heap} {cs : List Cell} {e : Option Nat} (hr : Rep h cs e)
    (ext : List Node) : Rep (h ++ ext) cs e := by
  apply Rep_frame hr
  intro c hc
  exact List.getElem?_append_left (Rep_valid hr hc)

/-- One call of the closure of `Insert`, on the boundary cell of a level,
while `shouldInsert` holds. -/
theorem insertCallback_step {h : Heap} {L : Level} (v : Int) (hr : Rep h L.all none)
    (hn : (L.all.map Cell.addr).Nodup) (prev : Option Nat) (c : Bool) (rest : List Bool) :
    ∃ h1, insertCallback v (bd v L).addr
        (h, { previousNode := prev, shouldInsert := true, flips := c :: rest }) =
        Except.ok (h1, { previousNode := some h.length, shouldInsert := c, flips := rest }) ∧
      Rep h1 (insAt v (newCell v h.length prev) L).all none ∧
      (∀ a, a < h.length → a ≠ (bd v L).addr → h1[a]? = h[a]?) ∧
      h1.length = h.length + 1 := by
  have hb := Rep_bd v hr
  have ha := Rep_after v hr
  have hsplit := level_split v L
  have hblt : (bd v L).addr < h.length := lookup_lt hb
  refine ⟨(h ++ [(newCell v h.length prev).node (nextOf (after v L) none)]).set (bd v L).addr
    ((bd v L).node (some h.length)), ?_, ?_, ?_, by simp⟩
  · simp [insertCallback, deref_of_lookup hb, coinFlip, bind, Except.bind, pure, Except.pure,
      Cell.node, newCell]
  · have hall : (insAt v (newCell v h.length prev) L).all =
        (L.hd :: L.nodes.takeWhile (below v)) ++ (newCell v h.length prev :: after v L) := by
      rw [List.cons_append]; rfl
    rw [hall, Rep_append]
    constructor
    · have h1 : Rep h (L.hd :: L.nodes.takeWhile (below v)) (nextOf (after v L) none) := by
        rw [hsplit] at hr
        exact ((Rep_append _ _ _ _).1 hr).1
      have hn1 : ((L.hd :: L.nodes.takeWhile (below v)).map Cell.addr).Nodup := by
        rw [hsplit, List.map_append] at hn
        exact (List.nodup_append.1 hn).1
      exact Rep_set_last _ _ (Rep_grow h1 _) hn1
    · constructor
      · rw [List.getElem?_set_ne (by show (bd v L).addr ≠ h.length; omega)]
        show (h ++ _)[h.length]? = _
        rw [List.getElem?_append_right (le_refl _)]
        simp
      · apply Rep_frame (Rep_grow ha _)
        intro x hx
        apply List.getElem?_set_ne
        exact fun h => bd_not_mem_after v hn x hx h.symm
  · intro a halt hne
    rw [List.getElem?_set_ne (fun h => hne h.symm)]
    exact List.getElem?_append_left halt

theorem insAt_all_addr (v : Int) (c : Cell) (L : Level) :
    ∀ x ∈ (insAt v c L).all, x = c ∨ x ∈ L.all := by
  intro x hx
  rcases List.mem_cons.1 hx with rfl | hx
  · right; exact List.mem_cons_self _ _
  · rcases List.mem_append.1 hx with h1 | h1
    · right; exact List.mem_cons_of_mem _ ((List.takeWhile_sublist _).subset h1)
    · rcases List.mem_cons.1 h1 with rfl | h1
      · left; rfl
      · right; exact List.mem_cons_of_mem _ ((List.dropWhile_sublist _).subset h1)

theorem addrs_lt {h : Heap} {up : List Level} (hrep : ∀ L ∈ up, Rep h L.all none) :
    ∀ a ∈ addrs up, a < h.length := by
  intro a ha
  simp only [addrs, List.mem_flatten, List.mem_map] at ha
  obtain ⟨_, ⟨L, hL, rfl⟩, ha⟩ := ha
  obtain ⟨c, hc, rfl⟩ := List.mem_map.1 ha
  exact Rep_valid (hrep L hL) hc

/-- The calls of the closure of `Insert` over the boundary cells of a list of
levels place the new nodes as `insWalk` says and touch no other node. -/
theorem insert_fold (v : Int) :
    ∀ (up : List Level) (h : Heap) (vars : InsertVars) (up' : List Level) (n' : Nat)
      (vars' : InsertVars), (∀ L ∈ up, Rep h L.all none) → (addrs up).Nodup →
      insWalk v up h.length vars = Except.ok (up', n', vars') →
      ∃ h', (up.map (fun L => (bd v L).addr)).foldlM (fun s b => insertCallback v b s)
          (h, vars) = Except.ok (h', vars') ∧
        h'.length = n' ∧ (∀ L ∈ up', Rep h' L.all none) ∧
        (∀ a, a < h.length → a ∉ addrs up → h'[a]? = h[a]?) ∧ h.length ≤ h'.length := by
  intro up
  induction up with
  | nil =>
    intro h vars up' n' vars' _ _ hw
    simp only [insWalk, pure, Except.pure, Except.ok.injEq, Prod.mk.injEq] at hw
    obtain ⟨rfl, rfl, rfl⟩ := hw
    exact ⟨h, rfl, rfl, fun _ hL => absurd hL (List.not_mem_nil _), fun _ _ _ => rfl, le_refl _⟩
  | cons L up ih =>
    intro h vars up' n' vars' hrep hn hw
    obtain ⟨prev, si, flips⟩ := vars
    cases si with
    | false =>
      simp only [insWalk, pure, Except.pure, Except.ok.injEq, Prod.mk.injEq,
        Bool.false_eq_true, if_false] at hw
      obtain ⟨rfl, rfl, rfl⟩ := hw
      refine ⟨h, ?_, rfl, hrep, fun _ _ _ => rfl, le_refl _⟩
      generalize (L :: up).map (fun L => (bd v L).addr) = bs
      induction bs with
      | nil => rfl
      | cons b bs ihb =>
        rw [List.foldlM_cons]
        simp only [insertCallback, Bool.false_eq_true, if_false, bind, Except.bind, pure,
          Except.pure]
        exact ihb
    | true =>
      cases flips with
      | nil => simp [insWalk, coinFlip, bind, Except.bind, throw, throwThe,
          MonadExceptOf.throw] at hw
      | cons c rest =>
        simp only [insWalk, coinFlip, if_true, bind, Except.bind, pure, Except.pure] at hw
        cases hrec : insWalk v up (h.length + 1)
            { previousNode := some h.length, shouldInsert := c, flips := rest } with
        | error e => rw [hrec] at hw; cases hw
        | ok r =>
          rw [hrec] at hw
          simp only [Except.ok.injEq, Prod.mk.injEq] at hw
          obtain ⟨rfl, hr2⟩ := hw
          obtain ⟨W, n1, vars1⟩ := r
          simp only [Prod.mk.injEq] at hr2
          obtain ⟨rfl, rfl⟩ := hr2
          have hnL := level_nodup hn (List.mem_cons_self _ _)
          obtain ⟨h1, hstep, hrep1, hframe1, hlen1⟩ :=
            insertCallback_step v (hrep L (List.mem_cons_self _ _)) hnL prev c rest
          have hbd : (bd v L).addr ∉ addrs up := disjoint_of_addrs_cons hn (bd_mem v L)
          have hrepUp : ∀ U ∈ up, Rep h1 U.all none := by
            intro U hU
            have hrU := hrep U (List.mem_cons_of_mem _ hU)
            apply Rep_frame hrU
            intro x hx
            apply hframe1 _ (Rep_valid hrU hx)
            intro heq
            exact hbd (heq ▸ mem_addrs hU hx)
          have hnUp : (addrs up).Nodup := by
            rw [addrs_cons] at hn
            exact (List.nodup_append.1 hn).2.1
          rw [← hlen1] at hrec
          obtain ⟨h', hfold, hlen', hrep', hframe', hle'⟩ :=
            ih h1 _ W n1 vars1 hrepUp hnUp hrec
          have hup_lt := addrs_lt (fun U hU => hrep U (List.mem_cons_of_mem _ hU))
          refine ⟨h', ?_, hlen', ?_, ?_, by omega⟩
          · rw [List.map_cons, List.foldlM_cons, hstep]
            exact hfold
          · intro U hU
            rcases List.mem_cons.1 hU with rfl | hU
            · apply Rep_frame hrep1
              intro x hx
              apply hframe' _ (Rep_valid hrep1 hx)
              rcases insAt_all_addr v _ L x hx with rfl | hxL
              · intro hmem
                have := hup_lt _ hmem
                simp [newCell] at this
              · exact disjoint_of_addrs_cons hn hxL
            · exact hrep' U hU
          · intro a halt ha
            rw [addrs_cons, List.mem_append, not_or] at ha
            rw [hframe' a (by omega) ha.2]
            apply hframe1 a halt
            intro heq
            exact ha.1 (heq ▸ List.mem_map_of_mem _ (bd_mem v L))

end skiplist

namespace skiplist

/-- The final loop of `Insert` allocates the levels that `insGrow` lists and
touches no existing node. -/
theorem insertLoop_spec (v : Int) :
    ∀ (flips : List Bool) (si : Bool) (h : Heap) (head prev : Option Nat) (G : List Level)
      (n' : Nat) (head' : Option Nat) (flips' : List Bool),
      insGrow v si flips h.length head prev = Except.ok (G, n', head', flips') →
      ∃ h', insertLoop v si flips h head prev = Except.ok (h', head', flips') ∧
        h'.length = n' ∧ (∀ L ∈ G, Rep h' L.all none) ∧
        (∀ a, a < h.length → h'[a]? = h[a]?) ∧ h.length ≤ h'.length := by
  intro flips
  induction flips with
  | nil =>
    intro si h head prev G n' head' flips' hg
    cases si with
    | false =>
      simp only [insGrow, pure, Except.pure, Except.ok.injEq, Prod.mk.injEq] at hg
      obtain ⟨rfl, rfl, rfl, rfl⟩ := hg
      exact ⟨h, rfl, rfl, fun _ hL => absurd hL (List.not_mem_nil _), fun _ _ => rfl, le_refl _⟩
    | true => simp [insGrow, throw, throwThe, MonadExceptOf.throw] at hg
  | cons c rest ih =>
    intro si h head prev G n' head' flips' hg
    cases si with
    | false =>
      simp only [insGrow, pure, Except.pure, Except.ok.injEq, Prod.mk.injEq] at hg
      obtain ⟨rfl, rfl, rfl, rfl⟩ := hg
      exact ⟨h, rfl, rfl, fun _ hL => absurd hL (List.not_mem_nil _), fun _ _ => rfl, le_refl _⟩
    | true =>
      simp only [insGrow, bind, Except.bind, pure, Except.pure] at hg
      let h1 : Heap := h ++ [(newCell v h.length prev).node none,
        (topLevel v h.length head prev).hd.node (some h.length)]
      have hlen1 : h1.length = h.length + 2 := by simp [h1]
      cases hrec : insGrow v c rest (h.length + 2) (some (h.length + 1)) (some h.length) with
      | error e => rw [hrec] at hg; cases hg
      | ok r =>
        rw [hrec] at hg
        simp only [Except.ok.injEq, Prod.mk.injEq] at hg
        obtain ⟨rfl, hr2⟩ := hg
        obtain ⟨G1, n1, hd1, fl1⟩ := r
        simp only [Prod.mk.injEq] at hr2
        obtain ⟨rfl, rfl, rfl⟩ := hr2
        rw [← hlen1] at hrec
        obtain ⟨h', hloop, hlen', hrep', hframe', hle'⟩ :=
          ih c h1 (some (h.length + 1)) (some h.length) G1 n1 hd1 fl1
            (by rw [hlen1] at hrec ⊢; exact hrec)
        refine ⟨h', ?_, hlen', ?_, ?_, by omega⟩
        · rw [← hloop]
          simp [insertLoop, h1, Cell.node, newCell, topLevel]
        · intro U hU
          rcases List.mem_cons.1 hU with rfl | hU
          · have hrep1 : Rep h1 (topLevel v h.length head prev).all none := by
              refine ⟨?_, ?_, trivial⟩
              · show (h ++ _)[h.length + 1]? = _
                rw [List.getElem?_append_right (by omega)]
                simp [nextOf, newCell, topLevel]
              · show (h ++ _)[h.length]? = _
                rw [List.getElem?_append_right (by omega)]
                simp [nextOf]
            apply Rep_frame hrep1
            intro x hx
            exact hframe' _ (Rep_valid hrep1 hx)
          · exact hrep' U hU
        · intro a halt
          rw [hframe' a (by omega)]
          exact List.getElem?_append_left halt

end skiplist

namespace skiplist

/-! ## Insert on a well-formed structure: the levels -/

theorem after_all_ge (v : Int) {L : Level}
    (hs : (L.nodes.map Cell.val).Pairwise (fun a b => a ≤ b)) :
    ∀ c ∈ after v L, v ≤ c.val := by
  intro c hc
  cases ha : after v L with
  | nil => rw [ha] at hc; cases hc
  | cons r rest =>
    have hge := after_head_ge ha
    have hsa := after_sorted v hs
    rw [ha] at hsa hc
    rcases List.mem_cons.1 hc with rfl | hc
    · exact hge
    · have := (List.pairwise_cons.1 hsa).1 c.val (List.mem_map_of_mem _ hc)
      omega

theorem nodes_split (v : Int) (L : Level) :
    L.nodes = L.nodes.takeWhile (below v) ++ after v L :=
  (List.takeWhile_append_dropWhile _ _).symm

theorem filter_below (v : Int) {L : Level}
    (hs : (L.nodes.map Cell.val).Pairwise (fun a b => a ≤ b)) :
    L.nodes.filter (below v) = L.nodes.takeWhile (below v) := by
  conv_lhs => rw [nodes_split v L]
  rw [List.filter_append]
  have h1 : (L.nodes.takeWhile (below v)).filter (below v) = L.nodes.takeWhile (below v) :=
    List.filter_eq_self.2 (fun a ha => List.mem_takeWhile_imp ha)
  have h2 : (after v L).filter (below v) = [] := by
    apply List.filter_eq_nil_iff.2
    intro a ha
    have := after_all_ge v hs a ha
    simp only [below, decide_eq_true_eq]
    omega
  rw [h1, h2, List.append_nil]

theorem filter_not_below (v : Int) {L : Level}
    (hs : (L.nodes.map Cell.val).Pairwise (fun a b => a ≤ b)) :
    L.nodes.filter (fun c => !below v c) = after v L := by
  conv_lhs => rw [nodes_split v L]
  rw [List.filter_append]
  have h1 : (L.nodes.takeWhile (below v)).filter (fun c => !below v c) = [] := by
    apply List.filter_eq_nil_iff.2
    intro a ha
    simp [List.mem_takeWhile_imp ha]
  have h2 : (after v L).filter (fun c => !below v c) = after v L := by
    apply List.filter_eq_self.2
    intro a ha
    have := after_all_ge v hs a ha
    simp only [below, Bool.not_eq_true', decide_eq_false_iff_not]
    omega
  rw [h1, h2, List.nil_append]

theorem LevelWF_insAt (v : Int) {L : Level} (hw : LevelWF L) {c : Cell}
    (hc : c.isHead = false) (hv : c.val = v) : LevelWF (insAt v c L) := by
  refine ⟨hw.hdHead, ?_, ?_⟩
  · intro x hx
    rcases List.mem_append.1 hx with h1 | h1
    · exact hw.nodesReal x ((List.takeWhile_sublist _).subset h1)
    · rcases List.mem_cons.1 h1 with rfl | h1
      · exact hc
      · exact hw.nodesReal x ((List.dropWhile_sublist _).subset h1)
  · show ((L.nodes.takeWhile (below v) ++ c :: after v L).map Cell.val).Pairwise _
    rw [List.map_append, List.map_cons, List.pairwise_append]
    refine ⟨hw.sorted.sublist ((List.takeWhile_sublist _).map _), ?_, ?_⟩
    · rw [List.pairwise_cons]
      refine ⟨?_, after_sorted v hw.sorted⟩
      intro b hb
      obtain ⟨x, hx, rfl⟩ := List.mem_map.1 hb
      have := after_all_ge v hw.sorted x hx
      omega
    · intro a ha b hb
      obtain ⟨x, hx, rfl⟩ := List.mem_map.1 ha
      have h1 := before_lt hx
      rcases List.mem_cons.1 hb with rfl | hb
      · omega
      · obtain ⟨y, hy, rfl⟩ := List.mem_map.1 hb
        have := after_all_ge v hw.sorted y hy
        omega

theorem insAt_nodes_sublist (v : Int) (c : Cell) (L : Level) :
    L.nodes.Sublist (insAt v c L).nodes := by
  conv_lhs => rw [nodes_split v L]
  exact (List.Sublist.refl _).append ((List.Sublist.refl _).cons _)

/-- Placing a node in the lower level keeps the level above sitting on it. -/
theorem Twin_insAt_lower (v : Int) (c : Cell) {B U : Level} (ht : Twin B U) :
    Twin (insAt v c B) U :=
  ⟨ht.1, ht.2.trans ((insAt_nodes_sublist v c B).map _)⟩

/-- Placing a node in each of two adjacent levels, the upper one pointing down
to the lower one, keeps the upper level sitting on the lower one. -/
theorem Twin_insAt (v : Int) {B U : Level} (ht : Twin B U) (hB : LevelWF B) (hU : LevelWF U)
    (p n : Nat) (x : Option Nat) :
    Twin (insAt v (newCell v p x) B) (insAt v (newCell v n (some p)) U) := by
  refine ⟨ht.1, ?_⟩
  have hlo := ht.2.filter (fun pr => decide (pr.2 < v))
  have hhi := ht.2.filter (fun pr => !decide (pr.2 < v))
  rw [List.filter_map, List.filter_map] at hlo hhi
  have e1 : ((fun pr : Option Nat × Int => decide (pr.2 < v)) ∘ fun c : Cell => (c.down, c.val))
      = below v := rfl
  have e2 : ((fun pr : Option Nat × Int => decide (pr.2 < v)) ∘
      fun c : Cell => (some c.addr, c.val)) = below v := rfl
  have e3 : ((fun pr : Option Nat × Int => !decide (pr.2 < v)) ∘
      fun c : Cell => (c.down, c.val)) = fun c => !below v c := rfl
  have e4 : ((fun pr : Option Nat × Int => !decide (pr.2 < v)) ∘
      fun c : Cell => (some c.addr, c.val)) = fun c => !below v c := rfl
  rw [e1, e2, filter_below v hU.sorted, filter_below v hB.sorted] at hlo
  rw [e3, e4, filter_not_below v hU.sorted, filter_not_below v hB.sorted] at hhi
  show ((U.nodes.takeWhile (below v) ++ newCell v n (some p) :: after v U).map _).Sublist
    ((B.nodes.takeWhile (below v) ++ newCell v p x :: after v B).map _)
  rw [List.map_append, List.map_append, List.map_cons, List.map_cons]
  exact hlo.append (hhi.cons₂ _)

theorem insWalk_false (v : Int) (up : List Level) (n : Nat) (vars : InsertVars)
    (hsi : vars.shouldInsert = false) : insWalk v up n vars = Except.ok (up, n, vars) := by
  cases up with
  | nil => rfl
  | cons L up => simp [insWalk, hsi, pure, Except.pure]

/-- How `insWalk` unfolds on a level while `shouldInsert` holds. -/
theorem insWalk_cons_true (v : Int) (L : Level) (up : List Level) (n : Nat)
    (prev : Option Nat) (c : Bool) (rest : List Bool) (W : List Level) (n' : Nat)
    (vars' : InsertVars)
    (hw : insWalk v (L :: up) n { previousNode := prev, shouldInsert := true, flips := c :: rest }
      = Except.ok (W, n', vars')) :
    ∃ W1, W = insAt v (newCell v n prev) L :: W1 ∧
      insWalk v up (n + 1) { previousNode := some n, shouldInsert := c, flips := rest }
        = Except.ok (W1, n', vars') := by
  simp only [insWalk, coinFlip, if_true, bind, Except.bind, pure, Except.pure] at hw
  cases hrec : insWalk v up (n + 1) { previousNode := some n, shouldInsert := c, flips := rest } with
  | error e => rw [hrec] at hw; cases hw
  | ok r =>
    rw [hrec] at hw
    obtain ⟨W1, n1, vars1⟩ := r
    simp only [Except.ok.injEq, Prod.mk.injEq] at hw
    obtain ⟨rfl, rfl, rfl⟩ := hw
    exact ⟨W1, rfl, rfl⟩

/-- A case analysis of a successful `insWalk`. -/
theorem insWalk_cases (v : Int) (L : Level) (up : List Level) (n : Nat) (vars : InsertVars)
    (W : List Level) (n' : Nat) (vars' : InsertVars)
    (hw : insWalk v (L :: up) n vars = Except.ok (W, n', vars')) :
    (vars.shouldInsert = false ∧ W = L :: up ∧ n' = n ∧ vars' = vars) ∨
    (vars.shouldInsert = true ∧ ∃ c rest W1, vars.flips = c :: rest ∧
      W = insAt v (newCell v n vars.previousNode) L :: W1 ∧
      insWalk v up (n + 1) { previousNode := some n, shouldInsert := c, flips := rest }
        = Except.ok (W1, n', vars')) := by
  obtain ⟨prev, si, flips⟩ := vars
  cases si with
  | false =>
    left
    rw [insWalk_false v _ _ _ rfl] at hw
    simp only [Except.ok.injEq, Prod.mk.injEq] at hw
    exact ⟨rfl, hw.1.symm, hw.2.1.symm, hw.2.2.symm⟩
  | true =>
    right
    cases flips with
    | nil => simp [insWalk, coinFlip, bind, Except.bind, throw, throwThe,
        MonadExceptOf.throw] at hw
    | cons c rest =>
      obtain ⟨W1, h1, h2⟩ := insWalk_cons_true v L up n prev c rest W n' vars' hw
      exact ⟨rfl, c, rest, W1, rfl, h1, h2⟩

theorem insWalk_wf (v : Int) :
    ∀ (up : List Level) (n : Nat) (vars : InsertVars) (W : List Level) (n' : Nat)
      (vars' : InsertVars), insWalk v up n vars = Except.ok (W, n', vars') →
      (∀ L ∈ up, LevelWF L) → ∀ L ∈ W, LevelWF L := by
  intro up
  induction up with
  | nil =>
    intro n vars W n' vars' hw _
    simp only [insWalk, pure, Except.pure, Except.ok.injEq, Prod.mk.injEq] at hw
    rw [← hw.1]
    exact fun _ hL => absurd hL (List.not_mem_nil _)
  | cons L up ih =>
    intro n vars W n' vars' hw hwf
    rcases insWalk_cases v L up n vars W n' vars' hw with ⟨_, rfl, _, _⟩ |
      ⟨_, c, rest, W1, _, rfl, hrec⟩
    · exact hwf
    · intro U hU
      rcases List.mem_cons.1 hU with rfl | hU
      · exact LevelWF_insAt v (hwf L (List.mem_cons_self _ _)) rfl rfl
      · exact ih _ _ W1 n' vars' hrec (fun U hU => hwf U (List.mem_cons_of_mem _ hU)) U hU

theorem insWalk_hd (v : Int) :
    ∀ (up : List Level) (n : Nat) (vars : InsertVars) (W : List Level) (n' : Nat)
      (vars' : InsertVars), insWalk v up n vars = Except.ok (W, n', vars') →
      W.map Level.hd = up.map Level.hd := by
  intro up
  induction up with
  | nil =>
    intro n vars W n' vars' hw
    simp only [insWalk, pure, Except.pure, Except.ok.injEq, Prod.mk.injEq] at hw
    rw [← hw.1]
  | cons L up ih =>
    intro n vars W n' vars' hw
    rcases insWalk_cases v L up n vars W n' vars' hw with ⟨_, rfl, _, _⟩ |
      ⟨_, c, rest, W1, _, rfl, hrec⟩
    · rfl
    · rw [List.map_cons, List.map_cons, ih _ _ W1 n' vars' hrec]
      rfl

theorem insAt_addrs_perm (v : Int) (c : Cell) (L : Level) :
    ((insAt v c L).all.map Cell.addr).Perm (c.addr :: L.all.map Cell.addr) := by
  show ((L.hd :: (L.nodes.takeWhile (below v) ++ c :: after v L)).map Cell.addr).Perm
    (c.addr :: (L.hd :: L.nodes).map Cell.addr)
  conv_rhs => rw [nodes_split v L]
  simp only [List.map_cons, List.map_append]
  refine (List.Perm.cons _ List.perm_middle).trans (List.Perm.swap _ _ _)

/-- The addresses `insWalk` uses: those of the old levels and fresh ones from
`n` up to the next free address, none twice. -/
theorem insWalk_addrs (v : Int) :
    ∀ (up : List Level) (n : Nat) (vars : InsertVars) (W : List Level) (n' : Nat)
      (vars' : InsertVars), insWalk v up n vars = Except.ok (W, n', vars') →
      (∀ a ∈ addrs up, a < n) → (addrs up).Nodup →
      (addrs W).Nodup ∧ (∀ a ∈ addrs W, a ∈ addrs up ∨ (n ≤ a ∧ a < n')) ∧ n ≤ n' := by
  intro up
  induction up with
  | nil =>
    intro n vars W n' vars' hw _ hn
    simp only [insWalk, pure, Except.pure, Except.ok.injEq, Prod.mk.injEq] at hw
    obtain ⟨rfl, rfl, _⟩ := hw
    exact ⟨hn, fun a ha => Or.inl ha, le_refl _⟩
  | cons L up ih =>
    intro n vars W n' vars' hw hlt hn
    rcases insWalk_cases v L up n vars W n' vars' hw with ⟨_, rfl, rfl, _⟩ |
      ⟨_, c, rest, W1, _, rfl, hrec⟩
    · exact ⟨hn, fun a ha => Or.inl ha, le_refl _⟩
    · have hn' := hn
      rw [addrs_cons, List.nodup_append] at hn'
      have hltUp : ∀ a ∈ addrs up, a < n + 1 := by
        intro a ha
        have := hlt a (by rw [addrs_cons]; exact List.mem_append_right _ ha)
        omega
      obtain ⟨hnW, hmemW, hle⟩ := ih _ _ W1 n' vars' hrec hltUp hn'.2.1
      have hperm := insAt_addrs_perm v (newCell v n vars.previousNode) L
      have hltL : ∀ a ∈ L.all.map Cell.addr, a < n := by
        intro a ha
        exact hlt a (by rw [addrs_cons]; exact List.mem_append_left _ ha)
      refine ⟨?_, ?_, by omega⟩
      · rw [addrs_cons, List.nodup_append]
        refine ⟨?_, hnW, ?_⟩
        · rw [hperm.nodup_iff, List.nodup_cons]
          refine ⟨?_, hn'.1⟩
          intro hmem
          have := hltL _ hmem
          simp [newCell] at this
        · intro a ha hb
          rcases hmemW a hb with h1 | h1
          · rcases List.mem_cons.1 (hperm.subset ha) with h2 | h2
            · have := hlt a (by rw [addrs_cons]; exact List.mem_append_right _ h1)
              rw [h2] at this
              simp [newCell] at this
            · exact hn'.2.2 h2 h1
          · rcases List.mem_cons.1 (hperm.subset ha) with h2 | h2
            · rw [h2] at h1
              simp [newCell] at h1
            · have := hltL a h2
              omega
      · intro a ha
        rw [addrs_cons, List.mem_append] at ha
        rcases ha with ha | ha
        · rcases List.mem_cons.1 (hperm.subset ha) with h2 | h2
          · right
            rw [h2]
            simp only [newCell]
            omega
          · left
            rw [addrs_cons]
            exact List.mem_append_left _ h2
        · rcases hmemW a ha with h1 | h1
          · left
            rw [addrs_cons]
            exact List.mem_append_right _ h1
          · right
            omega

end skiplist

namespace skiplist

/-- The levels that `insWalk` returns sit on one another as `Twin` says, and
the lowest of them sits on the level below, in which the previous node was
placed. -/
theorem insWalk_twin (v : Int) :
    ∀ (up : List Level) (n : Nat) (vars : InsertVars) (W : List Level) (n' : Nat)
      (vars' : InsertVars) (B : Level) (p : Nat) (x : Option Nat),
      insWalk v up n vars = Except.ok (W, n', vars') → List.Chain' Twin (B :: up) →
      LevelWF B → (∀ L ∈ up, LevelWF L) →
      (vars.shouldInsert = true → vars.previousNode = some p) →
      List.Chain' Twin (insAt v (newCell v p x) B :: W) := by
  intro up
  induction up with
  | nil =>
    intro n vars W n' vars' B p x hw _ _ _ _
    simp only [insWalk, pure, Except.pure, Except.ok.injEq, Prod.mk.injEq] at hw
    rw [← hw.1]
    exact List.chain'_singleton _
  | cons U up ih =>
    intro n vars W n' vars' B p x hw hch hB hwf hprev
    have htw : Twin B U := (List.chain'_cons.1 hch).1
    have hch' : List.Chain' Twin (U :: up) := (List.chain'_cons.1 hch).2
    rcases insWalk_cases v U up n vars W n' vars' hw with ⟨_, rfl, _, _⟩ |
      ⟨hsi, c, rest, W1, _, rfl, hrec⟩
    · exact List.Chain'.cons (Twin_insAt_lower v _ htw) hch'
    · rw [hprev hsi]
      refine List.Chain'.cons (Twin_insAt v htw hB (hwf U (List.mem_cons_self _ _)) p n x) ?_
      exact ih _ _ W1 n' vars' U n (some p) hrec hch' (hwf U (List.mem_cons_self _ _))
        (fun L hL => hwf L (List.mem_cons_of_mem _ hL)) (fun _ => rfl)

theorem mem_insAt_nodes (v : Int) (c : Cell) (L : Level) : c ∈ (insAt v c L).nodes :=
  List.mem_append_right _ (List.mem_cons_self _ _)

/-- When `insWalk` ends with `shouldInsert` still set, the previous node is a
node of the topmost level. -/
theorem insWalk_top (v : Int) :
    ∀ (up : List Level) (n : Nat) (vars : InsertVars) (W : List Level) (n' : Nat)
      (vars' : InsertVars) (T0 : Level) (p0 : Nat) (x0 : Option Nat),
      insWalk v up n vars = Except.ok (W, n', vars') → vars'.shouldInsert = true →
      vars.previousNode = some p0 → newCell v p0 x0 ∈ T0.nodes →
      ∃ T p x, (T0 :: W).getLast? = some T ∧ vars'.previousNode = some p ∧
        newCell v p x ∈ T.nodes := by
  intro up
  induction up with
  | nil =>
    intro n vars W n' vars' T0 p0 x0 hw _ hp hmem
    simp only [insWalk, pure, Except.pure, Except.ok.injEq, Prod.mk.injEq] at hw
    obtain ⟨rfl, _, rfl⟩ := hw
    exact ⟨T0, p0, x0, rfl, hp, hmem⟩
  | cons U up ih =>
    intro n vars W n' vars' T0 p0 x0 hw hsi' hp hmem
    rcases insWalk_cases v U up n vars W n' vars' hw with ⟨hsi, _, _, rfl⟩ |
      ⟨_, c, rest, W1, _, rfl, hrec⟩
    · rw [hsi] at hsi'; cases hsi'
    · obtain ⟨T, p, x, hT, hp', hm'⟩ := ih _ _ W1 n' vars'
        (insAt v (newCell v n vars.previousNode) U) n vars.previousNode hrec hsi' rfl
        (mem_insAt_nodes v _ U)
      exact ⟨T, p, x, by rw [List.getLast?_cons_cons]; exact hT, hp', hm'⟩

theorem afterFirstFalse_true (flips : List Bool) :
    afterFirstFalse (true :: flips) = afterFirstFalse flips := by
  simp [afterFirstFalse]

theorem afterFirstFalse_false (flips : List Bool) :
    afterFirstFalse (false :: flips) = flips := by
  simp [afterFirstFalse]

theorem afterFirstFalse_replicate (k : Nat) (rest : List Bool) :
    afterFirstFalse (List.replicate k true ++ false :: rest) = rest := by
  induction k with
  | zero => exact afterFirstFalse_false rest
  | succ k ih => rw [List.replicate_succ, List.cons_append, afterFirstFalse_true, ih]

/-- With a failed outcome still to come, `insWalk` succeeds, and it leaves
the outcomes after the first failure to whatever follows. -/
theorem insWalk_total (v : Int) :
    ∀ (up : List Level) (n : Nat) (vars : InsertVars),
      (vars.shouldInsert = true → false ∈ vars.flips) →
      ∃ W n' vars', insWalk v up n vars = Except.ok (W, n', vars') ∧
        (vars'.shouldInsert = true → false ∈ vars'.flips) ∧ leftover vars' = leftover vars := by
  intro up
  induction up with
  | nil =>
    intro n vars hf
    exact ⟨[], n, vars, rfl, hf, rfl⟩
  | cons L up ih =>
    intro n vars hf
    obtain ⟨prev, si, flips⟩ := vars
    cases si with
    | false => exact ⟨L :: up, n, _, insWalk_false v _ _ _ rfl, hf, rfl⟩
    | true =>
      have hmem := hf rfl
      cases flips with
      | nil => cases hmem
      | cons c rest =>
        have hf' : (({ previousNode := some n, shouldInsert := c, flips := rest } :
            InsertVars).shouldInsert = true → false ∈ rest) := by
          intro hc
          simp only at hc
          subst hc
          simpa using hmem
        obtain ⟨W1, n', vars', hrec, hf'', hlo⟩ := ih (n + 1) _ hf'
        refine ⟨insAt v (newCell v n prev) L :: W1, n', vars', ?_, hf'', ?_⟩
        · simp [insWalk, coinFlip, bind, Except.bind, pure, Except.pure, hrec]
        · rw [hlo]
          cases c with
          | false => simp [leftover, afterFirstFalse_false]
          | true => simp [leftover, afterFirstFalse_true]

/-- A case analysis of a successful `insGrow`. -/
theorem insGrow_cases (v : Int) (si : Bool) (flips : List Bool) (n : Nat)
    (head prev : Option Nat) (G : List Level) (n' : Nat) (head' : Option Nat)
    (flips' : List Bool)
    (hg : insGrow v si flips n head prev = Except.ok (G, n', head', flips')) :
    (si = false ∧ G = [] ∧ n' = n ∧ head' = head ∧ flips' = flips) ∨
    (si = true ∧ ∃ c rest G1, flips = c :: rest ∧ G = topLevel v n head prev :: G1 ∧
      insGrow v c rest (n + 2) (some (n + 1)) (some n) = Except.ok (G1, n', head', flips')) := by
  cases si with
  | false =>
    left
    cases flips <;>
    · simp only [insGrow, pure, Except.pure, Except.ok.injEq, Prod.mk.injEq] at hg
      exact ⟨rfl, hg.1.symm, hg.2.1.symm, hg.2.2.1.symm, hg.2.2.2.symm⟩
  | true =>
    right
    cases flips with
    | nil => simp [insGrow, throw, throwThe, MonadExceptOf.throw] at hg
    | cons c rest =>
      simp only [insGrow, bind, Except.bind, pure, Except.pure] at hg
      cases hrec : insGrow v c rest (n + 2) (some (n + 1)) (some n) with
      | error e => rw [hrec] at hg; cases hg
      | ok r =>
        rw [hrec] at hg
        obtain ⟨G1, n1, hd1, fl1⟩ := r
        simp only [Except.ok.injEq, Prod.mk.injEq] at hg
        obtain ⟨rfl, rfl, rfl, rfl⟩ := hg
        exact ⟨rfl, c, rest, G1, rfl, rfl, hrec⟩

/-- With a failed outcome still to come, `insGrow` succeeds and leaves the
outcomes after the first failure. -/
theorem insGrow_total (v : Int) :
    ∀ (flips : List Bool) (si : Bool) (n : Nat) (head prev : Option Nat),
      (si = true → false ∈ flips) →
      ∃ G n' head', insGrow v si flips n head prev = Except.ok (G, n', head',
        leftover { previousNode := prev, shouldInsert := si, flips := flips }) := by
  intro flips
  induction flips with
  | nil =>
    intro si n head prev hf
    cases si with
    | false => exact ⟨[], n, head, rfl⟩
    | true => cases hf rfl
  | cons c rest ih =>
    intro si n head prev hf
    cases si with
    | false => exact ⟨[], n, head, rfl⟩
    | true =>
      have hmem := hf rfl
      obtain ⟨G1, n', head', hrec⟩ := ih c (n + 2) (some (n + 1)) (some n) (by
        intro hc
        subst hc
        simpa using hmem)
      refine ⟨topLevel v n head prev :: G1, n', head', ?_⟩
      simp only [insGrow, bind, Except.bind, pure, Except.pure, hrec]
      cases c with
      | false => simp [leftover, afterFirstFalse_false]
      | true => simp [leftover, afterFirstFalse_true]

theorem LevelWF_topLevel (v : Int) (n : Nat) (head prev : Option Nat) :
    LevelWF (topLevel v n head prev) := by
  refine ⟨rfl, ?_, ?_⟩
  · intro c hc
    simp only [topLevel, List.mem_singleton] at hc
    rw [hc]; rfl
  · simp [topLevel]

theorem insGrow_wf (v : Int) :
    ∀ (flips : List Bool) (si : Bool) (n : Nat) (head prev : Option Nat) (G : List Level)
      (n' : Nat) (head' : Option Nat) (flips' : List Bool),
      insGrow v si flips n head prev = Except.ok (G, n', head', flips') →
      ∀ L ∈ G, LevelWF L := by
  intro flips
  induction flips with
  | nil =>
    intro si n head prev G n' head' flips' hg
    rcases insGrow_cases v si [] n head prev G n' head' flips' hg with ⟨_, rfl, _⟩ |
      ⟨_, c, rest, G1, hfl, _⟩
    · exact fun _ hL => absurd hL (List.not_mem_nil _)
    · cases hfl
  | cons c0 rest0 ih =>
    intro si n head prev G n' head' flips' hg
    rcases insGrow_cases v si _ n head prev G n' head' flips' hg with ⟨_, rfl, _⟩ |
      ⟨_, c, rest, G1, hfl, rfl, hrec⟩
    · exact fun _ hL => absurd hL (List.not_mem_nil _)
    · cases hfl
      intro L hL
      rcases List.mem_cons.1 hL with rfl | hL
      · exact LevelWF_topLevel v n head prev
      · exact ih _ _ _ _ G1 n' head' flips' hrec L hL

theorem insGrow_addrs (v : Int) :
    ∀ (flips : List Bool) (si : Bool) (n : Nat) (head prev : Option Nat) (G : List Level)
      (n' : Nat) (head' : Option Nat) (flips' : List Bool),
      insGrow v si flips n head prev = Except.ok (G, n', head', flips') →
      (addrs G).Nodup ∧ (∀ a ∈ addrs G, n ≤ a ∧ a < n') ∧ n ≤ n' := by
  intro flips
  induction flips with
  | nil =>
    intro si n head prev G n' head' flips' hg
    rcases insGrow_cases v si [] n head prev G n' head' flips' hg with ⟨_, rfl, rfl, _⟩ |
      ⟨_, c, rest, G1, hfl, _⟩
    · exact ⟨List.nodup_nil, fun _ ha => absurd ha (List.not_mem_nil _), le_refl _⟩
    · cases hfl
  | cons c0 rest0 ih =>
    intro si n head prev G n' head' flips' hg
    rcases insGrow_cases v si _ n head prev G n' head' flips' hg with ⟨_, rfl, rfl, _⟩ |
      ⟨_, c, rest, G1, hfl, rfl, hrec⟩
    · exact ⟨List.nodup_nil, fun _ ha => absurd ha (List.not_mem_nil _), le_refl _⟩
    · cases hfl
      obtain ⟨hn1, hm1, hle1⟩ := ih _ _ _ _ G1 n' head' flips' hrec
      have htop : (topLevel v n head prev).all.map Cell.addr = [n + 1, n] := rfl
      refine ⟨?_, ?_, by omega⟩
      · rw [addrs_cons, htop, List.nodup_append]
        refine ⟨by simp, hn1, ?_⟩
        intro a ha hb
        have := hm1 a hb
        simp only [List.mem_cons, List.mem_singleton, List.not_mem_nil, or_false] at ha
        omega
      · intro a ha
        rw [addrs_cons, htop, List.mem_append] at ha
        rcases ha with ha | ha
        · simp only [List.mem_cons, List.mem_singleton, List.not_mem_nil, or_false] at ha
          omega
        · have := hm1 a ha
          omega

/-- The levels `insGrow` creates continue a chain of levels: the first one
sits on the topmost old level, in which the previous node was placed. -/
theorem insGrow_chain (v : Int) :
    ∀ (flips : List Bool) (si : Bool) (n : Nat) (head prev : Option Nat) (G : List Level)
      (n' : Nat) (head' : Option Nat) (flips' : List Bool) (Ts : List Level),
      insGrow v si flips n head prev = Except.ok (G, n', head', flips') →
      List.Chain' Twin Ts →
      (si = true → ∀ T ∈ Ts.getLast?, head = some T.hd.addr ∧
        ∃ p x, prev = some p ∧ newCell v p x ∈ T.nodes) →
      List.Chain' Twin (Ts ++ G) := by
  intro flips
  induction flips with
  | nil =>
    intro si n head prev G n' head' flips' Ts hg hch _
    rcases insGrow_cases v si [] n head prev G n' head' flips' hg with ⟨_, rfl, _⟩ |
      ⟨_, c, rest, G1, hfl, _⟩
    · rw [List.append_nil]; exact hch
    · cases hfl
  | cons c0 rest0 ih =>
    intro si n head prev G n' head' flips' Ts hg hch hj
    rcases insGrow_cases v si _ n head prev G n' head' flips' hg with ⟨_, rfl, _⟩ |
      ⟨hsi, c, rest, G1, hfl, rfl, hrec⟩
    · rw [List.append_nil]; exact hch
    · cases hfl
      have hsplit : Ts ++ topLevel v n head prev :: G1 = (Ts ++ [topLevel v n head prev]) ++ G1 := by
        simp
      rw [hsplit]
      apply ih _ _ _ _ G1 n' head' flips' _ hrec
      · rw [List.chain'_append]
        refine ⟨hch, List.chain'_singleton _, ?_⟩
        intro T hT U hU
        simp only [List.head?_cons, Option.mem_def, Option.some.injEq] at hU
        subst hU
        obtain ⟨hhead, p, x, hprev, hmem⟩ := hj hsi T hT
        refine ⟨hhead, ?_⟩
        show ([newCell v n prev].map _).Sublist _
        rw [List.map_singleton, List.singleton_sublist, hprev]
        exact List.mem_map.2 ⟨_, hmem, rfl⟩
      · intro _ T hT
        rw [List.getLast?_concat] at hT
        simp only [Option.mem_def, Option.some.injEq] at hT
        subst hT
        exact ⟨rfl, n, prev, rfl, List.mem_singleton.2 rfl⟩

theorem insGrow_head (v : Int) :
    ∀ (flips : List Bool) (si : Bool) (n : Nat) (head prev : Option Nat) (G : List Level)
      (n' : Nat) (head' : Option Nat) (flips' : List Bool) (Ts : List Level),
      insGrow v si flips n head prev = Except.ok (G, n', head', flips') →
      head = Ts.getLast?.map (fun L => L.hd.addr) →
      head' = (Ts ++ G).getLast?.map (fun L => L.hd.addr) := by
  intro flips
  induction flips with
  | nil =>
    intro si n head prev G n' head' flips' Ts hg hh
    rcases insGrow_cases v si [] n head prev G n' head' flips' hg with ⟨_, rfl, _, rfl, _⟩ |
      ⟨_, c, rest, G1, hfl, _⟩
    · rw [List.append_nil]; exact hh
    · cases hfl
  | cons c0 rest0 ih =>
    intro si n head prev G n' head' flips' Ts hg hh
    rcases insGrow_cases v si _ n head prev G n' head' flips' hg with ⟨_, rfl, _, rfl, _⟩ |
      ⟨hsi, c, rest, G1, hfl, rfl, hrec⟩
    · rw [List.append_nil]; exact hh
    · cases hfl
      have hsplit : Ts ++ topLevel v n head prev :: G1 = (Ts ++ [topLevel v n head prev]) ++ G1 := by
        simp
      rw [hsplit]
      apply ih _ _ _ _ G1 n' head' flips' _ hrec
      rw [List.getLast?_concat]
      rfl

end skiplist

namespace skiplist

/-! ## Insert keeps a well-formed structure well formed -/

theorem insGhost_unfold (v : Int) (Ls : List Level) (n : Nat) (head : Option Nat)
    (flips : List Bool) (Ls' : List Level) (fl' : List Bool)
    (hg : insGhost v Ls n head flips = Except.ok (Ls', fl')) :
    ∃ W n1 vars1 G n2 head2,
      insWalk v Ls n { previousNode := none, shouldInsert := true, flips := flips }
        = Except.ok (W, n1, vars1) ∧
      insGrow v vars1.shouldInsert vars1.flips n1 head vars1.previousNode
        = Except.ok (G, n2, head2, fl') ∧ Ls' = W ++ G := by
  simp only [insGhost, bind, Except.bind, pure, Except.pure] at hg
  cases hw : insWalk v Ls n { previousNode := none, shouldInsert := true, flips := flips } with
  | error e => rw [hw] at hg; cases hg
  | ok w =>
    rw [hw] at hg
    obtain ⟨W, n1, vars1⟩ := w
    simp only at hg
    cases hgr : insGrow v vars1.shouldInsert vars1.flips n1 head vars1.previousNode with
    | error e => rw [hgr] at hg; cases hg
    | ok g =>
      rw [hgr] at hg
      obtain ⟨G, n2, head2, fl2⟩ := g
      simp only [Except.ok.injEq, Prod.mk.injEq] at hg
      obtain ⟨rfl, rfl⟩ := hg
      exact ⟨W, n1, vars1, G, n2, head2, rfl, hgr, rfl⟩

theorem insWalk_chain_top (v : Int) {Ls : List Level} (hch : List.Chain' Twin Ls)
    (hwf : ∀ L ∈ Ls, LevelWF L) (n : Nat) (flips : List Bool) (W : List Level) (n1 : Nat)
    (vars1 : InsertVars)
    (hw : insWalk v Ls n { previousNode := none, shouldInsert := true, flips := flips }
      = Except.ok (W, n1, vars1)) :
    List.Chain' Twin W ∧ (vars1.shouldInsert = true → ∀ T ∈ W.getLast?,
      ∃ p x, vars1.previousNode = some p ∧ newCell v p x ∈ T.nodes) := by
  cases Ls with
  | nil =>
    simp only [insWalk, pure, Except.pure, Except.ok.injEq, Prod.mk.injEq] at hw
    rw [← hw.1]
    exact ⟨List.chain'_nil, fun _ T hT => by cases hT⟩
  | cons L0 rest =>
    rcases insWalk_cases v L0 rest n _ W n1 vars1 hw with ⟨hsi, _⟩ |
      ⟨_, c, fl, W1, _, rfl, hrec⟩
    · cases hsi
    · constructor
      · exact insWalk_twin v rest _ _ W1 n1 vars1 L0 n none hrec hch
          (hwf L0 (List.mem_cons_self _ _)) (fun L hL => hwf L (List.mem_cons_of_mem _ hL))
          (fun _ => rfl)
      · intro hsi T hT
        obtain ⟨T', p, x, hT', hp, hm⟩ := insWalk_top v rest _ _ W1 n1 vars1
          (insAt v (newCell v n none) L0) n none hrec hsi rfl (mem_insAt_nodes v _ L0)
        rw [Option.mem_def, hT'] at hT
        cases hT
        exact ⟨p, x, hp, hm⟩

theorem insGhost_bottom (v : Int) {Ls : List Level} (n : Nat)
    (hbot : ∀ L, Ls.head? = some L → ∀ c ∈ L.all, c.down = none)
    (flips : List Bool) (W : List Level) (n1 : Nat) (vars1 : InsertVars) (G : List Level)
    (n2 : Nat) (head2 : Option Nat) (fl' : List Bool)
    (hw : insWalk v Ls n { previousNode := none, shouldInsert := true, flips := flips }
      = Except.ok (W, n1, vars1))
    (hgr : insGrow v vars1.shouldInsert vars1.flips n1 (Ls.getLast?.map (fun L => L.hd.addr))
      vars1.previousNode = Except.ok (G, n2, head2, fl')) :
    ∀ L, (W ++ G).head? = some L → ∀ c ∈ L.all, c.down = none := by
  cases Ls with
  | nil =>
    simp only [insWalk, pure, Except.pure, Except.ok.injEq, Prod.mk.injEq] at hw
    obtain ⟨rfl, rfl, rfl⟩ := hw
    rcases insGrow_cases v _ _ _ _ _ G n2 head2 fl' hgr with ⟨hsi, _⟩ |
      ⟨_, c, rest, G1, _, rfl, _⟩
    · cases hsi
    · intro L hL c hc
      simp only [List.nil_append, List.head?_cons, Option.some.injEq] at hL
      subst hL
      simp only [Level.all, topLevel, List.mem_cons, List.mem_singleton, List.not_mem_nil,
        or_false] at hc
      rcases hc with rfl | rfl <;> rfl
  | cons L0 rest =>
    rcases insWalk_cases v L0 rest n _ W n1 vars1 hw with ⟨hsi, _⟩ |
      ⟨_, c, fl, W1, _, rfl, hrec⟩
    · cases hsi
    · intro L hL c hc
      simp only [List.cons_append, List.head?_cons, Option.some.injEq] at hL
      subst hL
      rcases insAt_all_addr v _ L0 c hc with rfl | hc0
      · rfl
      · exact hbot L0 rfl c hc0

/-- The operation `Insert` keeps a well-formed structure well formed; `insGhost` gives its
levels and the coin outcomes it leaves. -/
theorem Insert_inv (v : Int) {l : SkipList} {Ls : List Level} (hi : Inv l Ls)
    (flips : List Bool) (Ls' : List Level) (fl' : List Bool)
    (hg : insGhost v Ls l.heap.length l.head flips = Except.ok (Ls', fl')) :
    ∃ l', Insert l v flips = Except.ok (l', fl') ∧ Inv l' Ls' := by
  obtain ⟨W, n1, vars1, G, n2, head2, hw, hgr, rfl⟩ :=
    insGhost_unfold v Ls _ _ flips Ls' fl' hg
  have hs := hi.stack
  obtain ⟨h1, hfold, hlen1, hrep1, hframe1, hle1⟩ :=
    insert_fold v Ls l.heap _ W n1 vars1 hs.rep hs.nodup hw
  rw [← hlen1] at hgr
  obtain ⟨h2, hloop, hlen2, hrep2, hframe2, hle2⟩ :=
    insertLoop_spec v _ _ h1 _ _ G n2 head2 fl' hgr
  have hold_lt := addrs_lt hs.rep
  obtain ⟨hnW, hmemW, hnle⟩ := insWalk_addrs v Ls _ _ W n1 vars1 hw hold_lt hs.nodup
  obtain ⟨hnG, hmemG, hnle2⟩ := insGrow_addrs v _ _ _ _ _ G n2 head2 fl' hgr
  obtain ⟨hchW, htop⟩ := insWalk_chain_top v hs.twin hs.wf _ flips W n1 vars1 hw
  have hhdW : W.getLast?.map (fun L => L.hd.addr) = Ls.getLast?.map (fun L => L.hd.addr) := by
    have h := insWalk_hd v Ls _ _ W n1 vars1 hw
    have e : ∀ Xs : List Level, Xs.getLast?.map (fun L => L.hd.addr)
        = ((Xs.map Level.hd).getLast?).map Cell.addr := by
      intro Xs
      rw [List.getLast?_map, Option.map_map]
      rfl
    rw [e W, e Ls, h]
  refine ⟨{ heap := h2, head := head2 }, ?_, ⟨?_, ?_, ?_, ?_, ?_⟩, ?_⟩
  · simp only [Insert, walk_eq_fold, walkPath_inv hi v, bind, Except.bind, hfold, hloop]
    rfl
  · intro L hL
    rcases List.mem_append.1 hL with hL | hL
    · apply Rep_frame (hrep1 L hL)
      intro c hc
      exact hframe2 _ (Rep_valid (hrep1 L hL) hc)
    · exact hrep2 L hL
  · intro L hL
    rcases List.mem_append.1 hL with hL | hL
    · exact insWalk_wf v Ls _ _ W n1 vars1 hw hs.wf L hL
    · exact insGrow_wf v _ _ _ _ _ G n2 head2 fl' hgr L hL
  · show (addrs (W ++ G)).Nodup
    rw [addrs_append, List.nodup_append]
    refine ⟨hnW, hnG, ?_⟩
    intro a ha hb
    have h3 := (hmemG a hb).1
    rcases hmemW a ha with h4 | h4
    · have := hold_lt a h4
      omega
    · omega
  · have hgr' := hgr
    rw [hlen1, hi.head_eq] at hgr'
    exact insGhost_bottom v _ hs.bottom flips W n1 vars1 G n2 head2 fl' hw hgr'
  · apply insGrow_chain v _ _ _ _ _ G n2 head2 fl' W hgr hchW
    intro hsi T hT
    refine ⟨?_, htop hsi T hT⟩
    rw [hi.head_eq, ← hhdW]
    rw [Option.mem_def] at hT
    rw [hT]
    rfl
  · show head2 = _
    apply insGrow_head v _ _ _ _ _ G n2 head2 fl' W hgr
    rw [hi.head_eq, hhdW]

/-- With a failed outcome among the coin flips, `insGhost` succeeds and leaves
the outcomes after the first failure. -/
theorem insGhost_total (v : Int) (Ls : List Level) (n : Nat) (head : Option Nat)
    (flips : List Bool) (hf : false ∈ flips) :
    ∃ Ls', insGhost v Ls n head flips = Except.ok (Ls', afterFirstFalse flips) := by
  obtain ⟨W, n1, vars1, hw, hf1, hlo⟩ := insWalk_total v Ls n
    { previousNode := none, shouldInsert := true, flips := flips } (fun _ => hf)
  obtain ⟨G, n2, head2, hgr⟩ := insGrow_total v vars1.flips vars1.shouldInsert n1 head
    vars1.previousNode hf1
  refine ⟨W ++ G, ?_⟩
  simp only [insGhost, bind, Except.bind, pure, Except.pure, hw, hgr]
  have : leftover ⟨vars1.previousNode, vars1.shouldInsert, vars1.flips⟩
      = afterFirstFalse flips := by
    have e : (⟨vars1.previousNode, vars1.shouldInsert, vars1.flips⟩ : InsertVars) = vars1 := rfl
    rw [e, hlo]
    rfl
  rw [this]

theorem insertSorted_map (v : Int) (c : Cell) (hc : c.val = v) (L : Level) :
    (insAt v c L).nodes.map Cell.val = insertSorted v (L.nodes.map Cell.val) := by
  show (L.nodes.takeWhile (below v) ++ c :: L.nodes.dropWhile (below v)).map Cell.val = _
  rw [insertSorted, List.takeWhile_map, List.dropWhile_map, List.map_append, List.map_cons, hc]
  rfl

/-- After `Insert(v)` there is at least one level, and level 0 holds the old
values with `v` placed before the first value that is not less than `v`. -/
theorem insGhost_level0 (v : Int) (Ls : List Level) (n : Nat) (head : Option Nat)
    (flips : List Bool) (Ls' : List Level) (fl' : List Bool)
    (hg : insGhost v Ls n head flips = Except.ok (Ls', fl')) :
    level0 Ls' = insertSorted v (level0 Ls) ∧ Ls' ≠ [] := by
  obtain ⟨W, n1, vars1, G, n2, head2, hw, hgr, rfl⟩ :=
    insGhost_unfold v Ls n head flips Ls' fl' hg
  cases Ls with
  | nil =>
    simp only [insWalk, pure, Except.pure, Except.ok.injEq, Prod.mk.injEq] at hw
    obtain ⟨rfl, rfl, rfl⟩ := hw
    rcases insGrow_cases v _ _ _ _ _ G n2 head2 fl' hgr with ⟨hsi, _⟩ |
      ⟨_, c, rest, G1, _, rfl, _⟩
    · cases hsi
    · exact ⟨rfl, by simp⟩
  | cons L0 rest =>
    rcases insWalk_cases v L0 rest n _ W n1 vars1 hw with ⟨hsi, _⟩ |
      ⟨_, c, fl, W1, _, rfl, hrec⟩
    · cases hsi
    · exact ⟨insertSorted_map v _ rfl L0, by simp⟩

/-- The operation `Insert` on a well-formed structure, with a failed outcome among the coin
flips: it returns, the structure stays well formed, the outcomes after the
first failure are left, and level 0 gains `v` at its sorted position. -/
theorem Insert_ok (v : Int) {l : SkipList} {Ls : List Level} (hi : Inv l Ls)
    (flips : List Bool) (hf : false ∈ flips) :
    ∃ l' Ls', Insert l v flips = Except.ok (l', afterFirstFalse flips) ∧ Inv l' Ls' ∧
      insGhost v Ls l.heap.length l.head flips = Except.ok (Ls', afterFirstFalse flips) ∧
      level0 Ls' = insertSorted v (level0 Ls) ∧ Ls' ≠ [] := by
  obtain ⟨Ls', hg⟩ := insGhost_total v Ls l.heap.length l.head flips hf
  obtain ⟨l', hins, hinv⟩ := Insert_inv v hi flips Ls' _ hg
  obtain ⟨h0, hne⟩ := insGhost_level0 v Ls _ _ flips Ls' _ hg
  exact ⟨l', Ls', hins, hinv, hg, h0, hne⟩

theorem Inv_empty : Inv empty [] :=
  ⟨⟨fun _ hL => absurd hL (List.not_mem_nil _), fun _ hL => absurd hL (List.not_mem_nil _),
    List.nodup_nil, fun _ hL => (by cases hL), List.chain'_nil⟩, rfl⟩

end skiplist

namespace skiplist

/-! ## Sequences of operations -/

theorem count_false_afterFirstFalse (flips : List Bool) (hf : false ∈ flips) :
    (afterFirstFalse flips).count false + 1 = flips.count false := by
  induction flips with
  | nil => cases hf
  | cons c rest ih =>
    cases c with
    | false => rw [afterFirstFalse_false]; simp
    | true =>
      rw [afterFirstFalse_true]
      have : false ∈ rest := by simpa using hf
      have := ih this
      simp only [List.count_cons, Bool.true_eq_false, beq_iff_eq, if_false]
      simpa using this

theorem mem_false_of_count {flips : List Bool} (h : 0 < flips.count false) : false ∈ flips :=
  List.count_pos_iff.1 h

/-- Every sequence of operations runs to completion on a well-formed
structure when the coin flips hold a failed outcome for each `Insert`; the
result is well formed and its level 0 is the one `contents` describes. -/
theorem run_inv :
    ∀ (ops : List Op) (l : SkipList) (Ls : List Level) (flips : List Bool), Inv l Ls →
      numInserts ops ≤ flips.count false →
      ∃ l' Ls' flips', run ops l flips = Except.ok (l', flips') ∧ Inv l' Ls' ∧
        level0 Ls' = contents ops (level0 Ls) ∧
        flips'.count false + numInserts ops = flips.count false ∧
        ((Ls ≠ [] ∨ ∃ x, Op.insert x ∈ ops) → Ls' ≠ []) := by
  intro ops
  induction ops with
  | nil =>
    intro l Ls flips hi _
    refine ⟨l, Ls, flips, rfl, hi, rfl, rfl, ?_⟩
    rintro (h | ⟨x, hx⟩)
    · exact h
    · cases hx
  | cons op ops ih =>
    intro l Ls flips hi hc
    cases op with
    | insert v =>
      have hf : false ∈ flips := mem_false_of_count (by simp only [numInserts] at hc; omega)
      obtain ⟨l1, Ls1, hins, hinv1, _, h0, hne⟩ := Insert_ok v hi flips hf
      have hcnt := count_false_afterFirstFalse flips hf
      obtain ⟨l', Ls', flips', hrun, hinv', hlev, hfl, hne'⟩ :=
        ih l1 Ls1 (afterFirstFalse flips) hinv1 (by simp only [numInserts] at hc; omega)
      refine ⟨l', Ls', flips', ?_, hinv', ?_, ?_, fun _ => hne' (Or.inl hne)⟩
      · simp only [run, bind, Except.bind, hins]
        exact hrun
      · rw [hlev, h0]; rfl
      · simp only [numInserts]; omega
    | remove v =>
      obtain ⟨h1, hrem, hinv1⟩ := Remove_inv v hi
      obtain ⟨l', Ls', flips', hrun, hinv', hlev, hfl, hne'⟩ :=
        ih _ _ flips hinv1 (by simpa only [numInserts] using hc)
      refine ⟨l', Ls', flips', ?_, hinv', ?_, ?_, ?_⟩
      · simp only [run, bind, Except.bind, hrem]
        exact hrun
      · rw [hlev, level0_erase]; rfl
      · simpa only [numInserts] using hfl
      · rintro (h | ⟨x, hx⟩)
        · exact hne' (Or.inl (by simpa using h))
        · rcases List.mem_cons.1 hx with hx | hx
          · cases hx
          · exact hne' (Or.inr ⟨x, hx⟩)

theorem insertSorted_sorted (v : Int) {xs : List Int} (hs : xs.Sorted (fun a b => a ≤ b)) :
    (insertSorted v xs).Sorted (fun a b => a ≤ b) := by
  induction xs with
  | nil => simp [insertSorted]
  | cons x xs ih =>
    have hx := List.sorted_cons.1 hs
    by_cases hlt : x < v
    · have e : insertSorted v (x :: xs) = x :: insertSorted v xs := by
        simp [insertSorted, hlt]
      rw [e, List.sorted_cons]
      refine ⟨?_, ih hx.2⟩
      intro b hb
      simp only [insertSorted, List.mem_append, List.mem_cons] at hb
      rcases hb with hb | rfl | hb
      · exact hx.1 b ((List.takeWhile_sublist _).subset hb)
      · omega
      · exact hx.1 b ((List.dropWhile_sublist _).subset hb)
    · have e : insertSorted v (x :: xs) = v :: x :: xs := by
        simp [insertSorted, hlt]
      rw [e, List.sorted_cons]
      refine ⟨?_, hs⟩
      intro b hb
      rcases List.mem_cons.1 hb with rfl | hb
      · omega
      · have := hx.1 b hb
        omega

theorem insertSorted_perm (v : Int) (xs : List Int) : (insertSorted v xs).Perm (v :: xs) := by
  have h := List.takeWhile_append_dropWhile (fun x => decide (x < v)) xs
  conv_rhs => rw [← h]
  exact List.perm_middle

theorem contents_sorted :
    ∀ (ops : List Op) (xs : List Int), xs.Sorted (fun a b => a ≤ b) →
      (contents ops xs).Sorted (fun a b => a ≤ b) := by
  intro ops
  induction ops with
  | nil => intro xs hs; exact hs
  | cons op ops ih =>
    intro xs hs
    cases op with
    | insert v => exact ih _ (insertSorted_sorted v hs)
    | remove v => exact ih _ (hs.sublist (List.erase_sublist v xs))

theorem contents_bag :
    ∀ (ops : List Op) (xs : List Int),
      ((contents ops xs : List Int) : Multiset Int) = bagFrom ops (xs : Multiset Int) := by
  intro ops
  induction ops with
  | nil => intro xs; rfl
  | cons op ops ih =>
    intro xs
    cases op with
    | insert v =>
      show ((contents ops (insertSorted v xs) : List Int) : Multiset Int) = bagFrom ops (v ::ₘ ↑xs)
      rw [ih, Multiset.cons_coe]
      congr 1
      exact Quotient.sound (insertSorted_perm v xs)
    | remove v =>
      show ((contents ops (xs.erase v) : List Int) : Multiset Int) = bagFrom ops ((↑xs : Multiset Int).erase v)
      rw [ih, Multiset.coe_erase]

/-- The structure built from the empty one by a sequence of operations. -/
theorem run_empty (ops : List Op) (flips : List Bool)
    (hc : numInserts ops ≤ flips.count false) :
    ∃ l Ls flips', run ops empty flips = Except.ok (l, flips') ∧ Inv l Ls ∧
      (level0 Ls).Sorted (fun a b => a ≤ b) ∧ ((level0 Ls : List Int) : Multiset Int) = bag ops ∧
      ((∃ x, Op.insert x ∈ ops) → Ls ≠ []) := by
  obtain ⟨l, Ls, flips', hrun, hinv, hlev, _, hne⟩ := run_inv ops empty [] flips Inv_empty hc
  refine ⟨l, Ls, flips', hrun, hinv, ?_, ?_, fun h => hne (Or.inr h)⟩
  · rw [hlev]
    exact contents_sorted ops [] List.sorted_nil
  · rw [hlev, contents_bag]
    rfl

end skiplist

namespace skiplist

/-! ## Facts used by the claims -/

theorem after_head_eq_iff (v : Int) {L : Level}
    (hs : (L.nodes.map Cell.val).Pairwise (fun a b => a ≤ b)) :
    (∃ r rest, after v L = r :: rest ∧ r.val = v) ↔ v ∈ L.nodes.map Cell.val := by
  constructor
  · rintro ⟨r, rest, ha, hv⟩
    have : r ∈ after v L := by rw [ha]; exact List.mem_cons_self _ _
    exact List.mem_map.2 ⟨r, (List.dropWhile_sublist _).subset this, hv⟩
  · intro hv
    obtain ⟨c, hc, hcv⟩ := List.mem_map.1 hv
    rw [nodes_split v L, List.mem_append] at hc
    rcases hc with hc | hc
    · have := before_lt hc
      omega
    · cases ha : after v L with
      | nil => rw [ha] at hc; cases hc
      | cons r rest =>
        refine ⟨r, rest, rfl, ?_⟩
        have hge := after_head_ge ha
        have hsa := after_sorted v hs
        rw [ha] at hsa hc
        rcases List.mem_cons.1 hc with rfl | hc
        · exact hcv
        · have := (List.pairwise_cons.1 hsa).1 c.val (List.mem_map_of_mem _ hc)
          omega

/-- The operation `Get` on a well-formed structure with at least one level finds exactly the
values stored at level 0. -/
theorem Get_level0 {l : SkipList} {Ls : List Level} (hi : Inv l Ls) (hne : Ls ≠ [])
    (v : Int) :
    (v ∈ level0 Ls → Get l v = Except.ok (v, true)) ∧
    (v ∉ level0 Ls → Get l v = Except.ok (0, false)) := by
  cases Ls with
  | nil => exact absurd rfl hne
  | cons L rest =>
    have hs := (hi.stack.wf L (List.mem_cons_self _ _)).sorted
    have hiff := after_head_eq_iff v hs
    rw [Get_inv hi v]
    constructor
    · intro hv
      obtain ⟨r, rest', ha, hrv⟩ := hiff.2 hv
      rw [ha]
      simp [hrv]
    · intro hv
      cases ha : after v L with
      | nil => rfl
      | cons r rest' =>
        have : r.val ≠ v := fun h => hv (hiff.1 ⟨r, rest', ha, h⟩)
        simp [this]

theorem suffixFrom_eq_dropWhile (v : Int) (xs : List Int) :
    suffixFrom v xs = xs.dropWhile (fun x => decide (x < v)) := by
  induction xs with
  | nil => rfl
  | cons x xs ih =>
    by_cases h : x < v
    · have : ¬ x ≥ v := by omega
      simp [suffixFrom, h, this, ih]
    · have : x ≥ v := by omega
      simp [suffixFrom, h, this]

theorem twin_values_subset {L U : Level} (ht : Twin L U) :
    ∀ x ∈ U.nodes.map Cell.val, x ∈ L.nodes.map Cell.val := by
  intro x hx
  obtain ⟨c, hc, rfl⟩ := List.mem_map.1 hx
  obtain ⟨d, hd, _, hv⟩ := twin_down ht hc
  exact List.mem_map.2 ⟨d, hd, hv⟩

/-- A value that is absent from level 0 is absent from every level. -/
theorem absent_everywhere (v : Int) :
    ∀ (Ls : List Level), List.Chain' Twin Ls → v ∉ level0 Ls →
      ∀ L ∈ Ls, v ∉ L.nodes.map Cell.val := by
  intro Ls
  induction Ls with
  | nil => intro _ _ L hL; cases hL
  | cons L0 rest ih =>
    intro hch hv L hL
    rcases List.mem_cons.1 hL with rfl | hL
    · exact hv
    · cases rest with
      | nil => cases hL
      | cons L1 rest' =>
        have ht : Twin L0 L1 := (List.chain'_cons.1 hch).1
        have hv1 : v ∉ level0 (L1 :: rest') := fun h => hv (twin_values_subset ht v h)
        exact ih (List.chain'_cons.1 hch).2 hv1 L hL

theorem removeCallback_noop {h : Heap} {L : Level} (v : Int) (hr : Rep h L.all none)
    (hv : v ∉ L.nodes.map Cell.val) :
    removeCallback v (bd v L).addr (h, ()) = Except.ok (h, ()) := by
  have hb := Rep_bd v hr
  have ha := Rep_after v hr
  cases hafter : after v L with
  | nil =>
    simp [removeCallback, deref_of_lookup hb, hafter, nextOf, bind, Except.bind, pure,
      Except.pure]
  | cons r rest =>
    rw [hafter] at ha
    have hrv : r.val ≠ v := by
      intro hrv
      apply hv
      have : r ∈ after v L := by rw [hafter]; exact List.mem_cons_self _ _
      exact List.mem_map.2 ⟨r, (List.dropWhile_sublist _).subset this, hrv⟩
    simp [removeCallback, deref_of_lookup hb, hafter, nextOf, deref_of_lookup ha.1, hrv,
      bind, Except.bind, pure, Except.pure]

theorem remove_fold_noop (v : Int) (h : Heap) :
    ∀ (up : List Level), (∀ L ∈ up, Rep h L.all none) →
      (∀ L ∈ up, v ∉ L.nodes.map Cell.val) →
      (up.map (fun L => (bd v L).addr)).foldlM (fun s b => removeCallback v b s) (h, ())
        = Except.ok (h, ()) := by
  intro up
  induction up with
  | nil => intro _ _; rfl
  | cons L up ih =>
    intro hrep hv
    rw [List.map_cons, List.foldlM_cons,
      removeCallback_noop v (hrep L (List.mem_cons_self _ _)) (hv L (List.mem_cons_self _ _))]
    exact ih (fun U hU => hrep U (List.mem_cons_of_mem _ hU))
      (fun U hU => hv U (List.mem_cons_of_mem _ hU))

/-- The operation `Remove` of a value that is absent from level 0 writes nothing. -/
theorem Remove_absent {l : SkipList} {Ls : List Level} (hi : Inv l Ls) (v : Int)
    (hv : v ∉ level0 Ls) : Remove l v = Except.ok (l, false) := by
  have hall := absent_everywhere v Ls hi.stack.twin hv
  simp only [Remove, walk_eq_fold, walkPath_inv hi v, bind, Except.bind,
    remove_fold_noop v l.heap Ls hi.stack.rep hall]
  rfl

theorem insertSorted_erase (v : Int) (xs : List Int) : (insertSorted v xs).erase v = xs := by
  have h := List.takeWhile_append_dropWhile (fun x => decide (x < v)) xs
  have hn : v ∉ xs.takeWhile (fun x => decide (x < v)) := by
    intro hm
    have := List.mem_takeWhile_imp hm
    simp at this
  rw [insertSorted, List.erase_append_right _ hn, List.erase_cons_head, h]

/-- Successive calls of `Next` on an iterator positioned at a linked chain. -/
theorem nextTimes_spec (h : Heap) :
    ∀ (k : Nat) (cs : List Cell), Rep h cs none →
      nextTimes h k { current := nextOf cs none } =
        Except.ok ((cs.take k).map (fun c => (c.val, false))
            ++ List.replicate (k - cs.length) (0, true),
          { current := nextOf (cs.drop k) none }) := by
  intro k
  induction k with
  | zero => intro cs _; simp [nextTimes, pure, Except.pure]
  | succ k ih =>
    intro cs hr
    cases cs with
    | nil =>
      have := ih [] trivial
      simp only [nextOf] at this
      simp [nextTimes, Next, nextOf, this, bind, Except.bind, pure, Except.pure,
        List.replicate_succ]
    | cons c cs =>
      have := ih cs hr.2
      show nextTimes h (k + 1) { current := some c.addr } = _
      simp [nextTimes, Next, deref_of_lookup hr.1, this, bind, Except.bind, pure, Except.pure]

end skiplist

namespace skiplist

/-! ## The levels read off the heap are the levels of the invariant -/

theorem cellAt_node (c : Cell) (r : Option Nat) : cellAt c.addr (c.node r) = c := by
  cases c; rfl

theorem chainCells_spec (h : Heap) :
    ∀ (cs : List Cell) (fuel : Nat), Rep h cs none → cs.length ≤ fuel →
      chainCells h fuel (nextOf cs none) = Except.ok cs := by
  intro cs
  induction cs with
  | nil =>
    intro fuel _ _
    cases fuel <;> rfl
  | cons c cs ih =>
    intro fuel hr hf
    obtain ⟨fuel, rfl⟩ : ∃ k, fuel = k + 1 := ⟨fuel - 1, by simp at hf; omega⟩
    show chainCells h (fuel + 1) (some c.addr) = _
    simp only [chainCells, deref_of_lookup hr.1, bind, Except.bind, Cell.node_Right,
      ih fuel hr.2 (by simp at hf; omega), pure, Except.pure, cellAt_node]

theorem levelsDown_spec (h : Heap) :
    ∀ (Ls : List Level) (U : Level) (fuel : Nat), Stack h (Ls ++ [U]) → Ls.length < fuel →
      levelsDown h fuel (some U.hd.addr) = Except.ok (U :: Ls.reverse) := by
  intro Ls
  induction Ls using List.reverseRecOn with
  | nil =>
    intro U fuel hs hf
    obtain ⟨fuel, rfl⟩ : ∃ k, fuel = k + 1 := ⟨fuel - 1, by simp at hf; omega⟩
    have hU : U ∈ ([] : List Level) ++ [U] := by simp
    have hr := hs.rep U hU
    have hlen := Rep_length_le hr (level_nodup hs.nodup hU)
    have hb := hs.bottom U (by simp) U.hd (List.mem_cons_self _ _)
    have hc := chainCells_spec h U.nodes h.length hr.2 (by simp [Level.all] at hlen; omega)
    simp only [levelsDown, deref_of_lookup hr.1, bind, Except.bind, Cell.node_Right, hc,
      Cell.node_Down, hb, pure, Except.pure, cellAt_node]
    cases fuel <;> rfl
  | append_singleton Ls L ih =>
    intro U fuel hs hf
    obtain ⟨fuel, rfl⟩ : ∃ k, fuel = k + 1 := ⟨fuel - 1, by omega⟩
    have hU : U ∈ (Ls ++ [L]) ++ [U] := by simp
    have hr := hs.rep U hU
    have hlen := Rep_length_le hr (level_nodup hs.nodup hU)
    have ht : Twin L U := (List.chain'_append.1 hs.twin).2.2 L (by simp) U (by simp)
    have hc := chainCells_spec h U.nodes h.length hr.2 (by simp [Level.all] at hlen; omega)
    have hrec := ih L fuel hs.lower (by simp at hf; omega)
    simp only [levelsDown, deref_of_lookup hr.1, bind, Except.bind, Cell.node_Right, hc,
      Cell.node_Down, ht.1, hrec, pure, Except.pure, cellAt_node]
    simp

/-- On a well-formed structure the levels read off the heap are the levels of
the invariant. -/
theorem levelsOf_inv {l : SkipList} {Ls : List Level} (hi : Inv l Ls) :
    levelsOf l = Except.ok Ls := by
  rcases List.eq_nil_or_concat Ls with rfl | ⟨Ls, U, rfl⟩
  · have := hi.head_eq
    simp only [List.getLast?_nil, Option.map_none'] at this
    simp only [levelsOf, this, bind, Except.bind]
    cases l.heap.length <;> rfl
  · rw [List.concat_eq_append] at hi ⊢
    have hh := hi.head_eq
    simp only [List.getLast?_concat, Option.map_some'] at hh
    have hlen := hi.stack.levels_le
    simp only [levelsOf, hh, bind, Except.bind,
      levelsDown_spec l.heap Ls U l.heap.length hi.stack (by simp at hlen; omega)]
    simp [pure, Except.pure]

end skiplist

namespace skiplist

/-! ## A run that returns was given a failed coin outcome for each Insert -/

theorem insertLoop_ok_false (v : Int) :
    ∀ (flips : List Bool) (si : Bool) (h : Heap) (head prev : Option Nat)
      (r : Heap × Option Nat × List Bool),
      insertLoop v si flips h head prev = Except.ok r → si = true → false ∈ flips := by
  intro flips
  induction flips with
  | nil =>
    intro si h head prev r hr hsi
    subst hsi
    simp [insertLoop, throw, throwThe, MonadExceptOf.throw] at hr
  | cons c rest ih =>
    intro si h head prev r hr hsi
    subst hsi
    cases c with
    | false => exact List.mem_cons_self _ _
    | true =>
      simp only [insertLoop] at hr
      exact List.mem_cons_of_mem _ (ih true _ _ _ r hr rfl)

theorem insert_fold_ok_false (v : Int) :
    ∀ (bs : List Nat) (h : Heap) (vars : InsertVars) (h' : Heap) (vars' : InsertVars),
      bs.foldlM (fun s b => insertCallback v b s) (h, vars) = Except.ok (h', vars') →
      (vars'.shouldInsert = true → false ∈ vars'.flips) →
      vars.shouldInsert = true → false ∈ vars.flips := by
  intro bs
  induction bs with
  | nil =>
    intro h vars h' vars' hf hpost hsi
    simp only [List.foldlM, pure, Except.pure, Except.ok.injEq, Prod.mk.injEq] at hf
    obtain ⟨_, rfl⟩ := hf
    exact hpost hsi
  | cons b bs ih =>
    intro h vars h' vars' hf hpost hsi
    obtain ⟨prev, si, flips⟩ := vars
    simp only at hsi
    subst hsi
    rw [List.foldlM_cons] at hf
    simp only [insertCallback, if_true, bind, Except.bind] at hf
    cases hd : deref h b with
    | error e => rw [hd] at hf; cases hf
    | ok n =>
      rw [hd] at hf
      cases flips with
      | nil => simp [coinFlip, throw, throwThe, MonadExceptOf.throw] at hf
      | cons c rest =>
        simp only [coinFlip, pure, Except.pure] at hf
        cases c with
        | false => exact List.mem_cons_self _ _
        | true => exact List.mem_cons_of_mem _ (ih _ _ h' vars' hf hpost rfl)

/-- A call of `Insert` that returns has met a failed coin outcome. -/
theorem Insert_ok_false (v : Int) (l : SkipList) (flips : List Bool)
    (r : SkipList × List Bool) (hr : Insert l v flips = Except.ok r) : false ∈ flips := by
  simp only [Insert, walk_eq_fold, bind, Except.bind] at hr
  cases hp : walkPath l.heap v l.heap.length l.head with
  | error e => rw [hp] at hr; cases hr
  | ok bs =>
    rw [hp] at hr
    simp only at hr
    cases hf : bs.foldlM (fun s b => insertCallback v b s)
        (l.heap, ({ previousNode := none, shouldInsert := true, flips := flips } : InsertVars)) with
    | error e => rw [hf] at hr; cases hr
    | ok s =>
      rw [hf] at hr
      simp only at hr
      obtain ⟨h', vars'⟩ := s
      cases hl : insertLoop v vars'.shouldInsert vars'.flips h' l.head vars'.previousNode with
      | error e => rw [hl] at hr; cases hr
      | ok g =>
        exact insert_fold_ok_false v bs _ _ h' vars' hf
          (insertLoop_ok_false v _ _ _ _ _ g hl) rfl

/-- A call of `Insert` on a well-formed structure that returns: what it returns. -/
theorem Insert_ok_of_eq (v : Int) {l : SkipList} {Ls : List Level} (hi : Inv l Ls)
    (flips : List Bool) (l' : SkipList) (fl' : List Bool)
    (hr : Insert l v flips = Except.ok (l', fl')) :
    ∃ Ls', Inv l' Ls' ∧ fl' = afterFirstFalse flips ∧
      insGhost v Ls l.heap.length l.head flips = Except.ok (Ls', fl') ∧
      level0 Ls' = insertSorted v (level0 Ls) ∧ Ls' ≠ [] := by
  have hf := Insert_ok_false v l flips _ hr
  obtain ⟨l1, Ls1, hins, hinv, hg, h0, hne⟩ := Insert_ok v hi flips hf
  rw [hins] at hr
  simp only [Except.ok.injEq, Prod.mk.injEq] at hr
  obtain ⟨rfl, rfl⟩ := hr
  exact ⟨Ls1, hinv, rfl, hg, h0, hne⟩

/-- A run that returns has consumed one failed coin outcome per `Insert`. -/
theorem run_ok_count :
    ∀ (ops : List Op) (l : SkipList) (Ls : List Level) (flips : List Bool)
      (r : SkipList × List Bool), Inv l Ls → run ops l flips = Except.ok r →
      numInserts ops ≤ flips.count false := by
  intro ops
  induction ops with
  | nil => intro l Ls flips r _ _; exact Nat.zero_le _
  | cons op ops ih =>
    intro l Ls flips r hi hr
    cases op with
    | insert v =>
      simp only [run, bind, Except.bind] at hr
      cases hins : Insert l v flips with
      | error e => rw [hins] at hr; cases hr
      | ok r1 =>
        rw [hins] at hr
        obtain ⟨l1, fl1⟩ := r1
        obtain ⟨Ls1, hinv1, hfl, _⟩ := Insert_ok_of_eq v hi flips l1 fl1 hins
        have hmem := Insert_ok_false v l flips _ hins
        have hcnt := count_false_afterFirstFalse flips hmem
        have := ih l1 Ls1 fl1 r hinv1 hr
        rw [hfl] at this
        simp only [numInserts]
        omega
    | remove v =>
      obtain ⟨h1, hrem, hinv1⟩ := Remove_inv v hi
      simp only [run, bind, Except.bind, hrem] at hr
      exact ih _ _ flips r hinv1 hr

/-- A run on the zero-value structure that returns: the result is well formed
and has the level 0 that the model describes. -/
theorem run_ok_inv (ops : List Op) (flips : List Bool) (l : SkipList) (fl : List Bool)
    (hr : run ops empty flips = Except.ok (l, fl)) :
    ∃ Ls, Inv l Ls ∧ (level0 Ls).Sorted (fun a b => a ≤ b) ∧
      ((level0 Ls : List Int) : Multiset Int) = bag ops ∧
      ((∃ x, Op.insert x ∈ ops) → Ls ≠ []) := by
  have hc := run_ok_count ops empty [] flips _ Inv_empty hr
  obtain ⟨l1, Ls, fl1, hrun, hinv, hs, hb, hne⟩ := run_empty ops flips hc
  rw [hrun] at hr
  simp only [Except.ok.injEq, Prod.mk.injEq] at hr
  obtain ⟨rfl, rfl⟩ := hr
  exact ⟨Ls, hinv, hs, hb, hne⟩

/-! ## Adjacent levels -/

theorem chain_getElem {α : Type} (R : α → α → Prop) :
    ∀ (l : List α) (k : Nat) (a b : α), List.Chain' R l → l[k]? = some a →
      l[k + 1]? = some b → R a b := by
  intro l
  induction l with
  | nil => intro k a b _ ha; simp at ha
  | cons x l ih =>
    intro k a b hch ha hb
    cases k with
    | zero =>
      simp only [List.getElem?_cons_zero, Option.some.injEq] at ha
      subst ha
      cases l with
      | nil => simp at hb
      | cons y l =>
        simp only [List.getElem?_cons_succ, List.getElem?_cons_zero, Option.some.injEq] at hb
        subst hb
        exact (List.chain'_cons.1 hch).1
    | succ k =>
      rw [List.getElem?_cons_succ] at ha hb
      exact ih k a b hch.tail ha hb

theorem twin_values_sublist {L U : Level} (ht : Twin L U) :
    (U.nodes.map Cell.val).Sublist (L.nodes.map Cell.val) := by
  have := ht.2.map Prod.snd
  simpa [List.map_map, Function.comp] using this

theorem count_le_level0 (v : Int) :
    ∀ (Ls : List Level), List.Chain' Twin Ls →
      ∀ L ∈ Ls, (L.nodes.map Cell.val).count v ≤ (level0 Ls).count v := by
  intro Ls
  induction Ls with
  | nil => intro _ L hL; cases hL
  | cons L0 rest ih =>
    intro hch L hL
    rcases List.mem_cons.1 hL with rfl | hL
    · exact le_refl _
    · cases rest with
      | nil => cases hL
      | cons L1 rest' =>
        have ht : Twin L0 L1 := (List.chain'_cons.1 hch).1
        have h1 := ih (List.chain'_cons.1 hch).2 L hL
        have h2 := (twin_values_sublist ht).count_le v
        exact le_trans h1 h2

theorem eraseP_eq_filter_of_count_le_one (v : Int) :
    ∀ (cs : List Cell), (cs.map Cell.val).count v ≤ 1 →
      cs.eraseP (fun c => v == c.val) = cs.filter (fun c => decide (c.val ≠ v)) := by
  intro cs
  induction cs with
  | nil => intro _; rfl
  | cons c cs ih =>
    intro hcnt
    by_cases hv : c.val = v
    · have h0 : (cs.map Cell.val).count v = 0 := by
        simp only [List.map_cons, hv, List.count_cons_self] at hcnt
        omega
      have hall : ∀ x ∈ cs, decide (x.val ≠ v) = true := by
        intro x hx
        have := List.count_eq_zero.1 h0
        simp only [decide_eq_true_eq]
        exact fun h => this (List.mem_map.2 ⟨x, hx, h⟩)
      have hf := List.filter_eq_self.2 hall
      rw [List.eraseP_cons, List.filter_cons, hf]
      simp [hv]
    · have hcnt' : (cs.map Cell.val).count v ≤ 1 := by
        simp only [List.map_cons, List.count_cons] at hcnt
        omega
      have hne : ¬ (v = c.val) := fun h => hv h.symm
      simp [List.eraseP_cons, hv, hne, List.filter_cons, ih hcnt']

/-! ## The recording callback and the boundary in the words of the claims -/

theorem fold_recordCallback (h : Heap) :
    ∀ (bs acc : List Nat),
      bs.foldlM (fun s b => recordCallback b s) (h, acc) = Except.ok (h, acc ++ bs) := by
  intro bs
  induction bs with
  | nil => intro acc; simp [List.foldlM, pure, Except.pure]
  | cons b bs ih =>
    intro acc
    rw [List.foldlM_cons]
    have hstep : recordCallback b (h, acc) = Except.ok (h, acc ++ [b]) := rfl
    simp only [hstep, bind, Except.bind]
    rw [ih]
    simp

theorem rightmostBelow_eq_bd (v : Int) {L : Level} (hw : LevelWF L) :
    rightmostBelow v L = bd v L := by
  show (L.nodes.filter (below v)).getLastD L.hd = _
  rw [filter_below v hw.sorted]
  rfl

end skiplist

namespace skiplist

/-! ## The levels after Insert, for `k` successes followed by a failure -/

theorem lastPlaced_succ (n : Nat) (up : List Level) :
    lastPlaced (n + 1) (some n) up = some (n + up.length) := by
  cases up with
  | nil => rfl
  | cons L up => simp [lastPlaced]; omega

/-- The walk phase of `Insert` for `k` successes followed by a failure: a node
is placed in each of the lowest `k + 1` levels, as far as there are levels. -/
theorem insWalk_replicate (v : Int) (rest : List Bool) :
    ∀ (Ls : List Level) (k n : Nat) (prev : Option Nat),
      insWalk v Ls n ⟨prev, true, List.replicate k true ++ false :: rest⟩ =
        Except.ok (placeLevels v (k + 1) n prev Ls, n + min (k + 1) Ls.length,
          if k < Ls.length then ⟨some (n + k), false, rest⟩
          else ⟨lastPlaced n prev Ls, true,
            List.replicate (k - Ls.length) true ++ false :: rest⟩) := by
  intro Ls
  induction Ls with
  | nil =>
    intro k n prev
    simp [insWalk, placeLevels, lastPlaced, pure, Except.pure]
  | cons L up ih =>
    intro k n prev
    cases k with
    | zero =>
      simp [insWalk, coinFlip, bind, Except.bind, pure, Except.pure, placeLevels,
        insWalk_false v up (n + 1) ⟨some n, false, rest⟩ rfl]
    | succ k =>
      have hrec := ih k (n + 1) (some n)
      simp only [List.replicate_succ, List.cons_append, insWalk, coinFlip, if_true, bind,
        Except.bind, pure, Except.pure, hrec, placeLevels, List.length_cons]
      rw [lastPlaced_succ]
      have e1 : n + 1 + min (k + 1) up.length = n + min (k + 1 + 1) (up.length + 1) := by
        omega
      rw [e1]
      by_cases hk : k < up.length
      · have hk' : k + 1 < up.length + 1 := by omega
        simp only [hk, hk', if_true]
        have e2 : n + 1 + k = n + (k + 1) := by omega
        rw [e2]
      · have hk' : ¬ (k + 1 < up.length + 1) := by omega
        simp only [hk, hk', if_false, lastPlaced]
        have e3 : k + 1 - (up.length + 1) = k - up.length := by omega
        rw [e3]

theorem insGrow_true_cons (v : Int) (c : Bool) (fl : List Bool) (n : Nat)
    (head prev : Option Nat) :
    insGrow v true (c :: fl) n head prev =
      (insGrow v c fl (n + 2) (some (n + 1)) (some n) >>= fun r =>
        pure (topLevel v n head prev :: r.1, r.2)) := rfl

/-- The final loop of `Insert` for `m` successes followed by a failure: it
adds `m + 1` levels. -/
theorem insGrow_replicate (v : Int) (rest : List Bool) :
    ∀ (m n : Nat) (head prev : Option Nat),
      insGrow v true (List.replicate m true ++ false :: rest) n head prev =
        Except.ok (newLevels v (m + 1) n head prev, n + 2 * (m + 1), some (n + 2 * m + 1),
          rest) := by
  intro m
  induction m with
  | zero =>
    intro n head prev
    simp [insGrow, newLevels, bind, Except.bind, pure, Except.pure]
  | succ m ih =>
    intro n head prev
    have hrec := ih (n + 2) (some (n + 1)) (some n)
    have e1 : n + 2 + 2 * (m + 1) = n + 2 * (m + 1 + 1) := by omega
    have e2 : n + 2 + 2 * m + 1 = n + 2 * (m + 1) + 1 := by omega
    rw [e1, e2] at hrec
    rw [List.replicate_succ, List.cons_append, insGrow_true_cons, hrec]
    rfl

theorem insGrow_false (v : Int) (flips : List Bool) (n : Nat) (head prev : Option Nat) :
    insGrow v false flips n head prev = Except.ok ([], n, head, flips) := by
  cases flips <;> rfl

/-- The levels after `Insert(v)` for `k` successes followed by a failure. -/
theorem insGhost_replicate (v : Int) (Ls : List Level) (n : Nat) (head : Option Nat)
    (k : Nat) (rest : List Bool) :
    insGhost v Ls n head (List.replicate k true ++ false :: rest) =
      Except.ok (placeLevels v (k + 1) n none Ls ++
        newLevels v (k + 1 - Ls.length) (n + Ls.length) head (lastPlaced n none Ls), rest) := by
  simp only [insGhost, insWalk_replicate v rest Ls k n none, bind, Except.bind]
  by_cases hk : k < Ls.length
  · have e : k + 1 - Ls.length = 0 := by omega
    simp only [hk, if_true, insGrow_false, pure, Except.pure, e, newLevels]
  · have e : k + 1 - Ls.length = (k - Ls.length) + 1 := by omega
    have e2 : n + min (k + 1) Ls.length = n + Ls.length := by omega
    simp only [hk, if_false, e2, insGrow_replicate, pure, Except.pure, e]

theorem placeLevels_length (v : Int) :
    ∀ (Ls : List Level) (m n : Nat) (prev : Option Nat),
      (placeLevels v m n prev Ls).length = Ls.length := by
  intro Ls
  induction Ls with
  | nil => intro m n prev; cases m <;> rfl
  | cons L up ih =>
    intro m n prev
    cases m with
    | zero => rfl
    | succ m => simp [placeLevels, ih]

theorem placeLevels_get (v : Int) :
    ∀ (Ls : List Level) (m n : Nat) (prev : Option Nat) (j : Nat),
      (placeLevels v m n prev Ls)[j]? =
        if j < m then
          Ls[j]?.map (insAt v (newCell v (n + j) (if j = 0 then prev else some (n + j - 1))))
        else Ls[j]? := by
  intro Ls
  induction Ls with
  | nil => intro m n prev j; cases m <;> simp [placeLevels]
  | cons L up ih =>
    intro m n prev j
    cases m with
    | zero => simp [placeLevels]
    | succ m =>
      cases j with
      | zero => simp [placeLevels]
      | succ j =>
        simp only [placeLevels, List.getElem?_cons_succ, ih m (n + 1) (some n) j]
        by_cases hj : j < m
        · have hj' : j + 1 < m + 1 := by omega
          simp only [hj, hj', if_true]
          have e : n + 1 + j = n + (j + 1) := by omega
          by_cases h0 : j = 0
          · subst h0; simp
          · have e2 : n + 1 + j - 1 = n + (j + 1) - 1 := by omega
            simp [h0, e, e2]
        · have hj' : ¬ (j + 1 < m + 1) := by omega
          simp only [hj, hj', if_false]

theorem newLevels_length (v : Int) :
    ∀ (m n : Nat) (head prev : Option Nat), (newLevels v m n head prev).length = m := by
  intro m
  induction m with
  | zero => intro n head prev; rfl
  | succ m ih => intro n head prev; simp [newLevels, ih]

theorem newLevels_get (v : Int) :
    ∀ (m n : Nat) (head prev : Option Nat) (j : Nat), j < m →
      (newLevels v m n head prev)[j]? =
        some (topLevel v (n + 2 * j) (if j = 0 then head else some (n + 2 * j - 1))
          (if j = 0 then prev else some (n + 2 * j - 2))) := by
  intro m
  induction m with
  | zero => intro n head prev j hj; omega
  | succ m ih =>
    intro n head prev j hj
    cases j with
    | zero => simp [newLevels]
    | succ j =>
      simp only [newLevels, List.getElem?_cons_succ, ih (n + 2) (some (n + 1)) (some n) j
        (by omega)]
      have e : n + 2 + 2 * j = n + 2 * (j + 1) := by omega
      by_cases h0 : j = 0
      · subst h0; simp
      · have e2 : n + 2 + 2 * j - 1 = n + 2 * (j + 1) - 1 := by omega
        have e3 : n + 2 + 2 * j - 2 = n + 2 * (j + 1) - 2 := by omega
        simp [h0, e, e2, e3]

/-- The operation `Insert(v)` on a well-formed structure with `k` successes followed by a
failure: it returns, leaves the outcomes after the failure, and the levels
are the old ones with a node placed in the lowest `k + 1` of them, followed by
the levels added on top. -/
theorem Insert_replicate (v : Int) {l : SkipList} {Ls : List Level} (hi : Inv l Ls)
    (k : Nat) (rest : List Bool) :
    ∃ l', Insert l v (List.replicate k true ++ false :: rest) = Except.ok (l', rest) ∧
      Inv l' (placeLevels v (k + 1) l.heap.length none Ls ++
        newLevels v (k + 1 - Ls.length) (l.heap.length + Ls.length) l.head
          (lastPlaced l.heap.length none Ls)) :=
  Insert_inv v hi _ _ _ (insGhost_replicate v Ls l.heap.length l.head k rest)

theorem newNode_low (v : Int) (n h j : Nat) (hj : j < h) :
    newNode v n h j = newCell v (n + j) (if j = 0 then none else some (n + j - 1)) := by
  have h1 : newAddr n h j = n + j := by simp [newAddr, hj]
  have h2 : newAddr n h (j - 1) = n + (j - 1) := by
    have : j - 1 < h := by omega
    simp [newAddr, this]
  simp only [newNode, h1, h2]
  by_cases h0 : j = 0
  · simp [h0]
  · have : n + (j - 1) = n + j - 1 := by omega
    simp [h0, this]

theorem newLevel_high (v : Int) (n : Nat) (head : Option Nat) (Ls : List Level) (j : Nat)
    (hj : Ls.length ≤ j) :
    topLevel v (n + Ls.length + 2 * (j - Ls.length))
        (if j - Ls.length = 0 then head else some (n + Ls.length + 2 * (j - Ls.length) - 1))
        (if j - Ls.length = 0 then lastPlaced n none Ls
          else some (n + Ls.length + 2 * (j - Ls.length) - 2)) =
      Level.mk (newSentinel n Ls.length j head) [newNode v n Ls.length j] := by
  have ha : newAddr n Ls.length j = n + Ls.length + 2 * (j - Ls.length) := by
    have : ¬ j < Ls.length := by omega
    simp [newAddr, this]
  by_cases hjh : j = Ls.length
  · subst hjh
    have hlast : lastPlaced n none Ls =
        if Ls.length = 0 then none else some (newAddr n Ls.length (Ls.length - 1)) := by
      cases Ls with
      | nil => rfl
      | cons L up => simp [lastPlaced, newAddr]
    simp only [topLevel, newSentinel, newNode, ha, Nat.sub_self, if_true, hlast]
  · have hgt : Ls.length < j := by omega
    have hne : ¬ (j - Ls.length = 0) := by omega
    have h0 : ¬ (j = 0) := by omega
    have hb : newAddr n Ls.length (j - 1) = n + Ls.length + 2 * (j - Ls.length) - 2 := by
      have : ¬ (j - 1 < Ls.length) := by omega
      simp only [newAddr, this, if_false]
      omega
    simp only [topLevel, newSentinel, newNode, ha, hne, hjh, h0, if_false, hb]

/-- The operation `Insert(v)` on a well-formed structure with `k` successes followed by a
failure, level by level. -/
theorem Insert_levels (v : Int) {l : SkipList} {Ls : List Level} (hi : Inv l Ls)
    (k : Nat) (rest : List Bool) :
    ∃ l' Ls', Insert l v (List.replicate k true ++ false :: rest) = Except.ok (l', rest) ∧
      Inv l' Ls' ∧ Ls'.length = max Ls.length (k + 1) ∧
      (∀ j, j < Ls.length → j ≤ k →
        Ls'[j]? = Ls[j]?.map (insAt v (newNode v l.heap.length Ls.length j))) ∧
      (∀ j, j < Ls.length → k < j → Ls'[j]? = Ls[j]?) ∧
      (∀ j, Ls.length ≤ j → j ≤ k →
        Ls'[j]? = some (Level.mk (newSentinel l.heap.length Ls.length j l.head)
          [newNode v l.heap.length Ls.length j])) := by
  obtain ⟨l', hins, hinv⟩ := Insert_replicate v hi k rest
  refine ⟨l', _, hins, hinv, ?_, ?_, ?_, ?_⟩
  · rw [List.length_append, placeLevels_length, newLevels_length]
    omega
  · intro j hj hjk
    rw [List.getElem?_append_left (by rw [placeLevels_length]; exact hj), placeLevels_get]
    have : j < k + 1 := by omega
    simp only [this, if_true]
    rw [newNode_low v _ _ j hj]
  · intro j hj hjk
    rw [List.getElem?_append_left (by rw [placeLevels_length]; exact hj), placeLevels_get]
    have : ¬ (j < k + 1) := by omega
    simp only [this, if_false]
  · intro j hj hjk
    rw [List.getElem?_append_right (by rw [placeLevels_length]; exact hj), placeLevels_length,
      newLevels_get v _ _ _ _ _ (by omega), newLevel_high v _ _ Ls j hj]

end skiplist

namespace skiplist

/-- The node `Insert` places in a level sits right after the nodes with a
value less than `v` and right before the nodes with a value not less. -/
theorem insAt_split (v : Int) (c : Cell) {L : Level} (hw : LevelWF L) :
    ∃ pre post, L.nodes = pre ++ post ∧ (∀ x ∈ pre, x.val < v) ∧ (∀ x ∈ post, v ≤ x.val) ∧
      insAt v c L = Level.mk L.hd (pre ++ c :: post) :=
  ⟨L.nodes.takeWhile (below v), after v L, nodes_split v L, fun _ hx => before_lt hx,
    after_all_ge v hw.sorted, rfl⟩

theorem nodeCount_append (A B : List Level) : nodeCount (A ++ B) = nodeCount A + nodeCount B := by
  simp [nodeCount, List.sum_append]

theorem insAt_nodes_length (v : Int) (c : Cell) (L : Level) :
    (insAt v c L).nodes.length = L.nodes.length + 1 := by
  have h := congrArg List.length (nodes_split v L)
  rw [List.length_append] at h
  show (L.nodes.takeWhile (below v) ++ c :: after v L).length = _
  rw [List.length_append, List.length_cons]
  omega

theorem nodeCount_placeLevels (v : Int) :
    ∀ (Ls : List Level) (m n : Nat) (prev : Option Nat),
      nodeCount (placeLevels v m n prev Ls) = nodeCount Ls + min m Ls.length := by
  intro Ls
  induction Ls with
  | nil => intro m n prev; cases m <;> simp [placeLevels, nodeCount]
  | cons L up ih =>
    intro m n prev
    cases m with
    | zero => simp [placeLevels]
    | succ m =>
      have h1 := ih m (n + 1) (some n)
      simp only [nodeCount, placeLevels, List.map_cons, List.sum_cons, insAt_nodes_length,
        List.length_cons] at h1 ⊢
      omega

theorem nodeCount_newLevels (v : Int) :
    ∀ (m n : Nat) (head prev : Option Nat), nodeCount (newLevels v m n head prev) = m := by
  intro m
  induction m with
  | zero => intro n head prev; rfl
  | succ m ih =>
    intro n head prev
    have h1 := ih (n + 2) (some (n + 1)) (some n)
    simp only [nodeCount, newLevels, List.map_cons, List.sum_cons, topLevel,
      List.length_singleton] at h1 ⊢
    omega

/-- The operation `Insert(v)` with `k` successes followed by a failure links `k + 1` nodes. -/
theorem Insert_nodeCount (v : Int) {l : SkipList} {Ls : List Level} (hi : Inv l Ls)
    (k : Nat) (rest : List Bool) :
    ∃ l' Ls', Insert l v (List.replicate k true ++ false :: rest) = Except.ok (l', rest) ∧
      Inv l' Ls' ∧ nodeCount Ls' = nodeCount Ls + (k + 1) := by
  obtain ⟨l', hins, hinv⟩ := Insert_replicate v hi k rest
  refine ⟨l', _, hins, hinv, ?_⟩
  rw [nodeCount_append, nodeCount_placeLevels, nodeCount_newLevels]
  omega

theorem eraseLevel_insAt (v : Int) (c : Cell) (hc : c.val = v) (L : Level) :
    eraseLevel v (insAt v c L) = L := by
  have h : (L.nodes.takeWhile (below v) ++ c :: after v L).eraseP (fun x => v == x.val)
      = L.nodes := by
    rw [List.eraseP_append_right]
    · rw [List.eraseP_cons]
      simp only [hc, beq_self_eq_true, cond_true]
      exact (nodes_split v L).symm
    · intro b hb
      have := before_lt hb
      simp only [beq_iff_eq]
      omega
  show Level.mk L.hd ((L.nodes.takeWhile (below v) ++ c :: after v L).eraseP
    (fun x => v == x.val)) = L
  rw [h]

theorem eraseLevel_absent (v : Int) (L : Level) (hv : v ∉ L.nodes.map Cell.val) :
    eraseLevel v L = L := by
  have h : L.nodes.eraseP (fun x => v == x.val) = L.nodes := by
    apply List.eraseP_of_forall_not
    intro x hx
    simp only [beq_iff_eq]
    exact fun h => hv (List.mem_map.2 ⟨x, hx, h.symm⟩)
  show Level.mk L.hd (L.nodes.eraseP (fun x => v == x.val)) = L
  rw [h]

theorem newNode_val (v : Int) (n h j : Nat) : (newNode v n h j).val = v := rfl

end skiplist

namespace skiplist

/-! ## The claims -/

theorem iterateAll_level0 {l : SkipList} {Ls : List Level} (hi : Inv l Ls) (hne : Ls ≠ []) :
    iterateAll l = Except.ok (level0 Ls) := by
  cases Ls with
  | nil => exact absurd rfl hne
  | cons L rest => exact iterateAll_inv hi

theorem iterateFromAll_level0 {l : SkipList} {Ls : List Level} (hi : Inv l Ls) (hne : Ls ≠ [])
    (v : Int) : iterateFromAll l v = Except.ok (suffixFrom v (level0 Ls)) := by
  cases Ls with
  | nil => exact absurd rfl hne
  | cons L rest => rw [suffixFrom_eq_dropWhile]; exact iterateFromAll_inv hi v

theorem mem_level0_iff_bag {Ls : List Level} {ops : List Op}
    (hb : ((level0 Ls : List Int) : Multiset Int) = bag ops) (v : Int) :
    v ∈ level0 Ls ↔ v ∈ bag ops := by
  rw [← hb]; exact Iff.rfl

/-- C1.  After any sequence of `Insert` and `Remove` calls that contains an
`Insert`, run on the zero-value structure with coin flips that hold a failed
outcome for each `Insert` (so that each `Insert` returns), `Get(v)` returns
`(v, true)` exactly when `v` is in the multiset of values inserted and not yet
removed, and `(0, false)` otherwise. -/
theorem C1_get_presence (ops : List Op) (flips : List Bool) (v : Int)
    (hins : ∃ x, Op.insert x ∈ ops) (hc : numInserts ops ≤ flips.count false) :
    ∃ l flips', run ops empty flips = Except.ok (l, flips') ∧
      (Get l v = Except.ok (v, true) ↔ v ∈ bag ops) ∧
      (v ∉ bag ops → Get l v = Except.ok (0, false)) := by
  obtain ⟨l, Ls, flips', hrun, hinv, _, hbag, hne⟩ := run_empty ops flips hc
  have hg := Get_level0 hinv (hne hins) v
  have hm := mem_level0_iff_bag hbag v
  refine ⟨l, flips', hrun, ⟨?_, fun h => hg.1 (hm.2 h)⟩, fun h => hg.2 (fun h' => h (hm.1 h'))⟩
  intro hget
  by_contra hv
  rw [hg.2 (fun h' => hv (hm.1 h'))] at hget
  simp at hget

/-- C1, at the inserts 5, 3, 8, 1 of the first scenario and the value 3. -/
theorem C1_get_presence_witness :
    (∃ x, Op.insert x ∈ [Op.insert 5, Op.insert 3, Op.insert 8, Op.insert 1]) ∧
    numInserts [Op.insert 5, Op.insert 3, Op.insert 8, Op.insert 1] ≤
      [true, false, false, true, true, false, false].count false ∧
    ∃ l flips', run [Op.insert 5, Op.insert 3, Op.insert 8, Op.insert 1] empty
        [true, false, false, true, true, false, false] = Except.ok (l, flips') ∧
      (Get l 3 = Except.ok (3, true) ↔
        (3 : Int) ∈ bag [Op.insert 5, Op.insert 3, Op.insert 8, Op.insert 1]) ∧
      ((3 : Int) ∉ bag [Op.insert 5, Op.insert 3, Op.insert 8, Op.insert 1] →
        Get l 3 = Except.ok (0, false)) :=
  ⟨⟨5, by decide⟩, by decide,
    C1_get_presence [Op.insert 5, Op.insert 3, Op.insert 8, Op.insert 1]
      [true, false, false, true, true, false, false] 3 ⟨5, by decide⟩ (by decide)⟩

/-- C2.  After any sequence of `Insert` and `Remove` calls that contains an
`Insert`, run on the zero-value structure with coin flips that hold a failed
outcome for each `Insert`, the values that `Iterate()` yields (calling `Next`
until done) are in non-decreasing order and form exactly the multiset of
values inserted and not yet removed. -/
theorem C2_iterate_sorted_bag (ops : List Op) (flips : List Bool)
    (hins : ∃ x, Op.insert x ∈ ops) (hc : numInserts ops ≤ flips.count false) :
    ∃ l flips' xs, run ops empty flips = Except.ok (l, flips') ∧
      iterateAll l = Except.ok xs ∧ xs.Sorted (fun a b => a ≤ b) ∧
      ((xs : List Int) : Multiset Int) = bag ops := by
  obtain ⟨l, Ls, flips', hrun, hinv, hsorted, hbag, hne⟩ := run_empty ops flips hc
  exact ⟨l, flips', level0 Ls, hrun, iterateAll_level0 hinv (hne hins), hsorted, hbag⟩

/-- C2, at the inserts 5, 3, 8, 1 followed by the removal of 3. -/
theorem C2_iterate_sorted_bag_witness :
    (∃ x, Op.insert x ∈ [Op.insert 5, Op.insert 3, Op.insert 8, Op.insert 1, Op.remove 3]) ∧
    numInserts [Op.insert 5, Op.insert 3, Op.insert 8, Op.insert 1, Op.remove 3] ≤
      [true, false, false, true, true, false, false].count false ∧
    ∃ l flips' xs, run [Op.insert 5, Op.insert 3, Op.insert 8, Op.insert 1, Op.remove 3] empty
        [true, false, false, true, true, false, false] = Except.ok (l, flips') ∧
      iterateAll l = Except.ok xs ∧ xs.Sorted (fun a b => a ≤ b) ∧
      ((xs : List Int) : Multiset Int) =
        bag [Op.insert 5, Op.insert 3, Op.insert 8, Op.insert 1, Op.remove 3] :=
  ⟨⟨5, by decide⟩, by decide,
    C2_iterate_sorted_bag [Op.insert 5, Op.insert 3, Op.insert 8, Op.insert 1, Op.remove 3]
      [true, false, false, true, true, false, false] ⟨5, by decide⟩ (by decide)⟩

/-- C3 (the code departs from the claim).  `Remove` never returns true: on
the structure that holds the single value 5, `Remove(5)` unlinks the 5 (the
iteration yields `[5]` before and nothing after) and still returns false, and
no call of `Remove` on any structure returns true. -/
theorem C3_remove_reports_false :
    (∃ l flips' l', run [Op.insert 5] empty [false] = Except.ok (l, flips') ∧
      iterateAll l = Except.ok [5] ∧ Remove l 5 = Except.ok (l', false) ∧
      iterateAll l' = Except.ok []) ∧
    ∀ (l : SkipList) (v : Int) (l' : SkipList), Remove l v ≠ Except.ok (l', true) := by
  refine ⟨⟨_, _, _, rfl, rfl, rfl, rfl⟩, ?_⟩
  intro l v l' h
  simp only [Remove, bind, Except.bind] at h
  cases hw : walk v (removeCallback v) l.heap.length l.head (l.heap, ()) with
  | error e => rw [hw] at h; cases h
  | ok s => rw [hw] at h; simp [pure, Except.pure] at h

/-- C4 (the code departs from the claim).  On the zero-value structure
`Get(v)` fails for every `v`: `walk` never calls the closure, `resultNode`
stays nil and `resultNode.Right` dereferences it. -/
theorem C4_get_empty_fails : ∀ v : Int, Get empty v = Except.error Err.nilDeref :=
  fun _ => rfl

/-- C5 (the code departs from the claim).  On the zero-value structure
`Iterate()` fails (`head.Down` with `head` nil) and `IterateFrom(v)` fails for
every `v` (`startNode.Right` with `startNode` nil); no iterator is returned. -/
theorem C5_iterate_empty_fails :
    Iterate empty = Except.error Err.nilDeref ∧
    ∀ v : Int, IterateFrom empty v = Except.error Err.nilDeref :=
  ⟨rfl, fun _ => rfl⟩

/-- C6.  After any sequence of `Insert` and `Remove` calls that contains an
`Insert`, the sequence that `IterateFrom(v)` yields is the suffix of the
sequence that `Iterate()` yields starting at its first element greater than or
equal to `v` (empty when there is none). -/
theorem C6_iterateFrom_suffix (ops : List Op) (flips : List Bool) (v : Int)
    (hins : ∃ x, Op.insert x ∈ ops) (hc : numInserts ops ≤ flips.count false) :
    ∃ l flips' xs, run ops empty flips = Except.ok (l, flips') ∧
      iterateAll l = Except.ok xs ∧ iterateFromAll l v = Except.ok (suffixFrom v xs) := by
  obtain ⟨l, Ls, flips', hrun, hinv, _, _, hne⟩ := run_empty ops flips hc
  exact ⟨l, flips', level0 Ls, hrun, iterateAll_level0 hinv (hne hins),
    iterateFromAll_level0 hinv (hne hins) v⟩

/-- C6, at the inserts 5, 3, 8, 1 and `IterateFrom(4)`. -/
theorem C6_iterateFrom_suffix_witness :
    (∃ x, Op.insert x ∈ [Op.insert 5, Op.insert 3, Op.insert 8, Op.insert 1]) ∧
    numInserts [Op.insert 5, Op.insert 3, Op.insert 8, Op.insert 1] ≤
      [true, false, false, true, true, false, false].count false ∧
    ∃ l flips' xs, run [Op.insert 5, Op.insert 3, Op.insert 8, Op.insert 1] empty
        [true, false, false, true, true, false, false] = Except.ok (l, flips') ∧
      iterateAll l = Except.ok xs ∧ iterateFromAll l 4 = Except.ok (suffixFrom 4 xs) :=
  ⟨⟨5, by decide⟩, by decide,
    C6_iterateFrom_suffix [Op.insert 5, Op.insert 3, Op.insert 8, Op.insert 1]
      [true, false, false, true, true, false, false] 4 ⟨5, by decide⟩ (by decide)⟩

/-- C7.  On any structure built by `Insert` and `Remove` calls in which `v`
is present (once or several times, whatever the coin flips made of the
towers), one `Remove(v)` lowers the number of occurrences of `v` in the output
of `Iterate()` by exactly one and leaves the number of occurrences of every
other value as it was. -/
theorem C7_remove_one_occurrence (ops : List Op) (flips : List Bool) (v : Int)
    (hc : numInserts ops ≤ flips.count false) (hv : v ∈ bag ops) :
    ∃ l flips' xs l' b ys, run ops empty flips = Except.ok (l, flips') ∧
      iterateAll l = Except.ok xs ∧ Remove l v = Except.ok (l', b) ∧
      iterateAll l' = Except.ok ys ∧ ys.count v + 1 = xs.count v ∧
      ∀ w, w ≠ v → ys.count w = xs.count w := by
  obtain ⟨l, Ls, flips', hrun, hinv, _, hbag, _⟩ := run_empty ops flips hc
  have hmem : v ∈ level0 Ls := (mem_level0_iff_bag hbag v).2 hv
  have hne : Ls ≠ [] := by
    intro h
    rw [h] at hmem
    cases hmem
  obtain ⟨h', hrem, hinv'⟩ := Remove_inv v hinv
  have hne' : Ls.map (eraseLevel v) ≠ [] := by simpa using hne
  refine ⟨l, flips', level0 Ls, _, false, (level0 Ls).erase v, hrun,
    iterateAll_level0 hinv hne, hrem, ?_, ?_, ?_⟩
  · rw [iterateAll_level0 hinv' hne', level0_erase]
  · rw [List.count_erase_self]
    have := List.count_pos_iff.2 hmem
    omega
  · intro w hw
    exact List.count_erase_of_ne hw _

/-- C7, at two inserts of 5 with towers of different height, and one of 3. -/
theorem C7_remove_one_occurrence_witness :
    numInserts [Op.insert 5, Op.insert 3, Op.insert 5] ≤
      [true, true, false, false, true, false].count false ∧
    (5 : Int) ∈ bag [Op.insert 5, Op.insert 3, Op.insert 5] ∧
    ∃ l flips' xs l' b ys, run [Op.insert 5, Op.insert 3, Op.insert 5] empty
        [true, true, false, false, true, false] = Except.ok (l, flips') ∧
      iterateAll l = Except.ok xs ∧ Remove l 5 = Except.ok (l', b) ∧
      iterateAll l' = Except.ok ys ∧ ys.count 5 + 1 = xs.count 5 ∧
      ∀ w, w ≠ 5 → ys.count w = xs.count w :=
  ⟨by decide, by decide,
    C7_remove_one_occurrence [Op.insert 5, Op.insert 3, Op.insert 5]
      [true, true, false, false, true, false] 5 (by decide) (by decide)⟩

/-- C8.  On any structure built by `Insert` and `Remove` calls that does not
hold `v`, the zero-value structure included, `Remove(v)` returns false and
leaves the structure as it was: the heap and the head pointer, hence every
chain and the number of levels, are unchanged. -/
theorem C8_remove_absent_unchanged (ops : List Op) (flips : List Bool) (v : Int)
    (hc : numInserts ops ≤ flips.count false) (hv : v ∉ bag ops) :
    ∃ l flips', run ops empty flips = Except.ok (l, flips') ∧
      Remove l v = Except.ok (l, false) := by
  obtain ⟨l, Ls, flips', hrun, hinv, _, hbag, _⟩ := run_empty ops flips hc
  exact ⟨l, flips', hrun, Remove_absent hinv v (fun h => hv ((mem_level0_iff_bag hbag v).1 h))⟩

/-- C8, at the inserts 5, 3, 8, 1 and the absent value 9. -/
theorem C8_remove_absent_unchanged_witness :
    numInserts [Op.insert 5, Op.insert 3, Op.insert 8, Op.insert 1] ≤
      [true, false, false, true, true, false, false].count false ∧
    (9 : Int) ∉ bag [Op.insert 5, Op.insert 3, Op.insert 8, Op.insert 1] ∧
    ∃ l flips', run [Op.insert 5, Op.insert 3, Op.insert 8, Op.insert 1] empty
        [true, false, false, true, true, false, false] = Except.ok (l, flips') ∧
      Remove l 9 = Except.ok (l, false) :=
  ⟨by decide, by decide,
    C8_remove_absent_unchanged [Op.insert 5, Op.insert 3, Op.insert 8, Op.insert 1]
      [true, false, false, true, true, false, false] 9 (by decide) (by decide)⟩

/-- C9.  On any structure built by a sequence of calls that contains an
`Insert`, for every value `v`, present or not, and every outcome of the coin
flips that lets `Insert` return, `Insert(v)` followed at once by `Remove(v)`
gives a structure on which `Iterate()` yields what it yielded before. -/
theorem C9_insert_remove_roundtrip (ops : List Op) (flips : List Bool) (v : Int)
    (hins : ∃ x, Op.insert x ∈ ops) (hc : numInserts ops + 1 ≤ flips.count false) :
    ∃ l flips' xs l1 flips1 l2 b, run ops empty flips = Except.ok (l, flips') ∧
      iterateAll l = Except.ok xs ∧ Insert l v flips' = Except.ok (l1, flips1) ∧
      Remove l1 v = Except.ok (l2, b) ∧ iterateAll l2 = Except.ok xs := by
  obtain ⟨l, Ls, flips', hrun, hinv, _, hcnt, hne⟩ :=
    run_inv ops empty [] flips Inv_empty (by omega)
  have hne0 : Ls ≠ [] := hne (Or.inr hins)
  have hf : false ∈ flips' := mem_false_of_count (by omega)
  obtain ⟨l1, Ls1, hinsert, hinv1, _, hlev1, hne1⟩ := Insert_ok v hinv flips' hf
  obtain ⟨h2, hrem, hinv2⟩ := Remove_inv v hinv1
  have hne2 : Ls1.map (eraseLevel v) ≠ [] := by simpa using hne1
  refine ⟨l, flips', level0 Ls, l1, _, _, false, hrun, iterateAll_level0 hinv hne0, hinsert,
    hrem, ?_⟩
  rw [iterateAll_level0 hinv2 hne2, level0_erase, hlev1, insertSorted_erase]

/-- C9, at the inserts 5, 3, 8, 1 followed by `Insert(5)` (a value already
present, with a tower of height two) and `Remove(5)`. -/
theorem C9_insert_remove_roundtrip_witness :
    (∃ x, Op.insert x ∈ [Op.insert 5, Op.insert 3, Op.insert 8, Op.insert 1]) ∧
    numInserts [Op.insert 5, Op.insert 3, Op.insert 8, Op.insert 1] + 1 ≤
      [true, false, false, true, true, false, false, true, false].count false ∧
    ∃ l flips' xs l1 flips1 l2 b,
      run [Op.insert 5, Op.insert 3, Op.insert 8, Op.insert 1] empty
        [true, false, false, true, true, false, false, true, false] = Except.ok (l, flips') ∧
      iterateAll l = Except.ok xs ∧ Insert l 5 flips' = Except.ok (l1, flips1) ∧
      Remove l1 5 = Except.ok (l2, b) ∧ iterateAll l2 = Except.ok xs :=
  ⟨⟨5, by decide⟩, by decide,
    C9_insert_remove_roundtrip [Op.insert 5, Op.insert 3, Op.insert 8, Op.insert 1]
      [true, false, false, true, true, false, false, true, false] 5 ⟨5, by decide⟩
      (by decide)⟩

/-- C10.  For an iterator positioned at the first cell of a linked chain `cs`
of the heap (a level-0 node and the nodes after it, up to the end of the
chain), `k` successive calls of `Next` return the values of the first `k`
cells in order, each with `done = false`, and every call after the chain is
used up returns the zero value with `done = true`; the iterator is then, and
stays, exhausted. -/
theorem C10_next_sequence (h : Heap) (cs : List Cell) (k : Nat) (hr : Rep h cs none) :
    nextTimes h k { current := nextOf cs none } =
      Except.ok ((cs.take k).map (fun c => (c.val, false))
          ++ List.replicate (k - cs.length) (0, true),
        { current := nextOf (cs.drop k) none }) :=
  nextTimes_spec h k cs hr

/-- C10, at a chain of two nodes holding 7 and 9 and four calls of `Next`. -/
theorem C10_next_sequence_witness :
    Rep [⟨false, 7, some 1, none⟩, ⟨false, 9, none, none⟩]
        [⟨0, false, 7, none⟩, ⟨1, false, 9, none⟩] none ∧
    nextTimes [⟨false, 7, some 1, none⟩, ⟨false, 9, none, none⟩] 4
        { current := nextOf [⟨0, false, 7, none⟩, ⟨1, false, 9, none⟩] none } =
      Except.ok ((([⟨0, false, 7, none⟩, ⟨1, false, 9, none⟩] : List Cell).take 4).map
            (fun c => (c.val, false))
          ++ List.replicate
            (4 - ([⟨0, false, 7, none⟩, ⟨1, false, 9, none⟩] : List Cell).length) (0, true),
        { current := nextOf
            (([⟨0, false, 7, none⟩, ⟨1, false, 9, none⟩] : List Cell).drop 4) none }) :=
  ⟨⟨rfl, rfl, trivial⟩,
    C10_next_sequence [⟨false, 7, some 1, none⟩, ⟨false, 9, none, none⟩]
      [⟨0, false, 7, none⟩, ⟨1, false, 9, none⟩] 4 ⟨rfl, rfl, trivial⟩⟩

end skiplist

namespace skiplist

/-! ## The claims about the levels -/

/-- In a well-formed structure no tower has a hole. -/
theorem no_hole {l : SkipList} {Ls : List Level} (hi : Inv l Ls) (k : Nat) (v : Int) :
    ¬ Hole Ls k v := by
  rintro ⟨U, L, c, hU, hL, hc, _, hno⟩
  have ht : Twin L U := chain_getElem Twin Ls k L U hi.stack.twin hL hU
  obtain ⟨d, hd, hdown, _⟩ := twin_down ht hc
  exact hno d hd hdown

/-- C11.  After every sequence of `Insert` and `Remove` calls, duplicates
allowed, and for every outcome of the coin flips that lets the calls return,
every real node linked at a level `k + 1` has a `Down` node that holds the
same value and is linked at level `k`; and the values at level `k + 1` are a
sub-multiset of the values at level `k`. -/
theorem C11_down_twin_linked (ops : List Op) (flips : List Bool)
    (hc : numInserts ops ≤ flips.count false) :
    ∃ l flips' Ls, run ops empty flips = Except.ok (l, flips') ∧
      levelsOf l = Except.ok Ls ∧
      ∀ k U L, Ls[k + 1]? = some U → Ls[k]? = some L →
        (∀ c ∈ U.nodes, ∃ d ∈ L.nodes, c.down = some d.addr ∧ d.val = c.val) ∧
        ((U.nodes.map Cell.val : List Int) : Multiset Int) ≤
          ((L.nodes.map Cell.val : List Int) : Multiset Int) := by
  obtain ⟨l, Ls, flips', hrun, hinv, _, _, _⟩ := run_empty ops flips hc
  refine ⟨l, flips', Ls, hrun, levelsOf_inv hinv, ?_⟩
  intro k U L hU hL
  have ht : Twin L U := chain_getElem Twin Ls k L U hinv.stack.twin hL hU
  exact ⟨fun c hc => twin_down ht hc, Multiset.coe_le.2 (twin_values_sublist ht).subperm⟩

/-- C11, at three inserts of 5 with towers of heights 3, 1 and 2, followed by
one removal of 5. -/
theorem C11_down_twin_linked_witness :
    numInserts [Op.insert 5, Op.insert 5, Op.insert 5, Op.remove 5] ≤
      [true, true, false, false, true, false].count false ∧
    ∃ l flips' Ls, run [Op.insert 5, Op.insert 5, Op.insert 5, Op.remove 5] empty
        [true, true, false, false, true, false] = Except.ok (l, flips') ∧
      levelsOf l = Except.ok Ls ∧
      ∀ k U L, Ls[k + 1]? = some U → Ls[k]? = some L →
        (∀ c ∈ U.nodes, ∃ d ∈ L.nodes, c.down = some d.addr ∧ d.val = c.val) ∧
        ((U.nodes.map Cell.val : List Int) : Multiset Int) ≤
          ((L.nodes.map Cell.val : List Int) : Multiset Int) :=
  ⟨by decide,
    C11_down_twin_linked [Op.insert 5, Op.insert 5, Op.insert 5, Op.remove 5]
      [true, true, false, false, true, false] (by decide)⟩

/-- C12, as stated, does not hold: there is no sequence of `Insert` calls
that inserts a value more than once, with any outcome of the coin flips,
followed by a single `Remove` of that value, after which a node with that
value is linked at level 2 while the node its `Down` points to is no longer
linked at level 1. -/
theorem C12_hole_refuted :
    ¬ ∃ (vs : List Int) (flips : List Bool) (v : Int) (l : SkipList) (flips' : List Bool)
        (l' : SkipList) (b : Bool) (Ls' : List Level),
      1 < vs.count v ∧ run (vs.map Op.insert) empty flips = Except.ok (l, flips') ∧
      Remove l v = Except.ok (l', b) ∧ levelsOf l' = Except.ok Ls' ∧ Hole Ls' 1 v := by
  rintro ⟨vs, flips, v, l, flips', l', b, Ls', _, hrun, hrem, hlev, hhole⟩
  obtain ⟨Ls, hinv, _⟩ := run_ok_inv _ flips l flips' hrun
  obtain ⟨h', hrem', hinv'⟩ := Remove_inv v hinv
  rw [hrem'] at hrem
  simp only [Except.ok.injEq, Prod.mk.injEq] at hrem
  obtain ⟨rfl, _⟩ := hrem
  rw [levelsOf_inv hinv'] at hlev
  simp only [Except.ok.injEq] at hlev
  subst hlev
  exact no_hole hinv' 1 v hhole

/-- C12, amended.  After any sequence of `Insert` calls (a value may be
inserted more than once, the coin flips may shape the towers in any way)
followed by a single `Remove(v)`, no tower has a hole: at every level, every
node still linked has the node its `Down` points to still linked one level
below. -/
theorem C12_no_hole_after_remove (vs : List Int) (flips : List Bool) (v : Int)
    (hc : vs.length ≤ flips.count false) :
    ∃ l flips' l' b Ls', run (vs.map Op.insert) empty flips = Except.ok (l, flips') ∧
      Remove l v = Except.ok (l', b) ∧ levelsOf l' = Except.ok Ls' ∧
      ∀ k w, ¬ Hole Ls' k w := by
  have hn : numInserts (vs.map Op.insert) = vs.length := by
    induction vs with
    | nil => rfl
    | cons x xs ih =>
      simp only [List.map_cons, numInserts, List.length_cons, Nat.add_right_cancel_iff]
      exact ih (by simp only [List.length_cons] at hc; omega)
  obtain ⟨l, Ls, flips', hrun, hinv, _, _, _⟩ :=
    run_empty (vs.map Op.insert) flips (by rw [hn]; exact hc)
  obtain ⟨h', hrem, hinv'⟩ := Remove_inv v hinv
  exact ⟨l, flips', _, false, _, hrun, hrem, levelsOf_inv hinv', fun k w => no_hole hinv' k w⟩

/-- C12 amended, at three inserts of 5 with towers of heights 3, 1 and 2. -/
theorem C12_no_hole_after_remove_witness :
    ([5, 5, 5] : List Int).length ≤ [true, true, false, false, true, false].count false ∧
    ∃ l flips' l' b Ls', run (([5, 5, 5] : List Int).map Op.insert) empty
        [true, true, false, false, true, false] = Except.ok (l, flips') ∧
      Remove l 5 = Except.ok (l', b) ∧ levelsOf l' = Except.ok Ls' ∧
      ∀ k w, ¬ Hole Ls' k w :=
  ⟨by decide,
    C12_no_hole_after_remove [5, 5, 5] [true, true, false, false, true, false] 5 (by decide)⟩

/-- C13.  After every sequence of `Insert` and `Remove` calls and for every
outcome of the coin flips that lets the calls return, at every level the
values of the real nodes along the forward links from the sentinel are in
non-decreasing order. -/
theorem C13_every_level_sorted (ops : List Op) (flips : List Bool)
    (hc : numInserts ops ≤ flips.count false) :
    ∃ l flips' Ls, run ops empty flips = Except.ok (l, flips') ∧
      levelsOf l = Except.ok Ls ∧
      ∀ L ∈ Ls, (L.nodes.map Cell.val).Sorted (fun a b => a ≤ b) := by
  obtain ⟨l, Ls, flips', hrun, hinv, _, _, _⟩ := run_empty ops flips hc
  exact ⟨l, flips', Ls, hrun, levelsOf_inv hinv, fun L hL => (hinv.stack.wf L hL).sorted⟩

/-- C13, at the inserts 5, 3, 8, 1 with towers of heights 2, 1, 3, 1. -/
theorem C13_every_level_sorted_witness :
    numInserts [Op.insert 5, Op.insert 3, Op.insert 8, Op.insert 1] ≤
      [true, false, false, true, true, false, false].count false ∧
    ∃ l flips' Ls, run [Op.insert 5, Op.insert 3, Op.insert 8, Op.insert 1] empty
        [true, false, false, true, true, false, false] = Except.ok (l, flips') ∧
      levelsOf l = Except.ok Ls ∧
      ∀ L ∈ Ls, (L.nodes.map Cell.val).Sorted (fun a b => a ≤ b) :=
  ⟨by decide,
    C13_every_level_sorted [Op.insert 5, Op.insert 3, Op.insert 8, Op.insert 1]
      [true, false, false, true, true, false, false] (by decide)⟩

/-- C16.  If `v` occurs exactly once in a structure built by `Insert` and
`Remove` calls, then after `Remove(v)` every level keeps its sentinel and
exactly its nodes whose value is not `v`, in their order: no node with value
`v` is linked at any level and the nodes of every other value are linked as
before. -/
theorem C16_remove_single (ops : List Op) (flips : List Bool) (v : Int)
    (hc : numInserts ops ≤ flips.count false) (hv : (bag ops).count v = 1) :
    ∃ l flips' Ls l' b Ls', run ops empty flips = Except.ok (l, flips') ∧
      levelsOf l = Except.ok Ls ∧ Remove l v = Except.ok (l', b) ∧
      levelsOf l' = Except.ok Ls' ∧ Ls'.length = Ls.length ∧
      ∀ (j : Nat) (L : Level), Ls[j]? = some L →
        Ls'[j]? = some (Level.mk L.hd (L.nodes.filter (fun c => decide (c.val ≠ v)))) := by
  obtain ⟨l, Ls, flips', hrun, hinv, _, hbag, _⟩ := run_empty ops flips hc
  obtain ⟨h', hrem, hinv'⟩ := Remove_inv v hinv
  have hcnt : (level0 Ls).count v = 1 := by
    rw [← Multiset.coe_count, hbag]; exact hv
  refine ⟨l, flips', Ls, _, false, _, hrun, levelsOf_inv hinv, hrem, levelsOf_inv hinv',
    by simp, ?_⟩
  intro j L hL
  have hmem : L ∈ Ls := List.getElem?_mem hL
  have hle := count_le_level0 v Ls hinv.stack.twin L hmem
  rw [List.getElem?_map, hL]
  show some (eraseLevel v L) = _
  simp only [eraseLevel]
  rw [eraseP_eq_filter_of_count_le_one v L.nodes (by omega)]

/-- C16, at the inserts 5, 3, 8, 1 (towers of heights 2, 1, 3, 1) and the
removal of 8. -/
theorem C16_remove_single_witness :
    numInserts [Op.insert 5, Op.insert 3, Op.insert 8, Op.insert 1] ≤
      [true, false, false, true, true, false, false].count false ∧
    (bag [Op.insert 5, Op.insert 3, Op.insert 8, Op.insert 1]).count 8 = 1 ∧
    ∃ l flips' Ls l' b Ls', run [Op.insert 5, Op.insert 3, Op.insert 8, Op.insert 1] empty
        [true, false, false, true, true, false, false] = Except.ok (l, flips') ∧
      levelsOf l = Except.ok Ls ∧ Remove l 8 = Except.ok (l', b) ∧
      levelsOf l' = Except.ok Ls' ∧ Ls'.length = Ls.length ∧
      ∀ (j : Nat) (L : Level), Ls[j]? = some L →
        Ls'[j]? = some (Level.mk L.hd (L.nodes.filter (fun c => decide (c.val ≠ 8)))) :=
  ⟨by decide, by decide,
    C16_remove_single [Op.insert 5, Op.insert 3, Op.insert 8, Op.insert 1]
      [true, false, false, true, true, false, false] 8 (by decide) (by decide)⟩

/-- C17.  On a structure built by `Insert` and `Remove` calls, with `h`
levels, `walk` started at `l.head` calls its callback exactly `h` times, once
per level from level 0 up to the top level, each time with the rightmost node
of the level whose value is strictly less than the target (the sentinel when
there is none), and leaves the heap alone; on the zero-value structure it
calls the callback zero times. -/
theorem C17_walk_boundaries (ops : List Op) (flips : List Bool) (v : Int)
    (hc : numInserts ops ≤ flips.count false) :
    (∃ l flips' Ls, run ops empty flips = Except.ok (l, flips') ∧
      levelsOf l = Except.ok Ls ∧
      walk v recordCallback l.heap.length l.head (l.heap, []) =
        Except.ok (l.heap, Ls.map (fun L => (rightmostBelow v L).addr))) ∧
    walk v recordCallback empty.heap.length empty.head (empty.heap, []) =
      Except.ok (empty.heap, []) := by
  refine ⟨?_, rfl⟩
  obtain ⟨l, Ls, flips', hrun, hinv, _, _, _⟩ := run_empty ops flips hc
  refine ⟨l, flips', Ls, hrun, levelsOf_inv hinv, ?_⟩
  rw [walk_eq_fold, walkPath_inv hinv v]
  simp only [bind, Except.bind, fold_recordCallback, List.nil_append]
  congr 2
  apply List.map_congr_left
  intro L hL
  rw [rightmostBelow_eq_bd v (hinv.stack.wf L hL)]

/-- C17, at the inserts 5, 3, 8, 1 (three levels) and the target 6. -/
theorem C17_walk_boundaries_witness :
    numInserts [Op.insert 5, Op.insert 3, Op.insert 8, Op.insert 1] ≤
      [true, false, false, true, true, false, false].count false ∧
    ((∃ l flips' Ls, run [Op.insert 5, Op.insert 3, Op.insert 8, Op.insert 1] empty
        [true, false, false, true, true, false, false] = Except.ok (l, flips') ∧
      levelsOf l = Except.ok Ls ∧
      walk 6 recordCallback l.heap.length l.head (l.heap, []) =
        Except.ok (l.heap, Ls.map (fun L => (rightmostBelow 6 L).addr))) ∧
    walk 6 recordCallback empty.heap.length empty.head (empty.heap, []) =
      Except.ok (empty.heap, [])) :=
  ⟨by decide,
    C17_walk_boundaries [Op.insert 5, Op.insert 3, Op.insert 8, Op.insert 1]
      [true, false, false, true, true, false, false] 6 (by decide)⟩

end skiplist

namespace skiplist

/-! ## The claims about Insert level by level, and about the random source -/

theorem newAddr_ge (n h j : Nat) : n ≤ newAddr n h j := by
  unfold newAddr
  split <;> omega

theorem newSentinel_down_top (n h : Nat) (head : Option Nat) :
    (newSentinel n h h head).down = head := by
  simp [newSentinel]

theorem newSentinel_down_above (n h j : Nat) (head : Option Nat) (hj : h < j) :
    (newSentinel n h j head).down = some (newSentinel n h (j - 1) head).addr := by
  have h1 : ¬ (j = h) := by omega
  have h2 : ¬ (j < h) := by omega
  have h3 : ¬ (j - 1 < h) := by omega
  simp only [newSentinel, newAddr, h1, h2, h3, if_false, Option.some.injEq]
  omega

/-- The results of the queries in a sequence of calls depend only on the
values at level 0, not on the coin flips. -/
theorem observe_level0 :
    ∀ (cs : List Call) (l1 l2 : SkipList) (Ls1 Ls2 : List Level) (fl1 fl2 : List Bool),
      Inv l1 Ls1 → Inv l2 Ls2 → Ls1 ≠ [] → Ls2 ≠ [] → level0 Ls1 = level0 Ls2 →
      numCallInserts cs ≤ fl1.count false → numCallInserts cs ≤ fl2.count false →
      ∃ rs, observe cs l1 fl1 = Except.ok rs ∧ observe cs l2 fl2 = Except.ok rs := by
  intro cs
  induction cs with
  | nil => intro l1 l2 Ls1 Ls2 fl1 fl2 _ _ _ _ _ _ _; exact ⟨[], rfl, rfl⟩
  | cons c cs ih =>
    intro l1 l2 Ls1 Ls2 fl1 fl2 hi1 hi2 hne1 hne2 hlev hc1 hc2
    cases c with
    | insert v =>
      simp only [numCallInserts] at hc1 hc2
      have hf1 : false ∈ fl1 := mem_false_of_count (by omega)
      have hf2 : false ∈ fl2 := mem_false_of_count (by omega)
      obtain ⟨l1', Ls1', hins1, hinv1, _, h01, hn1⟩ := Insert_ok v hi1 fl1 hf1
      obtain ⟨l2', Ls2', hins2, hinv2, _, h02, hn2⟩ := Insert_ok v hi2 fl2 hf2
      have hk1 := count_false_afterFirstFalse fl1 hf1
      have hk2 := count_false_afterFirstFalse fl2 hf2
      obtain ⟨rs, hr1, hr2⟩ := ih l1' l2' Ls1' Ls2' (afterFirstFalse fl1) (afterFirstFalse fl2)
        hinv1 hinv2 hn1 hn2
        (by rw [h01, h02, hlev]) (by omega) (by omega)
      refine ⟨rs, ?_, ?_⟩
      · simp only [observe, bind, Except.bind, hins1]; exact hr1
      · simp only [observe, bind, Except.bind, hins2]; exact hr2
    | remove v =>
      simp only [numCallInserts] at hc1 hc2
      obtain ⟨h1', hrem1, hinv1⟩ := Remove_inv v hi1
      obtain ⟨h2', hrem2, hinv2⟩ := Remove_inv v hi2
      obtain ⟨rs, hr1, hr2⟩ := ih _ _ _ _ fl1 fl2 hinv1 hinv2 (by simpa using hne1)
        (by simpa using hne2) (by rw [level0_erase, level0_erase, hlev]) hc1 hc2
      refine ⟨rs, ?_, ?_⟩
      · simp only [observe, bind, Except.bind, hrem1]; exact hr1
      · simp only [observe, bind, Except.bind, hrem2]; exact hr2
    | get v =>
      simp only [numCallInserts] at hc1 hc2
      obtain ⟨rs, hr1, hr2⟩ := ih l1 l2 Ls1 Ls2 fl1 fl2 hi1 hi2 hne1 hne2 hlev hc1 hc2
      have hg1 := Get_level0 hi1 hne1 v
      have hg2 := Get_level0 hi2 hne2 v
      by_cases hv : v ∈ level0 Ls1
      · refine ⟨Obs.got (v, true) :: rs, ?_, ?_⟩
        · simp only [observe, bind, Except.bind, hg1.1 hv, hr1]; rfl
        · simp only [observe, bind, Except.bind, hg2.1 (hlev ▸ hv), hr2]; rfl
      · refine ⟨Obs.got (0, false) :: rs, ?_, ?_⟩
        · simp only [observe, bind, Except.bind, hg1.2 hv, hr1]; rfl
        · simp only [observe, bind, Except.bind, hg2.2 (hlev ▸ hv), hr2]; rfl
    | iterate =>
      simp only [numCallInserts] at hc1 hc2
      obtain ⟨rs, hr1, hr2⟩ := ih l1 l2 Ls1 Ls2 fl1 fl2 hi1 hi2 hne1 hne2 hlev hc1 hc2
      refine ⟨Obs.yielded (level0 Ls1) :: rs, ?_, ?_⟩
      · simp only [observe, bind, Except.bind, iterateAll_level0 hi1 hne1, hr1]; rfl
      · simp only [observe, bind, Except.bind, iterateAll_level0 hi2 hne2, hr2, hlev]; rfl
    | iterateFrom v =>
      simp only [numCallInserts] at hc1 hc2
      obtain ⟨rs, hr1, hr2⟩ := ih l1 l2 Ls1 Ls2 fl1 fl2 hi1 hi2 hne1 hne2 hlev hc1 hc2
      refine ⟨Obs.yielded (suffixFrom v (level0 Ls1)) :: rs, ?_, ?_⟩
      · simp only [observe, bind, Except.bind, iterateFromAll_level0 hi1 hne1, hr1]; rfl
      · simp only [observe, bind, Except.bind, iterateFromAll_level0 hi2 hne2, hr2, hlev]; rfl

/-- C14.  On a structure built by `Insert` and `Remove` calls, of height
`h ≥ 1`, with coin flips that give `k` successes before the first failure,
`Insert(v)` adds exactly one node with value `v` at each of the levels `0..k`
and at no other level.  At an existing level the new node stands right after
the nodes with a value less than `v` and right before the others, which stay
as they were; the `Down` of the new node is the new node one level below, nil
at level 0; the new nodes are freshly allocated; every existing level above
`k` is unchanged; a level above the old top holds the new node only. -/
theorem C14_insert_places (ops : List Op) (flips : List Bool) (v : Int) (k : Nat)
    (rest : List Bool) (hins : ∃ x, Op.insert x ∈ ops)
    (hc : numInserts ops ≤ flips.count false) :
    ∃ l flips' Ls l' Ls', run ops empty flips = Except.ok (l, flips') ∧
      levelsOf l = Except.ok Ls ∧ 1 ≤ Ls.length ∧
      Insert l v (List.replicate k true ++ false :: rest) = Except.ok (l', rest) ∧
      levelsOf l' = Except.ok Ls' ∧
      (∀ (j : Nat) (L : Level), Ls[j]? = some L → j ≤ k →
        ∃ pre post, L.nodes = pre ++ post ∧ (∀ x ∈ pre, x.val < v) ∧
          (∀ x ∈ post, v ≤ x.val) ∧
          Ls'[j]? = some (Level.mk L.hd
            (pre ++ newNode v l.heap.length Ls.length j :: post))) ∧
      (∀ (j : Nat) (L : Level), Ls[j]? = some L → k < j → Ls'[j]? = some L) ∧
      (∀ j, Ls.length ≤ j → j ≤ k →
        ∃ s, Ls'[j]? = some (Level.mk s [newNode v l.heap.length Ls.length j])) ∧
      Ls'.length = max Ls.length (k + 1) ∧
      (∀ j, l.heap.length ≤ (newNode v l.heap.length Ls.length j).addr) := by
  obtain ⟨l, Ls, flips', hrun, hinv, _, _, hne⟩ := run_empty ops flips hc
  obtain ⟨l', Ls', hinsert, hinv', hlen, hlow, hkeep, hnew⟩ := Insert_levels v hinv k rest
  have hpos : 1 ≤ Ls.length := List.length_pos.2 (hne hins)
  refine ⟨l, flips', Ls, l', Ls', hrun, levelsOf_inv hinv, hpos, hinsert, levelsOf_inv hinv',
    ?_, ?_, ?_, hlen, fun j => newAddr_ge _ _ _⟩
  · intro j L hL hjk
    have hj : j < Ls.length := (List.getElem?_eq_some_iff.1 hL).1
    obtain ⟨pre, post, hsplit, hpre, hpost, heq⟩ :=
      insAt_split v (newNode v l.heap.length Ls.length j) (hinv.stack.wf L (List.getElem?_mem hL))
    refine ⟨pre, post, hsplit, hpre, hpost, ?_⟩
    rw [hlow j hj hjk, hL, Option.map_some', heq]
  · intro j L hL hjk
    have hj : j < Ls.length := (List.getElem?_eq_some_iff.1 hL).1
    rw [hkeep j hj hjk, hL]
  · intro j hj hjk
    exact ⟨_, hnew j hj hjk⟩

/-- C14, at the inserts 5, 3, 8, 1 (three levels) followed by `Insert(4)`
with one success before the first failure. -/
theorem C14_insert_places_witness :
    (∃ x, Op.insert x ∈ [Op.insert 5, Op.insert 3, Op.insert 8, Op.insert 1]) ∧
    numInserts [Op.insert 5, Op.insert 3, Op.insert 8, Op.insert 1] ≤
      [true, false, false, true, true, false, false].count false ∧
    ∃ l flips' Ls l' Ls', run [Op.insert 5, Op.insert 3, Op.insert 8, Op.insert 1] empty
        [true, false, false, true, true, false, false] = Except.ok (l, flips') ∧
      levelsOf l = Except.ok Ls ∧ 1 ≤ Ls.length ∧
      Insert l 4 (List.replicate 1 true ++ false :: []) = Except.ok (l', []) ∧
      levelsOf l' = Except.ok Ls' ∧
      (∀ (j : Nat) (L : Level), Ls[j]? = some L → j ≤ 1 →
        ∃ pre post, L.nodes = pre ++ post ∧ (∀ x ∈ pre, x.val < 4) ∧
          (∀ x ∈ post, 4 ≤ x.val) ∧
          Ls'[j]? = some (Level.mk L.hd
            (pre ++ newNode 4 l.heap.length Ls.length j :: post))) ∧
      (∀ (j : Nat) (L : Level), Ls[j]? = some L → 1 < j → Ls'[j]? = some L) ∧
      (∀ j, Ls.length ≤ j → j ≤ 1 →
        ∃ s, Ls'[j]? = some (Level.mk s [newNode 4 l.heap.length Ls.length j])) ∧
      Ls'.length = max Ls.length (1 + 1) ∧
      (∀ j, l.heap.length ≤ (newNode 4 l.heap.length Ls.length j).addr) :=
  ⟨⟨5, by decide⟩, by decide,
    C14_insert_places [Op.insert 5, Op.insert 3, Op.insert 8, Op.insert 1]
      [true, false, false, true, true, false, false] 4 1 [] ⟨5, by decide⟩ (by decide)⟩

/-- C15.  On a structure built by `Insert` and `Remove` calls, of height `h`
(0 for the zero-value structure), with coin flips that give `k` successes
before the first failure, the height after `Insert(v)` is `max h (k + 1)`.
Each level the call creates holds a fresh sentinel followed by the new node
only, and the `Down` of that sentinel is the sentinel that was the top before:
`l.head` for the first level created, the sentinel created just before for
the others. -/
theorem C15_insert_height (ops : List Op) (flips : List Bool) (v : Int) (k : Nat)
    (rest : List Bool) (hc : numInserts ops ≤ flips.count false) :
    ∃ l flips' Ls l' Ls', run ops empty flips = Except.ok (l, flips') ∧
      levelsOf l = Except.ok Ls ∧ l.head = Ls.getLast?.map (fun L => L.hd.addr) ∧
      Insert l v (List.replicate k true ++ false :: rest) = Except.ok (l', rest) ∧
      levelsOf l' = Except.ok Ls' ∧ Ls'.length = max Ls.length (k + 1) ∧
      (∀ j, Ls.length ≤ j → j ≤ k →
        Ls'[j]? = some (Level.mk (newSentinel l.heap.length Ls.length j l.head)
          [newNode v l.heap.length Ls.length j])) ∧
      (newSentinel l.heap.length Ls.length Ls.length l.head).down = l.head ∧
      (∀ j, Ls.length < j →
        (newSentinel l.heap.length Ls.length j l.head).down =
          some (newSentinel l.heap.length Ls.length (j - 1) l.head).addr) ∧
      (∀ j, (newSentinel l.heap.length Ls.length j l.head).isHead = true ∧
        l.heap.length ≤ (newSentinel l.heap.length Ls.length j l.head).addr) := by
  obtain ⟨l, Ls, flips', hrun, hinv, _, _, _⟩ := run_empty ops flips hc
  obtain ⟨l', Ls', hinsert, hinv', hlen, _, _, hnew⟩ := Insert_levels v hinv k rest
  refine ⟨l, flips', Ls, l', Ls', hrun, levelsOf_inv hinv, hinv.head_eq, hinsert,
    levelsOf_inv hinv', hlen, hnew, newSentinel_down_top _ _ _,
    fun j hj => newSentinel_down_above _ _ j _ hj, fun j => ⟨rfl, ?_⟩⟩
  have := newAddr_ge l.heap.length Ls.length j
  show l.heap.length ≤ newAddr l.heap.length Ls.length j + 1
  omega

/-- C15, at the zero-value structure and `Insert(5)` with two successes
before the first failure. -/
theorem C15_insert_height_witness :
    numInserts [] ≤ ([] : List Bool).count false ∧
    ∃ l flips' Ls l' Ls', run [] empty [] = Except.ok (l, flips') ∧
      levelsOf l = Except.ok Ls ∧ l.head = Ls.getLast?.map (fun L => L.hd.addr) ∧
      Insert l 5 (List.replicate 2 true ++ false :: []) = Except.ok (l', []) ∧
      levelsOf l' = Except.ok Ls' ∧ Ls'.length = max Ls.length (2 + 1) ∧
      (∀ j, Ls.length ≤ j → j ≤ 2 →
        Ls'[j]? = some (Level.mk (newSentinel l.heap.length Ls.length j l.head)
          [newNode 5 l.heap.length Ls.length j])) ∧
      (newSentinel l.heap.length Ls.length Ls.length l.head).down = l.head ∧
      (∀ j, Ls.length < j →
        (newSentinel l.heap.length Ls.length j l.head).down =
          some (newSentinel l.heap.length Ls.length (j - 1) l.head).addr) ∧
      (∀ j, (newSentinel l.heap.length Ls.length j l.head).isHead = true ∧
        l.heap.length ≤ (newSentinel l.heap.length Ls.length j l.head).addr) :=
  ⟨by decide, C15_insert_height [] [] 5 2 [] (by decide)⟩

/-- C18.  On a structure built by `Insert` and `Remove` calls, `Insert(v)`
returns for every sequence of coin flips that contains a failed flip and
leaves exactly the flips after the first failure; with `k` successes before
the first failure it links `k + 1` new nodes, however large `k` is. -/
theorem C18_insert_terminates (ops : List Op) (flips : List Bool) (v : Int)
    (hc : numInserts ops ≤ flips.count false) :
    ∃ l flips' Ls, run ops empty flips = Except.ok (l, flips') ∧
      levelsOf l = Except.ok Ls ∧
      (∀ coins, false ∈ coins →
        ∃ l', Insert l v coins = Except.ok (l', afterFirstFalse coins)) ∧
      (∀ (k : Nat) (rest : List Bool), ∃ l' Ls',
        Insert l v (List.replicate k true ++ false :: rest) = Except.ok (l', rest) ∧
        levelsOf l' = Except.ok Ls' ∧ nodeCount Ls' = nodeCount Ls + (k + 1)) := by
  obtain ⟨l, Ls, flips', hrun, hinv, _, _, _⟩ := run_empty ops flips hc
  refine ⟨l, flips', Ls, hrun, levelsOf_inv hinv, ?_, ?_⟩
  · intro coins hf
    obtain ⟨l', _, hins, _⟩ := Insert_ok v hinv coins hf
    exact ⟨l', hins⟩
  · intro k rest
    obtain ⟨l', Ls', hins, hinv', hcount⟩ := Insert_nodeCount v hinv k rest
    exact ⟨l', Ls', hins, levelsOf_inv hinv', hcount⟩

/-- C18, at the structure holding 5 and 3 and `Insert(4)`. -/
theorem C18_insert_terminates_witness :
    numInserts [Op.insert 5, Op.insert 3] ≤ [true, false, false].count false ∧
    ∃ l flips' Ls, run [Op.insert 5, Op.insert 3] empty [true, false, false]
        = Except.ok (l, flips') ∧
      levelsOf l = Except.ok Ls ∧
      (∀ coins, false ∈ coins →
        ∃ l', Insert l 4 coins = Except.ok (l', afterFirstFalse coins)) ∧
      (∀ (k : Nat) (rest : List Bool), ∃ l' Ls',
        Insert l 4 (List.replicate k true ++ false :: rest) = Except.ok (l', rest) ∧
        levelsOf l' = Except.ok Ls' ∧ nodeCount Ls' = nodeCount Ls + (k + 1)) :=
  ⟨by decide,
    C18_insert_terminates [Op.insert 5, Op.insert 3] [true, false, false] 4 (by decide)⟩

/-- C19.  For a fixed sequence of `Insert`, `Remove`, `Get`, `Iterate` and
`IterateFrom` calls that begins with an `Insert`, the results of all `Get`,
`Iterate` and `IterateFrom` calls are the same for any two sequences of coin
outcomes (each holding a failed outcome for every `Insert`, so that the calls
return). -/
theorem C19_results_independent_of_flips (v0 : Int) (cs : List Call) (fl1 fl2 : List Bool)
    (h1 : numCallInserts cs + 1 ≤ fl1.count false)
    (h2 : numCallInserts cs + 1 ≤ fl2.count false) :
    ∃ rs, observe (Call.insert v0 :: cs) empty fl1 = Except.ok rs ∧
      observe (Call.insert v0 :: cs) empty fl2 = Except.ok rs := by
  have hf1 : false ∈ fl1 := mem_false_of_count (by omega)
  have hf2 : false ∈ fl2 := mem_false_of_count (by omega)
  obtain ⟨l1, Ls1, hins1, hinv1, _, h01, hn1⟩ := Insert_ok v0 Inv_empty fl1 hf1
  obtain ⟨l2, Ls2, hins2, hinv2, _, h02, hn2⟩ := Insert_ok v0 Inv_empty fl2 hf2
  have hk1 := count_false_afterFirstFalse fl1 hf1
  have hk2 := count_false_afterFirstFalse fl2 hf2
  obtain ⟨rs, hr1, hr2⟩ := observe_level0 cs l1 l2 Ls1 Ls2 (afterFirstFalse fl1)
    (afterFirstFalse fl2) hinv1 hinv2 hn1 hn2
    (by rw [h01, h02]) (by omega) (by omega)
  refine ⟨rs, ?_, ?_⟩
  · simp only [observe, bind, Except.bind, hins1]; exact hr1
  · simp only [observe, bind, Except.bind, hins2]; exact hr2

/-- C19, at a sequence of calls run once with towers of height one and once
with taller towers. -/
theorem C19_results_independent_of_flips_witness :
    numCallInserts [Call.insert 3, Call.get 3, Call.remove 5, Call.iterate,
        Call.iterateFrom 4, Call.get 5] + 1 ≤ [false, false].count false ∧
    numCallInserts [Call.insert 3, Call.get 3, Call.remove 5, Call.iterate,
        Call.iterateFrom 4, Call.get 5] + 1 ≤ [true, true, false, true, false].count false ∧
    ∃ rs, observe (Call.insert 5 :: [Call.insert 3, Call.get 3, Call.remove 5, Call.iterate,
          Call.iterateFrom 4, Call.get 5]) empty [false, false] = Except.ok rs ∧
      observe (Call.insert 5 :: [Call.insert 3, Call.get 3, Call.remove 5, Call.iterate,
          Call.iterateFrom 4, Call.get 5]) empty [true, true, false, true, false]
        = Except.ok rs :=
  ⟨by decide, by decide,
    C19_results_independent_of_flips 5
      [Call.insert 3, Call.get 3, Call.remove 5, Call.iterate, Call.iterateFrom 4, Call.get 5]
      [false, false] [true, true, false, true, false] (by decide) (by decide)⟩

/-- C20.  If `v` is not present in a structure built by `Insert` and `Remove`
calls, of height `h ≥ 1`, then for coin flips that give `k` successes before
the first failure `Insert(v)` followed at once by `Remove(v)` gives back each
of the `h` original levels exactly, and every level the `Insert` added remains
as a level holding its sentinel only: the height stays `max h (k + 1)`. -/
theorem C20_insert_remove_levels (ops : List Op) (flips : List Bool) (v : Int) (k : Nat)
    (rest : List Bool) (hins : ∃ x, Op.insert x ∈ ops)
    (hc : numInserts ops ≤ flips.count false) (hv : v ∉ bag ops) :
    ∃ l flips' Ls l1 l2 b Ls2, run ops empty flips = Except.ok (l, flips') ∧
      levelsOf l = Except.ok Ls ∧ 1 ≤ Ls.length ∧
      Insert l v (List.replicate k true ++ false :: rest) = Except.ok (l1, rest) ∧
      Remove l1 v = Except.ok (l2, b) ∧ levelsOf l2 = Except.ok Ls2 ∧
      Ls2.length = max Ls.length (k + 1) ∧
      (∀ j, j < Ls.length → Ls2[j]? = Ls[j]?) ∧
      (∀ j, Ls.length ≤ j → j ≤ k →
        Ls2[j]? = some (Level.mk (newSentinel l.heap.length Ls.length j l.head) [])) := by
  obtain ⟨l, Ls, flips', hrun, hinv, _, hbag, hne⟩ := run_empty ops flips hc
  obtain ⟨l1, Ls1, hinsert, hinv1, hlen, hlow, hkeep, hnew⟩ := Insert_levels v hinv k rest
  obtain ⟨h2, hrem, hinv2⟩ := Remove_inv v hinv1
  have hpos : 1 ≤ Ls.length := List.length_pos.2 (hne hins)
  have habs : v ∉ level0 Ls := fun h => hv ((mem_level0_iff_bag hbag v).1 h)
  have hall := absent_everywhere v Ls hinv.stack.twin habs
  refine ⟨l, flips', Ls, l1, _, false, _, hrun, levelsOf_inv hinv, hpos, hinsert, hrem,
    levelsOf_inv hinv2, by rw [List.length_map]; exact hlen, ?_, ?_⟩
  · intro j hj
    rw [List.getElem?_map]
    by_cases hjk : j ≤ k
    · rw [hlow j hj hjk, Option.map_map]
      cases hL : Ls[j]? with
      | none => rfl
      | some L =>
        simp only [Option.map_some', Function.comp]
        rw [eraseLevel_insAt v _ (newNode_val v _ _ j) L]
    · rw [hkeep j hj (by omega)]
      cases hL : Ls[j]? with
      | none => rfl
      | some L =>
        simp only [Option.map_some']
        rw [eraseLevel_absent v L (hall L (List.getElem?_mem hL))]
  · intro j hj hjk
    rw [List.getElem?_map, hnew j hj hjk]
    simp [eraseLevel, List.eraseP_cons, newNode_val]

/-- C20, at the inserts 5, 3, 8, 1 (three levels) and the absent value 4
inserted with four successes before the first failure. -/
theorem C20_insert_remove_levels_witness :
    (∃ x, Op.insert x ∈ [Op.insert 5, Op.insert 3, Op.insert 8, Op.insert 1]) ∧
    numInserts [Op.insert 5, Op.insert 3, Op.insert 8, Op.insert 1] ≤
      [true, false, false, true, true, false, false].count false ∧
    (4 : Int) ∉ bag [Op.insert 5, Op.insert 3, Op.insert 8, Op.insert 1] ∧
    ∃ l flips' Ls l1 l2 b Ls2, run [Op.insert 5, Op.insert 3, Op.insert 8, Op.insert 1] empty
        [true, false, false, true, true, false, false] = Except.ok (l, flips') ∧
      levelsOf l = Except.ok Ls ∧ 1 ≤ Ls.length ∧
      Insert l 4 (List.replicate 4 true ++ false :: []) = Except.ok (l1, []) ∧
      Remove l1 4 = Except.ok (l2, b) ∧ levelsOf l2 = Except.ok Ls2 ∧
      Ls2.length = max Ls.length (4 + 1) ∧
      (∀ j, j < Ls.length → Ls2[j]? = Ls[j]?) ∧
      (∀ j, Ls.length ≤ j → j ≤ 4 →
        Ls2[j]? = some (Level.mk (newSentinel l.heap.length Ls.length j l.head) [])) :=
  ⟨⟨5, by decide⟩, by decide, by decide,
    C20_insert_remove_levels [Op.insert 5, Op.insert 3, Op.insert 8, Op.insert 1]
      [true, false, false, true, true, false, false] 4 4 [] ⟨5, by decide⟩ (by decide)
      (by decide)⟩

end skiplist
